import Mathlib

set_option maxHeartbeats 2000000

/-!
Shallow embedding of sglang/python/sglang/srt/mem_cache/radix_cache.py
(the radix tree prefix cache) and verification of the frozen claims.

Modelling conventions:
* Python ints (token ids, KV slot indices, lock_ref, evictable_size_) are Int.
* time.time() is a strictly increasing logical clock (Nat); every call to
  time.time() in the source consumes one tick.  This realises the
  monotonic-or-wall timestamp of the spec.
* The children dict of a node maps the first token of a child edge label to
  the child; it is an insertion ordered association list, which matches
  CPython dict semantics (assignment to an existing key keeps its position,
  a new key is appended at the end).
* Parent pointers are implicit: a node is addressed by the list of children
  dict keys on the walk from the root (a Path).  Python object identity for
  tree nodes coincides with path equality, because nodes are created fresh
  by insert and split and the structure is acyclic.
* heapq is modelled faithfully (heappush, heappop, heapify with the exact
  sift loops of CPython).  Node comparison x < y is
  x.last_access_time < y.last_access_time, as defined by TreeNode.__lt__.
  During eviction no timestamp is mutated, so the heap can store the
  timestamp snapshotted when the element enters the container.
* The callback passed to evict is modelled by returning the log of values
  handed to it, in call order, together with the path of the freed node.
-/

namespace RadixCacheModel

/-- Token ids and KV slot indices are opaque Python ints. -/
abbrev Tok := Int

/-- A node address: the list of children dict keys walked from the root. -/
abbrev Path := List Tok

/-- Shallow embedding of the Python class TreeNode. -/
inductive TreeNode : Type where
  | mk (key : List Tok) (value : List Tok) (lock_ref : Int)
      (last_access_time : Nat) (children : List (Tok × TreeNode)) : TreeNode

def TreeNode.key : TreeNode → List Tok
  | .mk k _ _ _ _ => k

def TreeNode.value : TreeNode → List Tok
  | .mk _ v _ _ _ => v

def TreeNode.lock_ref : TreeNode → Int
  | .mk _ _ l _ _ => l

def TreeNode.last_access_time : TreeNode → Nat
  | .mk _ _ _ tm _ => tm

def TreeNode.children : TreeNode → List (Tok × TreeNode)
  | .mk _ _ _ _ cs => cs

@[simp] theorem TreeNode.key_mk (k v : List Tok) (l : Int) (tm : Nat)
    (cs : List (Tok × TreeNode)) : (TreeNode.mk k v l tm cs).key = k := rfl

@[simp] theorem TreeNode.value_mk (k v : List Tok) (l : Int) (tm : Nat)
    (cs : List (Tok × TreeNode)) : (TreeNode.mk k v l tm cs).value = v := rfl

@[simp] theorem TreeNode.lock_ref_mk (k v : List Tok) (l : Int) (tm : Nat)
    (cs : List (Tok × TreeNode)) : (TreeNode.mk k v l tm cs).lock_ref = l := rfl

@[simp] theorem TreeNode.last_access_time_mk (k v : List Tok) (l : Int) (tm : Nat)
    (cs : List (Tok × TreeNode)) : (TreeNode.mk k v l tm cs).last_access_time = tm := rfl

@[simp] theorem TreeNode.children_mk (k v : List Tok) (l : Int) (tm : Nat)
    (cs : List (Tok × TreeNode)) : (TreeNode.mk k v l tm cs).children = cs := rfl

/-- Rebuild a node with a new timestamp (node.last_access_time = time.time()). -/
def TreeNode.withTime (t : TreeNode) (tm : Nat) : TreeNode :=
  .mk t.key t.value t.lock_ref tm t.children

/-- Rebuild a node with a new children list. -/
def TreeNode.withChildren (t : TreeNode) (cs : List (Tok × TreeNode)) : TreeNode :=
  .mk t.key t.value t.lock_ref t.last_access_time cs

/-- Rebuild a node with a new lock_ref. -/
def TreeNode.withLock (t : TreeNode) (l : Int) : TreeNode :=
  .mk t.key t.value l t.last_access_time t.children

@[simp] theorem TreeNode.withTime_key (t : TreeNode) (tm : Nat) :
    (t.withTime tm).key = t.key := rfl

@[simp] theorem TreeNode.withTime_value (t : TreeNode) (tm : Nat) :
    (t.withTime tm).value = t.value := rfl

@[simp] theorem TreeNode.withTime_lock_ref (t : TreeNode) (tm : Nat) :
    (t.withTime tm).lock_ref = t.lock_ref := rfl

@[simp] theorem TreeNode.withTime_last_access_time (t : TreeNode) (tm : Nat) :
    (t.withTime tm).last_access_time = tm := rfl

@[simp] theorem TreeNode.withTime_children (t : TreeNode) (tm : Nat) :
    (t.withTime tm).children = t.children := rfl

/-- Python dict lookup key in d / d[key]: first entry with the given key. -/
def lookupChild : List (Tok × TreeNode) → Tok → Option TreeNode
  | [], _ => none
  | (t, c) :: rest, tok => if t = tok then some c else lookupChild rest tok

/-- Python dict assignment d[key] = v: replace the value of an existing key in
place, otherwise append the new binding at the end. -/
def setChild : List (Tok × TreeNode) → Tok → TreeNode → List (Tok × TreeNode)
  | [], tok, n => [(tok, n)]
  | (t, c) :: rest, tok, n =>
    if t = tok then (t, n) :: rest else (t, c) :: setChild rest tok n

/-- Python del d[key]: remove the first binding with the given key.
(_delete_leaf locates the binding whose value is the node being deleted by
identity; under the children dict coherence invariant that binding is the one
keyed by the last step of the path of the node.) -/
def eraseChild : List (Tok × TreeNode) → Tok → List (Tok × TreeNode)
  | [], _ => []
  | (t, c) :: rest, tok => if t = tok then rest else (t, c) :: eraseChild rest tok

/-- Resolve a path from a node: follow the children dict keys. -/
def resolve : TreeNode → Path → Option TreeNode
  | t, [] => some t
  | t, tok :: rest =>
    match lookupChild t.children tok with
    | some c => resolve c rest
    | none => none

/-- The function _key_match: length of the longest common prefix. -/
def keyMatch : List Tok → List Tok → Nat
  | k0 :: r0, k1 :: r1 => if k0 = k1 then keyMatch r0 r1 + 1 else 0
  | _, _ => 0

mutual

/-- The method _total_size_helper: len(node.value) plus the recursive sum
over the children. -/
def totalSize : TreeNode → Nat
  | .mk _ v _ _ cs => v.length + totalSizeL cs

def totalSizeL : List (Tok × TreeNode) → Nat
  | [] => 0
  | (_, c) :: rest => totalSize c + totalSizeL rest

end

mutual

/-- Sum of len(n.value) over every node of the subtree (the root of the
subtree included) whose lock_ref is 0.  Written from the spec sentence
defining evictable_size; used to state the accounting invariant. -/
def evictSumN : TreeNode → Int
  | .mk _ v l _ cs => (if l = 0 then (v.length : Int) else 0) + evictSumL cs

def evictSumL : List (Tok × TreeNode) → Int
  | [] => 0
  | (_, c) :: rest => evictSumN c + evictSumL rest

end

/-- Sum of len(n.value) over every non-root node with lock_ref == 0. -/
def evictSum (root : TreeNode) : Int := evictSumL root.children

mutual

/-- Sum of len(n.value) over every node of the subtree with lock_ref > 0. -/
def pinnedSumN : TreeNode → Int
  | .mk _ v l _ cs => (if 0 < l then (v.length : Int) else 0) + pinnedSumL cs

def pinnedSumL : List (Tok × TreeNode) → Int
  | [] => 0
  | (_, c) :: rest => pinnedSumN c + pinnedSumL rest

end

/-- Sum of len(n.value) over every non-root node with lock_ref > 0. -/
def pinnedSum (root : TreeNode) : Int := pinnedSumL root.children

mutual

/-- Concatenation of the value lists of every node of the subtree, in a fixed
structural order; its multiset is the multiset of stored KV slot indices. -/
def treeVals : TreeNode → List Tok
  | .mk _ v _ _ cs => v ++ treeValsL cs

def treeValsL : List (Tok × TreeNode) → List Tok
  | [] => []
  | (_, c) :: rest => treeVals c ++ treeValsL rest

end

mutual

/-- Number of nodes of the subtree (subtree root included). -/
def nodeCount : TreeNode → Nat
  | .mk _ _ _ _ cs => 1 + nodeCountL cs

def nodeCountL : List (Tok × TreeNode) → Nat
  | [] => 0
  | (_, c) :: rest => nodeCount c + nodeCountL rest

end

mutual

/-- Structural well formedness of a subtree rooted at a non-root node:
the edge label is non empty and as long as the value segment, the lock count
is non negative, every children binding is keyed by the first token of the
edge label of the child, the dict keys are distinct, and the children are
recursively well formed.  These are the invariants of section 3 of the spec
that the reachable states of the code maintain. -/
def wfN : TreeNode → Bool
  | .mk k v l _ cs =>
    (!k.isEmpty) && (k.length = v.length) && (0 ≤ l) &&
      (cs.map Prod.fst).Nodup && wfL cs

def wfL : List (Tok × TreeNode) → Bool
  | [] => true
  | (t, c) :: rest => (c.key.head? = some t) && wfN c && wfL rest

end

/-- Well formedness of a whole tree: the root has empty key and value and a
non negative lock count, and each subtree hanging off the root is well
formed. -/
def wfRoot : TreeNode → Bool
  | .mk k v l _ cs =>
    k.isEmpty && v.isEmpty && (0 ≤ l) && (cs.map Prod.fst).Nodup && wfL cs

theorem sizeOf_lookupChild {cs : List (Tok × TreeNode)} {tok : Tok} {c : TreeNode}
    (h : lookupChild cs tok = some c) : sizeOf c < sizeOf cs := by
  induction cs with
  | nil => simp [lookupChild] at h
  | cons e rest ih =>
    obtain ⟨t, x⟩ := e
    simp only [lookupChild] at h
    by_cases ht : t = tok
    · simp [ht] at h
      subst h
      simp
      omega
    · simp [ht] at h
      have := ih h
      simp
      omega

theorem sizeOf_children_lt (t : TreeNode) : sizeOf t.children < sizeOf t := by
  cases t with
  | mk k v l tm cs => simp [TreeNode.children]

/-- The method _split_node.  The parameter key is the edge label of the child
before the split (the call sites pass child.key).  Returns the new upper
node, with the shortened child rewired below it; the update of the children
dict of the parent is performed by the caller, which holds the parent. -/
def splitNode (key : List Tok) (child : TreeNode) (splitLen : Nat) (tm : Nat) : TreeNode :=
  TreeNode.mk (child.key.take splitLen) (child.value.take splitLen) child.lock_ref tm
    [(((key.drop splitLen).headD 0),
      TreeNode.mk (child.key.drop splitLen) (child.value.drop splitLen) child.lock_ref
        child.last_access_time child.children)]

/-- The method _match_prefix_helper.  Returns the updated subtree, the list of
value segments appended to the output, the address of last_node relative to
the current node ([] when last_node stays the current node), and the clock
after the call. -/
def prefixMatchHelper (node : TreeNode) (key : List Tok) (clock : Nat) :
    TreeNode × List (List Tok) × Path × Nat :=
  let node' := node.withTime clock
  let clock' := clock + 1
  match key with
  | [] => (node', [], [], clock')
  | k0 :: _ =>
    match hl : lookupChild node'.children k0 with
    | none => (node', [], [], clock')
    | some child =>
      let plen := keyMatch child.key key
      if plen < child.key.length then
        let newNode := splitNode child.key child plen clock'
        (node'.withChildren (setChild node'.children ((child.key.take plen).headD 0) newNode),
          [newNode.value], [(child.key.take plen).headD 0], clock' + 1)
      else
        let r := prefixMatchHelper child (key.drop plen) clock'
        (node'.withChildren (setChild node'.children k0 r.1),
          child.value :: r.2.1, k0 :: r.2.2.1, r.2.2.2)
termination_by sizeOf node
decreasing_by
  have h1 : sizeOf child < sizeOf node.children := by
    have heq : (node.withTime clock).children = node.children := rfl
    exact sizeOf_lookupChild (heq ▸ hl)
  have h2 := sizeOf_children_lt node
  omega

/-- The method _insert_helper, with a fuel parameter: the Python recursion is
not structurally terminating on arbitrary object graphs, and the public
insert calls it with provably sufficient fuel (each recursive call strictly
shortens the remaining key on well formed trees).  Returns the updated
subtree, the returned prefix length, the signed change applied to
evictable_size_, and the clock after the call. -/
def insertHelper : Nat → TreeNode → List Tok → List Tok → Nat →
    Option (TreeNode × Nat × Int × Nat)
  | 0, _, _, _, _ => none
  | fuel + 1, node, key, value, clock =>
    let node' := node.withTime clock
    let clock' := clock + 1
    match key with
    | [] => some (node', 0, 0, clock')
    | k0 :: _ =>
      match lookupChild node'.children k0 with
      | some child =>
        let plen := keyMatch child.key key
        if plen = child.key.length then
          if plen = key.length then
            some (node', plen, 0, clock')
          else
            match insertHelper fuel child (key.drop plen) (value.drop plen) clock' with
            | some (child', r, d, clock'') =>
              some (node'.withChildren (setChild node'.children k0 child'),
                plen + r, d, clock'')
            | none => none
        else
          let newNode := splitNode child.key child plen clock'
          match insertHelper fuel newNode (key.drop plen) (value.drop plen) (clock' + 1) with
          | some (nn', r, d, clock'') =>
            some (node'.withChildren
              (setChild node'.children ((child.key.take plen).headD 0) nn'),
              plen + r, d, clock'')
          | none => none
      | none =>
        let leaf := TreeNode.mk key value 0 clock' []
        some (node'.withChildren (setChild node'.children k0 leaf), 0,
          (value.length : Int), clock' + 1)

/-- The method inc_lock_ref, walking from the addressed node up to (but not
including) the root.  The walk is rendered top down along the path; each
node on the path applies exactly the updates the Python loop applies to it.
Returns the updated tree, the accumulated change of evictable_size_, and the
returned delta, mirroring the two separate accumulations of the source. -/
def incLockWalk : TreeNode → Path → TreeNode × Int × Int
  | t, [] => (t, 0, 0)
  | t, tok :: rest =>
    match lookupChild t.children tok with
    | none => (t, 0, 0)
    | some c =>
      let r := incLockWalk c rest
      let ev := if r.1.lock_ref = 0 then r.2.1 - (r.1.value.length : Int) else r.2.1
      let d := if r.1.lock_ref = 0 then r.2.2 - (r.1.value.length : Int) else r.2.2
      (t.withChildren (setChild t.children tok (r.1.withLock (r.1.lock_ref + 1))), ev, d)

/-- The method dec_lock_ref, same shape as inc_lock_ref. -/
def decLockWalk : TreeNode → Path → TreeNode × Int × Int
  | t, [] => (t, 0, 0)
  | t, tok :: rest =>
    match lookupChild t.children tok with
    | none => (t, 0, 0)
    | some c =>
      let r := decLockWalk c rest
      let ev := if r.1.lock_ref = 1 then r.2.1 + (r.1.value.length : Int) else r.2.1
      let d := if r.1.lock_ref = 1 then r.2.2 + (r.1.value.length : Int) else r.2.2
      (t.withChildren (setChild t.children tok (r.1.withLock (r.1.lock_ref - 1))), ev, d)

/-- The method _delete_leaf: drop the binding of the addressed node from the
children dict of its parent and charge -len(node.key) to evictable_size_.
A path that does not resolve leaves the tree unchanged (unreachable from
valid states: the eviction heap only holds live nodes). -/
def deleteLeaf : TreeNode → Path → TreeNode × Int
  | t, [] => (t, 0)
  | t, [tok] =>
    match lookupChild t.children tok with
    | none => (t, 0)
    | some c => (t.withChildren (eraseChild t.children tok), -(c.key.length : Int))
  | t, tok :: rest =>
    match lookupChild t.children tok with
    | none => (t, 0)
    | some c =>
      let r := deleteLeaf c rest
      (t.withChildren (setChild t.children tok r.1), r.2)

/-- Stack measure for the iterative DFS of _collect_leaves: total number of
tree nodes still on the stack. -/
def stackSize (s : List (Path × TreeNode)) : Nat :=
  (s.map (fun e => nodeCount e.2)).sum

theorem nodeCountL_eq_sum (cs : List (Tok × TreeNode)) :
    nodeCountL cs = (cs.map (fun e : Tok × TreeNode => nodeCount e.2)).sum := by
  induction cs with
  | nil => simp [nodeCountL]
  | cons e rest ih =>
    obtain ⟨tok, c⟩ := e
    simp [nodeCountL, ih]

theorem nodeCount_pos (t : TreeNode) : 0 < nodeCount t := by
  cases t with
  | mk k v l tm cs => simp [nodeCount]

@[simp] theorem stackSize_nil : stackSize [] = 0 := rfl

@[simp] theorem stackSize_cons (e : Path × TreeNode) (s : List (Path × TreeNode)) :
    stackSize (e :: s) = nodeCount e.2 + stackSize s := by
  simp [stackSize]

theorem stackSize_append (a b : List (Path × TreeNode)) :
    stackSize (a ++ b) = stackSize a + stackSize b := by
  simp [stackSize]

theorem stackSize_reverse (a : List (Path × TreeNode)) :
    stackSize a.reverse = stackSize a := by
  simp [stackSize, List.sum_reverse]

/-- The iterative DFS of _collect_leaves.  The Python stack pops from the
end of the list and extends with children.values(); here the head of the
list is the top of the stack, so an extension pushes the children reversed
(the last child of the dict is visited first, as in the source).  Nodes are
reported as their paths from the root. -/
def collectGo : List (Path × TreeNode) → List Path → List Path
  | [], acc => acc
  | (p, t) :: stack, acc =>
    if t.children.isEmpty then collectGo stack (acc ++ [p])
    else collectGo ((t.children.map (fun e => (p ++ [e.1], e.2))).reverse ++ stack) acc
termination_by s _ => stackSize s
decreasing_by
  · have := nodeCount_pos t
    simp
    omega
  · have hc : ((fun e : Path × TreeNode => nodeCount e.2) ∘
        fun e : Tok × TreeNode => (p ++ [e.1], e.2))
        = fun e : Tok × TreeNode => nodeCount e.2 := rfl
    have h1 : nodeCount t = 1 + nodeCountL t.children := by
      cases t with
      | mk k v l tm cs => simp [nodeCount, TreeNode.children]
    simp [stackSize_append, stackSize_reverse, stackSize, hc]
    rw [List.sum_reverse, ← nodeCountL_eq_sum]
    omega

/-- The method _collect_leaves, reporting paths of the childless nodes in
DFS pop order. -/
def collectLeaves (root : TreeNode) : List Path := collectGo [([], root)] []

/-! The CPython heapq functions used by evict, modelled verbatim on lists.
Comparison is a strict boolean order, matching TreeNode.__lt__. -/

/-- The loop of heapq._siftdown: bubble the new item towards the root while
it is strictly smaller than its parent.  The pending write of newitem at the
current position is kept implicit and performed on exit, exactly as the
CPython code does (the loop never reads the current position). -/
def siftdownAux {α : Type} [Inhabited α] (lt : α → α → Bool) (newitem : α)
    (startpos : Nat) : Nat → List α → List α
  | pos, heap =>
    if startpos < pos then
      let parentpos := (pos - 1) / 2
      let parent := heap.getD parentpos default
      if lt newitem parent then siftdownAux lt newitem startpos parentpos (heap.set pos parent)
      else heap.set pos newitem
    else heap.set pos newitem
termination_by pos _ => pos
decreasing_by
  calc (pos - 1) / 2 ≤ pos - 1 := Nat.div_le_self _ _
    _ < pos := by omega

/-- The loop of heapq._siftup: move the hole at pos down to a leaf, always
following the smaller child, then let _siftdown place newitem. -/
def siftupAux {α : Type} [Inhabited α] (lt : α → α → Bool) (newitem : α)
    (startpos : Nat) : Nat → List α → List α
  | pos, heap =>
    if h : 2 * pos + 1 < heap.length then
      let childpos :=
        if 2 * pos + 2 < heap.length &&
            !(lt (heap.getD (2 * pos + 1) default) (heap.getD (2 * pos + 2) default)) then
          2 * pos + 2
        else 2 * pos + 1
      siftupAux lt newitem startpos childpos (heap.set pos (heap.getD childpos default))
    else siftdownAux lt newitem startpos pos heap
termination_by pos heap => heap.length - pos
decreasing_by
  simp only [List.length_set]
  split <;> omega

/-- heapq.heappush: append, then sift down from the new slot. -/
def heappush {α : Type} [Inhabited α] (lt : α → α → Bool) (heap : List α) (item : α) :
    List α :=
  siftdownAux lt item 0 heap.length (heap ++ [item])

/-- heapq.heappop: remove the last element; if the heap is still non empty,
return the old front, move the last element to the front and sift it up.
Returns none only on an empty heap (the call sites guard on len(leaves)). -/
def heappop {α : Type} [Inhabited α] (lt : α → α → Bool) (heap : List α) :
    Option (α × List α) :=
  match heap.getLast? with
  | none => none
  | some lastelt =>
    let rest := heap.dropLast
    if rest.isEmpty then some (lastelt, [])
    else some (rest.getD 0 default, siftupAux lt lastelt 0 0 (rest.set 0 lastelt))

/-- heapq.heapify: sift up every interior position, last first. -/
def heapifyGo {α : Type} [Inhabited α] (lt : α → α → Bool) : Nat → List α → List α
  | 0, heap => heap
  | i + 1, heap => heapifyGo lt i (siftupAux lt (heap.getD i default) i i heap)

/-- heapq.heapify on a list. -/
def heapify {α : Type} [Inhabited α] (lt : α → α → Bool) (heap : List α) : List α :=
  heapifyGo lt (heap.length / 2) heap

/-- Heap elements during eviction: the timestamp of the node when it entered
the candidate list, with its path.  TreeNode.__lt__ compares only
last_access_time, and eviction never rewrites a timestamp, so the snapshot
comparison coincides with comparing the live Python objects. -/
abbrev HeapElem := Nat × Path

/-- TreeNode.__lt__ lifted to heap elements. -/
def nodeLt : HeapElem → HeapElem → Bool := fun a b => a.1 < b.1

/-- Timestamp of the node a path resolves to (0 when the path is dead; dead
paths never enter the heap from valid states). -/
def timeOf (root : TreeNode) (p : Path) : Nat :=
  match resolve root p with
  | some n => n.last_access_time
  | none => 0

/-- The state of the cache object: the root of the tree, the running counter
evictable_size_, the logical clock standing for time.time(), and the disable
flag.  The fields flag, call_counter and token_counter of the source only
feed prints and are not part of any claim. -/
structure Cache : Type where
  root_node : TreeNode
  evictable_size_ : Int
  clock : Nat
  disable : Bool

/-- The method reset: fresh root with lock_ref 1, counter 0. -/
def resetCache (disable : Bool) (clock : Nat) : Cache :=
  { root_node := TreeNode.mk [] [] 1 clock []
    evictable_size_ := 0
    clock := clock + 1
    disable := disable }

/-- A cache as built by RadixCache.__init__ (which calls reset). -/
def freshCache (disable : Bool) : Cache := resetCache disable 0

/-- The method match_prefix: returns the concatenated matched values (the
torch.concat of the collected segments), the path of last_node, and the
updated cache. -/
def matchPref (c : Cache) (key : List Tok) : List Tok × Path × Cache :=
  if c.disable then ([], [], c)
  else
    let r := prefixMatchHelper c.root_node key c.clock
    (r.2.1.flatten, r.2.2.1, { c with root_node := r.1, clock := r.2.2.2 })

/-- The method insert.  A missing value argument defaults to a copy of the
key.  The fuel passed to _insert_helper is provably sufficient on well
formed trees (every recursive call strictly shortens the key).  Returns
none only on fuel exhaustion, which is unreachable from valid states. -/
def insert (c : Cache) (key : List Tok) (value : Option (List Tok)) :
    Option (Cache × Nat) :=
  if c.disable then some (c, 0)
  else
    let v := value.getD key
    match insertHelper (key.length + 2) c.root_node key v c.clock with
    | some (root', r, d, clock') =>
      some ({ c with
        root_node := root'
        evictable_size_ := c.evictable_size_ + d
        clock := clock' }, r)
    | none => none

/-- The method inc_lock_ref on the node addressed by p; returns the delta. -/
def incLockRef (c : Cache) (p : Path) : Cache × Int :=
  if c.disable then (c, 0)
  else
    let r := incLockWalk c.root_node p
    ({ c with root_node := r.1, evictable_size_ := c.evictable_size_ + r.2.1 }, r.2.2)

/-- The method dec_lock_ref on the node addressed by p; returns the delta. -/
def decLockRef (c : Cache) (p : Path) : Cache × Int :=
  if c.disable then (c, 0)
  else
    let r := decLockWalk c.root_node p
    ({ c with root_node := r.1, evictable_size_ := c.evictable_size_ + r.2.1 }, r.2.2)

/-- The method total_size. -/
def cacheTotalSize (c : Cache) : Nat := totalSize c.root_node

/-- The method evictable_size. -/
def evictableSize (c : Cache) : Int := c.evictable_size_

/-- The while loop of the method evict.  The callback is modelled by the
freed log: the values handed to evict_callback in call order, paired with
the path of the freed node.  Fuel only bounds the iteration count; the
public entry point passes enough for the loop to run to its Python exit
condition (each iteration pops one element and pushes at most one, and a
push is preceded by a node deletion). -/
def evictLoop (numTokens : Nat) : Nat → TreeNode → Int → List HeapElem → Nat →
    List (Path × List Tok) → TreeNode × Int × Nat × List (Path × List Tok)
  | 0, t, ev, _, ne, freed => (t, ev, ne, freed)
  | fuel + 1, t, ev, heap, ne, freed =>
    if ne < numTokens ∧ heap ≠ [] then
      match heappop nodeLt heap with
      | none => (t, ev, ne, freed)
      | some (x, heap') =>
        if x.2 = [] then (t, ev, ne, freed)
        else
          match resolve t x.2 with
          | none => evictLoop numTokens fuel t ev heap' ne freed
          | some n =>
            if 0 < n.lock_ref then evictLoop numTokens fuel t ev heap' ne freed
            else
              let freed' := freed ++ [(x.2, n.value)]
              let ne' := ne + n.value.length
              let r := deleteLeaf t x.2
              let heap'' :=
                match resolve r.1 x.2.dropLast with
                | some par =>
                  if par.children.isEmpty then
                    heappush nodeLt heap' (par.last_access_time, x.2.dropLast)
                  else heap'
                | none => heap'
              evictLoop numTokens fuel r.1 (ev + r.2) heap'' ne' freed'
    else (t, ev, ne, freed)

/-- The method evict: collect the leaves, heapify them, run the loop. -/
def evict (c : Cache) (numTokens : Nat) : Cache × List (Path × List Tok) :=
  if c.disable then (c, [])
  else
    let entries := (collectLeaves c.root_node).map (fun p => (timeOf c.root_node p, p))
    let heap := heapify nodeLt entries
    let fuel := entries.length + nodeCount c.root_node + 1
    let r := evictLoop numTokens fuel c.root_node c.evictable_size_ heap 0 []
    ({ c with root_node := r.1, evictable_size_ := r.2.1 }, r.2.2.2)

/-- The while loop of the method evict1.  Identical to the loop of evict up
to the extra reserved set test x not in wait_tensor, executed after the
root and lock tests and before any mutation; when wait_tensor is None the
membership test raises TypeError, modelled as an error result carrying no
mutation.  Membership is Python object identity, which coincides with path
equality. -/
def evict1Loop (numTokens : Nat) (wait_tensor : Option (List Path)) :
    Nat → TreeNode → Int → List HeapElem → Nat → List (Path × List Tok) →
    Except String (TreeNode × Int × Nat × List (Path × List Tok))
  | 0, t, ev, _, ne, freed => .ok (t, ev, ne, freed)
  | fuel + 1, t, ev, heap, ne, freed =>
    if ne < numTokens ∧ heap ≠ [] then
      match heappop nodeLt heap with
      | none => .ok (t, ev, ne, freed)
      | some (x, heap') =>
        if x.2 = [] then .ok (t, ev, ne, freed)
        else
          match resolve t x.2 with
          | none => evict1Loop numTokens wait_tensor fuel t ev heap' ne freed
          | some n =>
            if 0 < n.lock_ref then evict1Loop numTokens wait_tensor fuel t ev heap' ne freed
            else
              match wait_tensor with
              | none => .error "TypeError: argument of type NoneType is not iterable"
              | some ws =>
                if x.2 ∈ ws then evict1Loop numTokens wait_tensor fuel t ev heap' ne freed
                else
                  let freed' := freed ++ [(x.2, n.value)]
                  let ne' := ne + n.value.length
                  let r := deleteLeaf t x.2
                  let heap'' :=
                    match resolve r.1 x.2.dropLast with
                    | some par =>
                      if par.children.isEmpty then
                        heappush nodeLt heap' (par.last_access_time, x.2.dropLast)
                      else heap'
                    | none => heap'
                  evict1Loop numTokens wait_tensor fuel r.1 (ev + r.2) heap'' ne' freed'
    else .ok (t, ev, ne, freed)

/-- The method evict1: same as evict except that the heapify call on the
collected leaves is commented out in the source, so the loop pops from the
raw DFS ordered list, and the reserved set is consulted. -/
def evict1 (c : Cache) (numTokens : Nat) (wait_tensor : Option (List Path)) :
    Except String (Cache × List (Path × List Tok)) :=
  if c.disable then .ok (c, [])
  else
    let entries := (collectLeaves c.root_node).map (fun p => (timeOf c.root_node p, p))
    let fuel := entries.length + nodeCount c.root_node + 1
    (evict1Loop numTokens wait_tensor fuel c.root_node c.evictable_size_ entries 0 []).map
      (fun r => ({ c with root_node := r.1, evictable_size_ := r.2.1 }, r.2.2.2))

/-- The public operations of claim C1. -/
inductive Op : Type where
  | opInsert (key : List Tok) (value : Option (List Tok)) : Op
  | opMatch (key : List Tok) : Op
  | opInc (p : Path) : Op
  | opDec (p : Path) : Op
  | opEvict (numTokens : Nat) : Op
  | opEvict1 (numTokens : Nat) (wait_tensor : Option (List Path)) : Op
  | opReset : Op

/-- Apply one public operation to the cache state.  The defaults taken on
the error cases (insert fuel exhaustion, the TypeError of evict1 with a
None reserved set) leave the cache unchanged, which matches the source: an
exhausted recursion cannot happen on well formed trees, and the TypeError
is raised before the loop performs any mutation. -/
def applyOp (c : Cache) : Op → Cache
  | .opInsert k v => ((insert c k v).getD (c, 0)).1
  | .opMatch k => (matchPref c k).2.2
  | .opInc p => (incLockRef c p).1
  | .opDec p => (decLockRef c p).1
  | .opEvict n => (evict c n).1
  | .opEvict1 n w => ((evict1 c n w).toOption.getD (c, [])).1
  | .opReset => resetCache c.disable c.clock

/-- The call contracts of section 3 and section 7 of the spec that a caller
must honor: insert is called with one value per key token (a missing value
defaults to a copy of the key), and dec_lock_ref never underflows (every
node on the walked path holds a positive pin count).  All other operations
accept any argument. -/
def validArg (c : Cache) : Op → Prop
  | .opInsert k v => (v.getD k).length = k.length
  | .opDec p => ∀ q x, q ≠ [] → q <+: p → resolve c.root_node q = some x → 1 ≤ x.lock_ref
  | _ => True

/-- The states reachable from a fresh tree by sequences of valid public
operations. -/
inductive Reaches : Cache → Prop where
  | init (disable : Bool) : Reaches (freshCache disable)
  | step {c : Cache} (op : Op) : Reaches c → validArg c op → Reaches (applyOp c op)

/-! Association list lemmas for the children dict. -/

theorem lookupChild_eq_none {cs : List (Tok × TreeNode)} {tok : Tok} :
    lookupChild cs tok = none ↔ tok ∉ cs.map Prod.fst := by
  induction cs with
  | nil => simp [lookupChild]
  | cons e rest ih =>
    obtain ⟨t, c⟩ := e
    by_cases h : t = tok
    · subst h
      simp [lookupChild]
    · simp [lookupChild, h, ih]
      intro hne
      exact fun hx => h hx.symm

theorem lookupChild_mem {cs : List (Tok × TreeNode)} {tok : Tok} {c : TreeNode}
    (h : lookupChild cs tok = some c) : (tok, c) ∈ cs := by
  induction cs with
  | nil => simp [lookupChild] at h
  | cons e rest ih =>
    obtain ⟨t, x⟩ := e
    simp only [lookupChild] at h
    by_cases ht : t = tok
    · subst ht
      simp at h
      subst h
      exact List.mem_cons_self _ _
    · simp [ht] at h
      exact List.mem_cons_of_mem _ (ih h)

theorem setChild_of_lookup_none {cs : List (Tok × TreeNode)} {tok : Tok}
    (h : lookupChild cs tok = none) (n : TreeNode) :
    setChild cs tok n = cs ++ [(tok, n)] := by
  induction cs with
  | nil => simp [setChild]
  | cons e rest ih =>
    obtain ⟨t, c⟩ := e
    simp only [lookupChild] at h
    by_cases ht : t = tok
    · simp [ht] at h
    · simp [setChild, ht]
      exact ih (by simpa [ht] using h)

theorem lookup_decomp {cs : List (Tok × TreeNode)} {tok : Tok} {c : TreeNode}
    (h : lookupChild cs tok = some c) :
    ∃ l1 l2, cs = l1 ++ (tok, c) :: l2 ∧ tok ∉ l1.map Prod.fst ∧
      (∀ n, setChild cs tok n = l1 ++ (tok, n) :: l2) ∧
      eraseChild cs tok = l1 ++ l2 := by
  induction cs with
  | nil => simp [lookupChild] at h
  | cons e rest ih =>
    obtain ⟨t, x⟩ := e
    simp only [lookupChild] at h
    by_cases ht : t = tok
    · subst ht
      simp at h
      subst h
      exact ⟨[], rest, by simp, by simp, fun n => by simp [setChild],
        by simp [eraseChild]⟩
    · simp [ht] at h
      obtain ⟨l1, l2, hcs, hmem, hset, herase⟩ := ih h
      refine ⟨(t, x) :: l1, l2, by simp [hcs], ?_, fun n => ?_, ?_⟩
      · simp only [List.map_cons, List.mem_cons, not_or]
        exact ⟨fun hx => ht hx.symm, hmem⟩
      · simp [setChild, ht, hset n]
      · simp [eraseChild, ht, herase]

/-! Unfolding lemmas for the aggregates and homomorphism over append. -/

@[simp] theorem totalSize_mk (k v : List Tok) (l : Int) (tm : Nat)
    (cs : List (Tok × TreeNode)) :
    totalSize (.mk k v l tm cs) = v.length + totalSizeL cs := by
  rw [totalSize]

@[simp] theorem totalSizeL_nil : totalSizeL [] = 0 := by rw [totalSizeL]

@[simp] theorem totalSizeL_cons (e : Tok × TreeNode) (rest : List (Tok × TreeNode)) :
    totalSizeL (e :: rest) = totalSize e.2 + totalSizeL rest := by
  obtain ⟨t, c⟩ := e
  rw [totalSizeL]

theorem totalSizeL_append (a b : List (Tok × TreeNode)) :
    totalSizeL (a ++ b) = totalSizeL a + totalSizeL b := by
  induction a with
  | nil => simp
  | cons e rest ih => simp [ih]; omega

@[simp] theorem evictSumN_mk (k v : List Tok) (l : Int) (tm : Nat)
    (cs : List (Tok × TreeNode)) :
    evictSumN (.mk k v l tm cs)
      = (if l = 0 then (v.length : Int) else 0) + evictSumL cs := by
  rw [evictSumN]

@[simp] theorem evictSumL_nil : evictSumL [] = 0 := by rw [evictSumL]

@[simp] theorem evictSumL_cons (e : Tok × TreeNode) (rest : List (Tok × TreeNode)) :
    evictSumL (e :: rest) = evictSumN e.2 + evictSumL rest := by
  obtain ⟨t, c⟩ := e
  rw [evictSumL]

theorem evictSumL_append (a b : List (Tok × TreeNode)) :
    evictSumL (a ++ b) = evictSumL a + evictSumL b := by
  induction a with
  | nil => simp
  | cons e rest ih => simp [ih]; omega

@[simp] theorem pinnedSumN_mk (k v : List Tok) (l : Int) (tm : Nat)
    (cs : List (Tok × TreeNode)) :
    pinnedSumN (.mk k v l tm cs)
      = (if 0 < l then (v.length : Int) else 0) + pinnedSumL cs := by
  rw [pinnedSumN]

@[simp] theorem pinnedSumL_nil : pinnedSumL [] = 0 := by rw [pinnedSumL]

@[simp] theorem pinnedSumL_cons (e : Tok × TreeNode) (rest : List (Tok × TreeNode)) :
    pinnedSumL (e :: rest) = pinnedSumN e.2 + pinnedSumL rest := by
  obtain ⟨t, c⟩ := e
  rw [pinnedSumL]

theorem pinnedSumL_append (a b : List (Tok × TreeNode)) :
    pinnedSumL (a ++ b) = pinnedSumL a + pinnedSumL b := by
  induction a with
  | nil => simp
  | cons e rest ih => simp [ih]; omega

@[simp] theorem treeVals_mk (k v : List Tok) (l : Int) (tm : Nat)
    (cs : List (Tok × TreeNode)) :
    treeVals (.mk k v l tm cs) = v ++ treeValsL cs := by
  rw [treeVals]

@[simp] theorem treeValsL_nil : treeValsL [] = [] := by rw [treeValsL]

@[simp] theorem treeValsL_cons (e : Tok × TreeNode) (rest : List (Tok × TreeNode)) :
    treeValsL (e :: rest) = treeVals e.2 ++ treeValsL rest := by
  obtain ⟨t, c⟩ := e
  rw [treeValsL]

theorem treeValsL_append (a b : List (Tok × TreeNode)) :
    treeValsL (a ++ b) = treeValsL a ++ treeValsL b := by
  induction a with
  | nil => simp
  | cons e rest ih => simp [ih]

@[simp] theorem nodeCount_mk (k v : List Tok) (l : Int) (tm : Nat)
    (cs : List (Tok × TreeNode)) :
    nodeCount (.mk k v l tm cs) = 1 + nodeCountL cs := by
  rw [nodeCount]

@[simp] theorem nodeCountL_nil : nodeCountL [] = 0 := by rw [nodeCountL]

@[simp] theorem nodeCountL_cons (e : Tok × TreeNode) (rest : List (Tok × TreeNode)) :
    nodeCountL (e :: rest) = nodeCount e.2 + nodeCountL rest := by
  obtain ⟨t, c⟩ := e
  rw [nodeCountL]

theorem nodeCountL_append (a b : List (Tok × TreeNode)) :
    nodeCountL (a ++ b) = nodeCountL a + nodeCountL b := by
  induction a with
  | nil => simp
  | cons e rest ih => simp [ih]; omega

@[simp] theorem wfN_mk (k v : List Tok) (l : Int) (tm : Nat)
    (cs : List (Tok × TreeNode)) :
    wfN (.mk k v l tm cs)
      = ((!k.isEmpty) && (k.length = v.length) && (0 ≤ l) &&
          (cs.map Prod.fst).Nodup && wfL cs) := by
  rw [wfN]

@[simp] theorem wfL_nil : wfL [] = true := by rw [wfL]

@[simp] theorem wfL_cons (e : Tok × TreeNode) (rest : List (Tok × TreeNode)) :
    wfL (e :: rest) = ((e.2.key.head? = some e.1) && wfN e.2 && wfL rest) := by
  obtain ⟨t, c⟩ := e
  rw [wfL]

theorem wfL_append (a b : List (Tok × TreeNode)) :
    wfL (a ++ b) = (wfL a && wfL b) := by
  induction a with
  | nil => simp
  | cons e rest ih => simp [ih, Bool.and_assoc]

@[simp] theorem wfRoot_mk (k v : List Tok) (l : Int) (tm : Nat)
    (cs : List (Tok × TreeNode)) :
    wfRoot (.mk k v l tm cs)
      = (k.isEmpty && v.isEmpty && (0 ≤ l) && (cs.map Prod.fst).Nodup && wfL cs) := by
  rw [wfRoot]

/-! Aggregates under children dict updates. -/

theorem map_fst_setChild_of_some {cs : List (Tok × TreeNode)} {tok : Tok} {c : TreeNode}
    (h : lookupChild cs tok = some c) (n : TreeNode) :
    (setChild cs tok n).map Prod.fst = cs.map Prod.fst := by
  obtain ⟨l1, l2, hcs, _, hset, _⟩ := lookup_decomp h
  rw [hset n, hcs]
  simp

theorem evictSumL_setChild {cs : List (Tok × TreeNode)} {tok : Tok} {c : TreeNode}
    (h : lookupChild cs tok = some c) (n : TreeNode) :
    evictSumL (setChild cs tok n) = evictSumL cs - evictSumN c + evictSumN n := by
  obtain ⟨l1, l2, hcs, _, hset, _⟩ := lookup_decomp h
  rw [hset n, hcs, evictSumL_append, evictSumL_append]
  simp
  ring

theorem pinnedSumL_setChild {cs : List (Tok × TreeNode)} {tok : Tok} {c : TreeNode}
    (h : lookupChild cs tok = some c) (n : TreeNode) :
    pinnedSumL (setChild cs tok n) = pinnedSumL cs - pinnedSumN c + pinnedSumN n := by
  obtain ⟨l1, l2, hcs, _, hset, _⟩ := lookup_decomp h
  rw [hset n, hcs, pinnedSumL_append, pinnedSumL_append]
  simp
  ring

theorem totalSizeL_setChild {cs : List (Tok × TreeNode)} {tok : Tok} {c : TreeNode}
    (h : lookupChild cs tok = some c) (n : TreeNode) :
    (totalSizeL (setChild cs tok n) : Int)
      = (totalSizeL cs : Int) - totalSize c + totalSize n := by
  obtain ⟨l1, l2, hcs, _, hset, _⟩ := lookup_decomp h
  rw [hset n, hcs, totalSizeL_append, totalSizeL_append]
  simp
  ring

theorem nodeCountL_setChild {cs : List (Tok × TreeNode)} {tok : Tok} {c : TreeNode}
    (h : lookupChild cs tok = some c) (n : TreeNode) :
    (nodeCountL (setChild cs tok n) : Int)
      = (nodeCountL cs : Int) - nodeCount c + nodeCount n := by
  obtain ⟨l1, l2, hcs, _, hset, _⟩ := lookup_decomp h
  rw [hset n, hcs, nodeCountL_append, nodeCountL_append]
  simp
  ring

theorem treeValsL_setChild {cs : List (Tok × TreeNode)} {tok : Tok} {c : TreeNode}
    (h : lookupChild cs tok = some c) (n : TreeNode) :
    ∃ pre post, treeValsL cs = pre ++ (treeVals c ++ post) ∧
      treeValsL (setChild cs tok n) = pre ++ (treeVals n ++ post) := by
  obtain ⟨l1, l2, hcs, _, hset, _⟩ := lookup_decomp h
  refine ⟨treeValsL l1, treeValsL l2, ?_, ?_⟩
  · rw [hcs, treeValsL_append]
    simp
  · rw [hset n, treeValsL_append]
    simp

theorem wfL_setChild {cs : List (Tok × TreeNode)} {tok : Tok} {c : TreeNode}
    (h : lookupChild cs tok = some c) {n : TreeNode}
    (hwfl : wfL cs = true) (hhead : n.key.head? = some tok) (hwfn : wfN n = true) :
    wfL (setChild cs tok n) = true := by
  obtain ⟨l1, l2, hcs, _, hset, _⟩ := lookup_decomp h
  rw [hcs, wfL_append] at hwfl
  simp at hwfl
  rw [hset n, wfL_append]
  simp [hhead, hwfn]
  exact ⟨hwfl.1, hwfl.2.2⟩

/-! Aggregates under deletion of a children dict binding. -/

theorem map_fst_eraseChild_sublist (cs : List (Tok × TreeNode)) (tok : Tok) :
    List.Sublist ((eraseChild cs tok).map Prod.fst) (cs.map Prod.fst) := by
  induction cs with
  | nil => simp [eraseChild]
  | cons e rest ih =>
    obtain ⟨t, c⟩ := e
    by_cases ht : t = tok
    · simp [eraseChild, ht]
    · simp [eraseChild, ht]
      exact ih

theorem evictSumL_eraseChild {cs : List (Tok × TreeNode)} {tok : Tok} {c : TreeNode}
    (h : lookupChild cs tok = some c) :
    evictSumL (eraseChild cs tok) = evictSumL cs - evictSumN c := by
  obtain ⟨l1, l2, hcs, _, _, herase⟩ := lookup_decomp h
  rw [herase, hcs, evictSumL_append, evictSumL_append]
  simp
  ring

theorem totalSizeL_eraseChild {cs : List (Tok × TreeNode)} {tok : Tok} {c : TreeNode}
    (h : lookupChild cs tok = some c) :
    (totalSizeL (eraseChild cs tok) : Int) = (totalSizeL cs : Int) - totalSize c := by
  obtain ⟨l1, l2, hcs, _, _, herase⟩ := lookup_decomp h
  rw [herase, hcs, totalSizeL_append, totalSizeL_append]
  simp
  ring

theorem nodeCountL_eraseChild {cs : List (Tok × TreeNode)} {tok : Tok} {c : TreeNode}
    (h : lookupChild cs tok = some c) :
    (nodeCountL (eraseChild cs tok) : Int) = (nodeCountL cs : Int) - nodeCount c := by
  obtain ⟨l1, l2, hcs, _, _, herase⟩ := lookup_decomp h
  rw [herase, hcs, nodeCountL_append, nodeCountL_append]
  simp
  ring

theorem treeValsL_eraseChild {cs : List (Tok × TreeNode)} {tok : Tok} {c : TreeNode}
    (h : lookupChild cs tok = some c) :
    ∃ pre post, treeValsL cs = pre ++ (treeVals c ++ post) ∧
      treeValsL (eraseChild cs tok) = pre ++ post := by
  obtain ⟨l1, l2, hcs, _, _, herase⟩ := lookup_decomp h
  refine ⟨treeValsL l1, treeValsL l2, ?_, ?_⟩
  · rw [hcs, treeValsL_append]
    simp
  · rw [herase, treeValsL_append]

theorem wfL_eraseChild {cs : List (Tok × TreeNode)} {tok : Tok} {c : TreeNode}
    (h : lookupChild cs tok = some c) (hwfl : wfL cs = true) :
    wfL (eraseChild cs tok) = true := by
  obtain ⟨l1, l2, hcs, _, _, herase⟩ := lookup_decomp h
  rw [hcs, wfL_append] at hwfl
  simp at hwfl
  rw [herase, wfL_append]
  simp
  exact ⟨hwfl.1, hwfl.2.2⟩

/-! Lookup after update. -/

theorem lookupChild_setChild_self (cs : List (Tok × TreeNode)) (tok : Tok) (n : TreeNode) :
    lookupChild (setChild cs tok n) tok = some n := by
  induction cs with
  | nil => simp [setChild, lookupChild]
  | cons e rest ih =>
    obtain ⟨t, c⟩ := e
    by_cases ht : t = tok
    · simp [setChild, ht, lookupChild]
    · simp [setChild, ht, lookupChild, ih]

theorem lookupChild_setChild_other {cs : List (Tok × TreeNode)} {tok tok' : Tok}
    (hne : tok' ≠ tok) (n : TreeNode) :
    lookupChild (setChild cs tok n) tok' = lookupChild cs tok' := by
  induction cs with
  | nil =>
    simp [setChild, lookupChild]
    exact fun h => hne h.symm
  | cons e rest ih =>
    obtain ⟨t, c⟩ := e
    by_cases ht : t = tok
    · subst ht
      have hne2 : t ≠ tok' := fun h => hne h.symm
      simp [setChild, lookupChild, hne2]
    · simp [setChild, ht, lookupChild]
      split <;> simp [ih]

theorem lookupChild_eraseChild_other {cs : List (Tok × TreeNode)} {tok tok' : Tok}
    (hnodup : (cs.map Prod.fst).Nodup) (hne : tok' ≠ tok) :
    lookupChild (eraseChild cs tok) tok' = lookupChild cs tok' := by
  induction cs with
  | nil => simp [eraseChild]
  | cons e rest ih =>
    obtain ⟨t, c⟩ := e
    simp at hnodup
    by_cases ht : t = tok
    · subst ht
      have hne2 : t ≠ tok' := fun h => hne h.symm
      simp [eraseChild, lookupChild, hne2]
    · simp [eraseChild, ht, lookupChild]
      split
      · rfl
      · exact ih hnodup.2

end RadixCacheModel

namespace RadixCacheModel

/-! Lemmas about _key_match. -/

theorem keyMatch_le_left (a b : List Tok) : keyMatch a b ≤ a.length := by
  induction a generalizing b with
  | nil => simp [keyMatch]
  | cons x r ih =>
    cases b with
    | nil => simp [keyMatch]
    | cons y s =>
      by_cases h : x = y
      · simp [keyMatch, h]
        exact ih s
      · simp [keyMatch, h]

theorem keyMatch_le_right (a b : List Tok) : keyMatch a b ≤ b.length := by
  induction a generalizing b with
  | nil => simp [keyMatch]
  | cons x r ih =>
    cases b with
    | nil => simp [keyMatch]
    | cons y s =>
      by_cases h : x = y
      · simp [keyMatch, h]
        exact ih s
      · simp [keyMatch, h]

theorem keyMatch_take (a b : List Tok) : a.take (keyMatch a b) = b.take (keyMatch a b) := by
  induction a generalizing b with
  | nil => simp [keyMatch]
  | cons x r ih =>
    cases b with
    | nil => simp [keyMatch]
    | cons y s =>
      by_cases h : x = y
      · simp [keyMatch, h, ih s]
      · simp [keyMatch, h]

theorem keyMatch_head_pos {a b : List Tok} {k0 : Tok}
    (ha : a.head? = some k0) (hb : b.head? = some k0) : 0 < keyMatch a b := by
  cases a with
  | nil => simp at ha
  | cons x r =>
    cases b with
    | nil => simp at hb
    | cons y s =>
      simp at ha hb
      subst ha
      subst hb
      simp [keyMatch]

theorem keyMatch_mismatch {a b : List Tok} (h1 : keyMatch a b < a.length)
    (h2 : keyMatch a b < b.length) :
    a[keyMatch a b]? ≠ b[keyMatch a b]? := by
  induction a generalizing b with
  | nil => simp at h1
  | cons x r ih =>
    cases b with
    | nil => simp at h2
    | cons y s =>
      by_cases h : x = y
      · simp [keyMatch, h] at h1 h2 ⊢
        exact ih h1 h2
      · simp [keyMatch, h]

theorem keyMatch_of_pref {a b : List Tok} (h : a <+: b) : keyMatch a b = a.length := by
  induction a generalizing b with
  | nil => simp [keyMatch]
  | cons x r ih =>
    cases b with
    | nil =>
      have := h.length_le
      simp at this
    | cons y s =>
      obtain ⟨t, ht⟩ := h
      simp at ht
      obtain ⟨hxy, hrt⟩ := ht
      subst hxy
      simp [keyMatch]
      exact ih ⟨t, hrt⟩

theorem take_keyMatch_prefix (a b : List Tok) : a.take (keyMatch a b) <+: b := by
  rw [keyMatch_take]
  exact List.take_prefix _ _

/-! Small list helpers. -/

theorem headD_take {l : List Tok} {p : Nat} (hp : 0 < p) :
    (l.take p).headD 0 = l.headD 0 := by
  cases l with
  | nil => simp
  | cons x r =>
    cases p with
    | zero => omega
    | succ q => simp

theorem headD_of_head? {l : List Tok} {k : Tok} (h : l.head? = some k) :
    l.headD 0 = k := by
  cases l with
  | nil => simp at h
  | cons x r =>
    simp at h
    simp [h]

theorem head?_take {l : List Tok} {p : Nat} (hp : 0 < p) :
    (l.take p).head? = l.head? := by
  cases l with
  | nil => simp
  | cons x r =>
    cases p with
    | zero => omega
    | succ q => simp

theorem head?_drop_headD {l : List Tok} {p : Nat} (hp : p < l.length) :
    (l.drop p).head? = some ((l.drop p).headD 0) := by
  have hne : l.drop p ≠ [] := by
    intro h
    have := List.length_drop p l
    rw [h] at this
    simp at this
    omega
  cases hd : l.drop p with
  | nil => exact absurd hd hne
  | cons x r => simp

/-! Properties of wfL via membership. -/

theorem wfL_forall {cs : List (Tok × TreeNode)} (h : wfL cs = true) :
    ∀ e ∈ cs, e.2.key.head? = some e.1 ∧ wfN e.2 = true := by
  induction cs with
  | nil => simp
  | cons e rest ih =>
    simp at h
    intro x hx
    rcases List.mem_cons.mp hx with h1 | h2
    · subst h1
      exact ⟨h.1.1, h.1.2⟩
    · exact ih h.2 x h2

theorem wfL_lookup {cs : List (Tok × TreeNode)} {tok : Tok} {c : TreeNode}
    (h : wfL cs = true) (hl : lookupChild cs tok = some c) :
    c.key.head? = some tok ∧ wfN c = true :=
  wfL_forall h (tok, c) (lookupChild_mem hl)

/-! Properties of _split_node. -/

theorem splitNode_evictSumN (key : List Tok) (child : TreeNode) (p : Nat) (tm : Nat) :
    evictSumN (splitNode key child p tm) = evictSumN child := by
  cases child with
  | mk k v l tmc cs =>
    simp [splitNode]
    split
    · have h1 := List.length_take p v
      have h2 := List.length_drop p v
      omega
    · ring

theorem splitNode_pinnedSumN (key : List Tok) (child : TreeNode) (p : Nat) (tm : Nat) :
    pinnedSumN (splitNode key child p tm) = pinnedSumN child := by
  cases child with
  | mk k v l tmc cs =>
    simp [splitNode]
    split
    · have h1 := List.length_take p v
      have h2 := List.length_drop p v
      omega
    · ring

theorem splitNode_totalSize (key : List Tok) (child : TreeNode) (p : Nat) (tm : Nat) :
    totalSize (splitNode key child p tm) = totalSize child := by
  cases child with
  | mk k v l tmc cs =>
    simp [splitNode]
    have h1 := List.length_take p v
    have h2 := List.length_drop p v
    omega

theorem splitNode_nodeCount (key : List Tok) (child : TreeNode) (p : Nat) (tm : Nat) :
    nodeCount (splitNode key child p tm) = 1 + nodeCount child := by
  cases child with
  | mk k v l tmc cs =>
    simp [splitNode]

theorem splitNode_treeVals (key : List Tok) (child : TreeNode) (p : Nat) (tm : Nat) :
    treeVals (splitNode key child p tm) = treeVals child := by
  cases child with
  | mk k v l tmc cs =>
    simp [splitNode]
    rw [← List.append_assoc, List.take_append_drop]

theorem splitNode_key (key : List Tok) (child : TreeNode) (p : Nat) (tm : Nat) :
    (splitNode key child p tm).key = child.key.take p := rfl

theorem splitNode_lock (key : List Tok) (child : TreeNode) (p : Nat) (tm : Nat) :
    (splitNode key child p tm).lock_ref = child.lock_ref := rfl

theorem splitNode_wfN {child : TreeNode} (p : Nat) (tm : Nat)
    (hwf : wfN child = true) (hp0 : 0 < p) (hplen : p < child.key.length) :
    wfN (splitNode child.key child p tm) = true := by
  cases child with
  | mk k v l tmc cs =>
    simp only [TreeNode.key_mk] at hplen
    simp at hwf
    obtain ⟨⟨⟨⟨hk, hkv⟩, hl⟩, hnodup⟩, hwfl⟩ := hwf
    have hktake : List.take p k ≠ [] := by
      have h1 : (List.take p k).length = min p k.length := List.length_take p k
      intro habs
      rw [habs] at h1
      simp at h1
      omega
    have hkdrop : List.drop p k ≠ [] := by
      have h1 : (List.drop p k).length = k.length - p := List.length_drop p k
      intro habs
      rw [habs] at h1
      simp at h1
      omega
    simp [splitNode, hktake, hkdrop, hkv, hl, hnodup, hwfl]
    rw [List.getElem?_eq_getElem hplen]
    simp

end RadixCacheModel

namespace RadixCacheModel

/-! Accessor form unfoldings of the aggregates and rebuild helpers. -/

@[simp] theorem TreeNode.withChildren_key (t : TreeNode) (cs : List (Tok × TreeNode)) :
    (t.withChildren cs).key = t.key := rfl

@[simp] theorem TreeNode.withChildren_value (t : TreeNode) (cs : List (Tok × TreeNode)) :
    (t.withChildren cs).value = t.value := rfl

@[simp] theorem TreeNode.withChildren_lock_ref (t : TreeNode) (cs : List (Tok × TreeNode)) :
    (t.withChildren cs).lock_ref = t.lock_ref := rfl

@[simp] theorem TreeNode.withChildren_last_access_time (t : TreeNode)
    (cs : List (Tok × TreeNode)) :
    (t.withChildren cs).last_access_time = t.last_access_time := rfl

@[simp] theorem TreeNode.withChildren_children (t : TreeNode) (cs : List (Tok × TreeNode)) :
    (t.withChildren cs).children = cs := rfl

@[simp] theorem TreeNode.withLock_key (t : TreeNode) (l : Int) :
    (t.withLock l).key = t.key := rfl

@[simp] theorem TreeNode.withLock_value (t : TreeNode) (l : Int) :
    (t.withLock l).value = t.value := rfl

@[simp] theorem TreeNode.withLock_lock_ref (t : TreeNode) (l : Int) :
    (t.withLock l).lock_ref = l := rfl

@[simp] theorem TreeNode.withLock_last_access_time (t : TreeNode) (l : Int) :
    (t.withLock l).last_access_time = t.last_access_time := rfl

@[simp] theorem TreeNode.withLock_children (t : TreeNode) (l : Int) :
    (t.withLock l).children = t.children := rfl

theorem totalSize_eq (t : TreeNode) :
    totalSize t = t.value.length + totalSizeL t.children := by
  cases t
  simp

theorem evictSumN_eq (t : TreeNode) :
    evictSumN t
      = (if t.lock_ref = 0 then (t.value.length : Int) else 0) + evictSumL t.children := by
  cases t
  simp

theorem pinnedSumN_eq (t : TreeNode) :
    pinnedSumN t
      = (if 0 < t.lock_ref then (t.value.length : Int) else 0) + pinnedSumL t.children := by
  cases t
  simp

theorem treeVals_eq (t : TreeNode) :
    treeVals t = t.value ++ treeValsL t.children := by
  cases t
  simp

theorem nodeCount_eq (t : TreeNode) :
    nodeCount t = 1 + nodeCountL t.children := by
  cases t
  simp

theorem wfN_eq (t : TreeNode) :
    wfN t = ((!t.key.isEmpty) && (t.key.length = t.value.length) && (0 ≤ t.lock_ref) &&
      (t.children.map Prod.fst).Nodup && wfL t.children) := by
  cases t
  simp

theorem wfRoot_eq (t : TreeNode) :
    wfRoot t = (t.key.isEmpty && t.value.isEmpty && (0 ≤ t.lock_ref) &&
      (t.children.map Prod.fst).Nodup && wfL t.children) := by
  cases t
  simp

/-- Combined well formedness: wfRoot for the root, wfN for inner nodes. -/
def wfAt (isRoot : Bool) (t : TreeNode) : Bool := if isRoot then wfRoot t else wfN t

theorem wfAt_withTime (b : Bool) (t : TreeNode) (tm : Nat) :
    wfAt b (t.withTime tm) = wfAt b t := by
  cases t
  cases b <;> simp [wfAt, TreeNode.withTime]

theorem wfAt_children {b : Bool} {t : TreeNode} (h : wfAt b t = true) :
    (t.children.map Prod.fst).Nodup ∧ wfL t.children = true := by
  cases b <;> simp [wfAt, wfN_eq, wfRoot_eq] at h <;>
    exact ⟨h.1.2, h.2⟩

theorem wfAt_lock_nonneg {b : Bool} {t : TreeNode} (h : wfAt b t = true) :
    0 ≤ t.lock_ref := by
  cases b <;> simp [wfAt, wfN_eq, wfRoot_eq] at h
  · exact h.1.1.2
  · exact h.1.1.2

theorem wfAt_withChildren {b : Bool} {t : TreeNode} {cs : List (Tok × TreeNode)}
    (h : wfAt b t = true) (hnodup : (cs.map Prod.fst).Nodup) (hwfl : wfL cs = true) :
    wfAt b (t.withChildren cs) = true := by
  cases b <;> simp [wfAt, wfN_eq, wfRoot_eq] at h ⊢ <;>
    exact ⟨⟨h.1.1, hnodup⟩, hwfl⟩

end RadixCacheModel

namespace RadixCacheModel

theorem pmh_nil (node : TreeNode) (clock : Nat) :
    prefixMatchHelper node [] clock = (node.withTime clock, [], [], clock + 1) := by
  conv_lhs => rw [prefixMatchHelper.eq_def]

theorem pmh_cons_none {node : TreeNode} {k0 : Tok} {krest : List Tok} {clock : Nat}
    (hl : lookupChild node.children k0 = none) :
    prefixMatchHelper node (k0 :: krest) clock = (node.withTime clock, [], [], clock + 1) := by
  conv_lhs => rw [prefixMatchHelper.eq_def]
  simp only [TreeNode.withTime_children]
  split
  next heq => rfl
  next c heq =>
    rw [hl] at heq
    simp at heq

theorem pmh_cons_split {node : TreeNode} {k0 : Tok} {krest : List Tok} {clock : Nat}
    {child : TreeNode} (hl : lookupChild node.children k0 = some child)
    (hp : keyMatch child.key (k0 :: krest) < child.key.length) :
    prefixMatchHelper node (k0 :: krest) clock =
      ((node.withTime clock).withChildren
        (setChild node.children
          ((child.key.take (keyMatch child.key (k0 :: krest))).headD 0)
          (splitNode child.key child (keyMatch child.key (k0 :: krest)) (clock + 1))),
        [(splitNode child.key child (keyMatch child.key (k0 :: krest)) (clock + 1)).value],
        [(child.key.take (keyMatch child.key (k0 :: krest))).headD 0], clock + 2) := by
  conv_lhs => rw [prefixMatchHelper.eq_def]
  simp only [TreeNode.withTime_children]
  split
  next heq =>
    rw [hl] at heq
    simp at heq
  next c heq =>
    rw [hl] at heq
    injection heq with heq2
    subst heq2
    rw [if_pos hp]

theorem pmh_cons_descend {node : TreeNode} {k0 : Tok} {krest : List Tok} {clock : Nat}
    {child : TreeNode} (hl : lookupChild node.children k0 = some child)
    (hp : ¬ keyMatch child.key (k0 :: krest) < child.key.length) :
    prefixMatchHelper node (k0 :: krest) clock =
      ((node.withTime clock).withChildren
        (setChild node.children k0
          (prefixMatchHelper child ((k0 :: krest).drop (keyMatch child.key (k0 :: krest)))
            (clock + 1)).1),
        child.value ::
          (prefixMatchHelper child ((k0 :: krest).drop (keyMatch child.key (k0 :: krest)))
            (clock + 1)).2.1,
        k0 ::
          (prefixMatchHelper child ((k0 :: krest).drop (keyMatch child.key (k0 :: krest)))
            (clock + 1)).2.2.1,
        (prefixMatchHelper child ((k0 :: krest).drop (keyMatch child.key (k0 :: krest)))
          (clock + 1)).2.2.2) := by
  conv_lhs => rw [prefixMatchHelper.eq_def]
  simp only [TreeNode.withTime_children]
  split
  next heq =>
    rw [hl] at heq
    simp at heq
  next c heq =>
    rw [hl] at heq
    injection heq with heq2
    subst heq2
    rw [if_neg hp]

end RadixCacheModel

namespace RadixCacheModel

@[simp] theorem evictSumN_withTime (t : TreeNode) (tm : Nat) :
    evictSumN (t.withTime tm) = evictSumN t := by
  cases t
  simp [TreeNode.withTime]

@[simp] theorem pinnedSumN_withTime (t : TreeNode) (tm : Nat) :
    pinnedSumN (t.withTime tm) = pinnedSumN t := by
  cases t
  simp [TreeNode.withTime]

@[simp] theorem totalSize_withTime (t : TreeNode) (tm : Nat) :
    totalSize (t.withTime tm) = totalSize t := by
  cases t
  simp [TreeNode.withTime]

@[simp] theorem treeVals_withTime (t : TreeNode) (tm : Nat) :
    treeVals (t.withTime tm) = treeVals t := by
  cases t
  simp [TreeNode.withTime]

@[simp] theorem nodeCount_withTime (t : TreeNode) (tm : Nat) :
    nodeCount (t.withTime tm) = nodeCount t := by
  cases t
  simp [TreeNode.withTime]

end RadixCacheModel

namespace RadixCacheModel

theorem prefixMatchHelper_frame_aux : ∀ (n : Nat) (node : TreeNode), sizeOf node ≤ n →
    ∀ (key : List Tok) (clock : Nat) (b : Bool), wfAt b node = true →
    wfAt b (prefixMatchHelper node key clock).1 = true ∧
    (prefixMatchHelper node key clock).1.key = node.key ∧
    (prefixMatchHelper node key clock).1.value = node.value ∧
    (prefixMatchHelper node key clock).1.lock_ref = node.lock_ref ∧
    evictSumN (prefixMatchHelper node key clock).1 = evictSumN node ∧
    pinnedSumN (prefixMatchHelper node key clock).1 = pinnedSumN node ∧
    totalSize (prefixMatchHelper node key clock).1 = totalSize node ∧
    treeVals (prefixMatchHelper node key clock).1 = treeVals node ∧
    (∀ q, q <+: (prefixMatchHelper node key clock).2.2.1 →
      ∃ m, resolve (prefixMatchHelper node key clock).1 q = some m ∧
        clock ≤ m.last_access_time) := by
  intro n
  induction n with
  | zero =>
    intro node hsz
    cases node with
    | mk k v l tm cs => simp at hsz
  | succ n ihn =>
    intro node hsz key clock b hwf
    cases key with
    | nil =>
      rw [pmh_nil]
      refine ⟨by simpa [wfAt_withTime] using hwf, by simp, by simp, by simp,
        by simp, by simp, by simp, by simp, ?_⟩
      intro q hq
      rw [List.prefix_nil] at hq
      subst hq
      exact ⟨node.withTime clock, rfl, by simp⟩
    | cons tok rest =>
      cases hl : lookupChild node.children tok with
      | none =>
        rw [pmh_cons_none hl]
        refine ⟨by simpa [wfAt_withTime] using hwf, by simp, by simp, by simp,
          by simp, by simp, by simp, by simp, ?_⟩
        intro q hq
        rw [List.prefix_nil] at hq
        subst hq
        exact ⟨node.withTime clock, rfl, by simp⟩
      | some child =>
        obtain ⟨hcoh, hwfchild⟩ := wfL_lookup (wfAt_children hwf).2 hl
        have hnodup := (wfAt_children hwf).1
        have hwfl := (wfAt_children hwf).2
        by_cases hp : keyMatch child.key (tok :: rest) < child.key.length
        · -- split on demand branch
          have hp0 : 0 < keyMatch child.key (tok :: rest) :=
            keyMatch_head_pos hcoh (by simp)
          have htok : (child.key.take (keyMatch child.key (tok :: rest))).headD 0 = tok := by
            rw [headD_take hp0, headD_of_head? hcoh]
          rw [pmh_cons_split hl hp, htok]
          have hwfnew : wfN (splitNode child.key child
              (keyMatch child.key (tok :: rest)) (clock + 1)) = true :=
            splitNode_wfN _ _ hwfchild hp0 hp
          have hheadnew : (splitNode child.key child
              (keyMatch child.key (tok :: rest)) (clock + 1)).key.head? = some tok := by
            rw [splitNode_key, head?_take hp0]
            exact hcoh
          refine ⟨?_, by simp, by simp, by simp, ?_, ?_, ?_, ?_, ?_⟩
          · exact wfAt_withChildren (by simpa [wfAt_withTime] using hwf)
              (by rw [map_fst_setChild_of_some hl]; exact hnodup)
              (wfL_setChild hl hwfl hheadnew hwfnew)
          · rw [evictSumN_eq, evictSumN_eq node]
            simp
            rw [evictSumL_setChild hl, splitNode_evictSumN]
            ring
          · rw [pinnedSumN_eq, pinnedSumN_eq node]
            simp
            rw [pinnedSumL_setChild hl, splitNode_pinnedSumN]
            ring
          · rw [totalSize_eq, totalSize_eq node]
            simp
            have := totalSizeL_setChild hl
              (splitNode child.key child (keyMatch child.key (tok :: rest)) (clock + 1))
            rw [splitNode_totalSize] at this
            omega
          · rw [treeVals_eq, treeVals_eq node]
            simp
            obtain ⟨pre, post, h1, h2⟩ := treeValsL_setChild hl
              (splitNode child.key child (keyMatch child.key (tok :: rest)) (clock + 1))
            rw [h2, splitNode_treeVals, ← h1]
          · intro q hq
            cases q with
            | nil => exact ⟨_, rfl, by simp⟩
            | cons q0 q' =>
              rw [List.cons_prefix_cons] at hq
              obtain ⟨hq0, hq'⟩ := hq
              subst hq0
              rw [List.prefix_nil] at hq'
              subst hq'
              simp only [resolve, TreeNode.withChildren_children, lookupChild_setChild_self]
              exact ⟨_, rfl, by simp [splitNode]⟩
        · -- full edge hit, descend
          have hszc : sizeOf child ≤ n := by
            have h1 := sizeOf_lookupChild hl
            have h2 := sizeOf_children_lt node
            omega
          obtain ⟨ih1, ih2, ih3, ih4, ih5, ih6, ih7, ih8, ih9⟩ :=
            ihn child hszc ((tok :: rest).drop (keyMatch child.key (tok :: rest)))
              (clock + 1) false hwfchild
          rw [pmh_cons_descend hl hp]
          have hheadr : (prefixMatchHelper child
              ((tok :: rest).drop (keyMatch child.key (tok :: rest))) (clock + 1)).1.key.head?
                = some tok := by
            rw [ih2]
            exact hcoh
          refine ⟨?_, by simp, by simp, by simp, ?_, ?_, ?_, ?_, ?_⟩
          · exact wfAt_withChildren (by simpa [wfAt_withTime] using hwf)
              (by rw [map_fst_setChild_of_some hl]; exact hnodup)
              (wfL_setChild hl hwfl hheadr ih1)
          · rw [evictSumN_eq, evictSumN_eq node]
            simp
            rw [evictSumL_setChild hl, ih5]
            ring
          · rw [pinnedSumN_eq, pinnedSumN_eq node]
            simp
            rw [pinnedSumL_setChild hl, ih6]
            ring
          · rw [totalSize_eq, totalSize_eq node]
            simp
            have := totalSizeL_setChild hl (prefixMatchHelper child
              ((tok :: rest).drop (keyMatch child.key (tok :: rest))) (clock + 1)).1
            omega
          · rw [treeVals_eq, treeVals_eq node]
            simp
            obtain ⟨pre, post, h1, h2⟩ := treeValsL_setChild hl (prefixMatchHelper child
              ((tok :: rest).drop (keyMatch child.key (tok :: rest))) (clock + 1)).1
            rw [h2, ih8, ← h1]
          · intro q hq
            cases q with
            | nil => exact ⟨_, rfl, by simp⟩
            | cons q0 q' =>
              rw [List.cons_prefix_cons] at hq
              obtain ⟨hq0, hq'⟩ := hq
              subst hq0
              obtain ⟨m, hm, htm⟩ := ih9 q' hq'
              refine ⟨m, ?_, by omega⟩
              simp [resolve, lookupChild_setChild_self]
              exact hm

end RadixCacheModel

namespace RadixCacheModel

/-- Frame and refresh properties of _match_prefix_helper on a well formed
subtree: well formedness, the fields of the entered node, both lock
weighted value sums, the total size and the stored value lists are
preserved, and every node on the path to the returned last_node carries a
timestamp at least the clock at call entry. -/
theorem prefixMatchHelper_frame (node : TreeNode) (key : List Tok) (clock : Nat)
    (b : Bool) (hwf : wfAt b node = true) :
    wfAt b (prefixMatchHelper node key clock).1 = true ∧
    (prefixMatchHelper node key clock).1.key = node.key ∧
    (prefixMatchHelper node key clock).1.value = node.value ∧
    (prefixMatchHelper node key clock).1.lock_ref = node.lock_ref ∧
    evictSumN (prefixMatchHelper node key clock).1 = evictSumN node ∧
    pinnedSumN (prefixMatchHelper node key clock).1 = pinnedSumN node ∧
    totalSize (prefixMatchHelper node key clock).1 = totalSize node ∧
    treeVals (prefixMatchHelper node key clock).1 = treeVals node ∧
    (∀ q, q <+: (prefixMatchHelper node key clock).2.2.1 →
      ∃ m, resolve (prefixMatchHelper node key clock).1 q = some m ∧
        clock ≤ m.last_access_time) :=
  prefixMatchHelper_frame_aux (sizeOf node) node le_rfl key clock b hwf

end RadixCacheModel

namespace RadixCacheModel

theorem iH_zero (node : TreeNode) (key value : List Tok) (clock : Nat) :
    insertHelper 0 node key value clock = none := rfl

theorem iH_nil (fuel : Nat) (node : TreeNode) (value : List Tok) (clock : Nat) :
    insertHelper (fuel + 1) node [] value clock
      = some (node.withTime clock, 0, 0, clock + 1) := by
  simp only [insertHelper]

theorem iH_miss {node : TreeNode} {k0 : Tok} {krest value : List Tok} {clock : Nat}
    (fuel : Nat) (hl : lookupChild node.children k0 = none) :
    insertHelper (fuel + 1) node (k0 :: krest) value clock
      = some ((node.withTime clock).withChildren
          (setChild node.children k0 (TreeNode.mk (k0 :: krest) value 0 (clock + 1) [])),
        0, (value.length : Int), clock + 2) := by
  simp only [insertHelper, TreeNode.withTime_children, hl]

theorem iH_hit_exact {node : TreeNode} {k0 : Tok} {krest value : List Tok} {clock : Nat}
    {child : TreeNode} (fuel : Nat) (hl : lookupChild node.children k0 = some child)
    (hp : keyMatch child.key (k0 :: krest) = child.key.length)
    (hk : keyMatch child.key (k0 :: krest) = (k0 :: krest).length) :
    insertHelper (fuel + 1) node (k0 :: krest) value clock
      = some (node.withTime clock, keyMatch child.key (k0 :: krest), 0, clock + 1) := by
  simp only [insertHelper, TreeNode.withTime_children, hl, if_pos hp, if_pos hk]

theorem iH_hit_descend {node : TreeNode} {k0 : Tok} {krest value : List Tok} {clock : Nat}
    {child : TreeNode} (fuel : Nat) (hl : lookupChild node.children k0 = some child)
    (hp : keyMatch child.key (k0 :: krest) = child.key.length)
    (hk : ¬ keyMatch child.key (k0 :: krest) = (k0 :: krest).length) :
    insertHelper (fuel + 1) node (k0 :: krest) value clock
      = match insertHelper fuel child ((k0 :: krest).drop (keyMatch child.key (k0 :: krest)))
          (value.drop (keyMatch child.key (k0 :: krest))) (clock + 1) with
        | some (child', r, d, clock'') =>
          some ((node.withTime clock).withChildren (setChild node.children k0 child'),
            keyMatch child.key (k0 :: krest) + r, d, clock'')
        | none => none := by
  simp only [insertHelper, TreeNode.withTime_children, hl, if_pos hp, if_neg hk]

theorem iH_split {node : TreeNode} {k0 : Tok} {krest value : List Tok} {clock : Nat}
    {child : TreeNode} (fuel : Nat) (hl : lookupChild node.children k0 = some child)
    (hp : ¬ keyMatch child.key (k0 :: krest) = child.key.length) :
    insertHelper (fuel + 1) node (k0 :: krest) value clock
      = match insertHelper fuel
            (splitNode child.key child (keyMatch child.key (k0 :: krest)) (clock + 1))
            ((k0 :: krest).drop (keyMatch child.key (k0 :: krest)))
            (value.drop (keyMatch child.key (k0 :: krest))) (clock + 1 + 1) with
        | some (nn', r, d, clock'') =>
          some ((node.withTime clock).withChildren
            (setChild node.children
              ((child.key.take (keyMatch child.key (k0 :: krest))).headD 0) nn'),
            keyMatch child.key (k0 :: krest) + r, d, clock'')
        | none => none := by
  simp only [insertHelper, TreeNode.withTime_children, hl, if_neg hp]

end RadixCacheModel

namespace RadixCacheModel

/-- The key is fully stored: walking the tree along the key consumes it
completely, either ending exactly at a node boundary or inside an edge
label.  Mirrors the walk of _insert_helper without mutating anything;
insert returns len(key) exactly on such keys. -/
def fullMatch : TreeNode → List Tok → Bool
  | _, [] => true
  | t, k0 :: krest =>
    match hl : lookupChild t.children k0 with
    | none => false
    | some child =>
      let plen := keyMatch child.key (k0 :: krest)
      if plen = child.key.length then
        if plen = (k0 :: krest).length then true
        else fullMatch child ((k0 :: krest).drop plen)
      else plen = (k0 :: krest).length
termination_by t _ => sizeOf t
decreasing_by
  have h1 := sizeOf_lookupChild hl
  have h2 := sizeOf_children_lt t
  omega

theorem fM_nil (t : TreeNode) : fullMatch t [] = true := by
  rw [fullMatch.eq_1]

theorem fM_miss {t : TreeNode} {k0 : Tok} {krest : List Tok}
    (hl : lookupChild t.children k0 = none) :
    fullMatch t (k0 :: krest) = false := by
  conv_lhs => rw [fullMatch.eq_2]
  split
  next heq =>
    rfl
  next c heq =>
    rw [hl] at heq
    simp at heq

theorem fM_hit {t : TreeNode} {k0 : Tok} {krest : List Tok} {child : TreeNode}
    (hl : lookupChild t.children k0 = some child)
    (hp : keyMatch child.key (k0 :: krest) = child.key.length) :
    fullMatch t (k0 :: krest)
      = if keyMatch child.key (k0 :: krest) = (k0 :: krest).length then true
        else fullMatch child ((k0 :: krest).drop (keyMatch child.key (k0 :: krest))) := by
  conv_lhs => rw [fullMatch.eq_2]
  split
  next heq =>
    rw [hl] at heq
    simp at heq
  next c heq =>
    rw [hl] at heq
    injection heq with heq2
    subst heq2
    rw [if_pos hp]

theorem fM_midedge {t : TreeNode} {k0 : Tok} {krest : List Tok} {child : TreeNode}
    (hl : lookupChild t.children k0 = some child)
    (hp : ¬ keyMatch child.key (k0 :: krest) = child.key.length) :
    fullMatch t (k0 :: krest)
      = decide (keyMatch child.key (k0 :: krest) = (k0 :: krest).length) := by
  conv_lhs => rw [fullMatch.eq_2]
  split
  next heq =>
    rw [hl] at heq
    simp at heq
  next c heq =>
    rw [hl] at heq
    injection heq with heq2
    subst heq2
    rw [if_neg hp]

/-- The addresses of the nodes whose last_access_time the corresponding run
of _insert_helper sets (or creates fresh), relative to the entered node and
mirroring its recursion exactly.  The deepest node of an exact full hit is
absent: that branch of _insert_helper returns before touching the child. -/
def insertStamped : Nat → TreeNode → List Tok → Nat → List Path
  | 0, _, _, _ => []
  | fuel + 1, node, key, clock =>
    [] :: (match key with
    | [] => []
    | k0 :: _ =>
      match lookupChild node.children k0 with
      | some child =>
        let plen := keyMatch child.key key
        if plen = child.key.length then
          if plen = key.length then []
          else (insertStamped fuel child (key.drop plen) (clock + 1)).map
            (fun q => k0 :: q)
        else
          (insertStamped fuel (splitNode child.key child plen (clock + 1))
            (key.drop plen) (clock + 1 + 1)).map
            (fun q => ((child.key.take plen).headD 0) :: q)
      | none => [[k0]])

end RadixCacheModel

namespace RadixCacheModel

theorem keyMatch_take_keyMatch (a b : List Tok) :
    keyMatch (a.take (keyMatch a b)) b = keyMatch a b := by
  have h1 : a.take (keyMatch a b) <+: b := take_keyMatch_prefix a b
  rw [keyMatch_of_pref h1, List.length_take]
  exact Nat.min_eq_left (keyMatch_le_left a b)

theorem wfN_parts {t : TreeNode} (h : wfN t = true) :
    t.key ≠ [] ∧ t.key.length = t.value.length ∧ 0 ≤ t.lock_ref ∧
      (t.children.map Prod.fst).Nodup ∧ wfL t.children = true := by
  rw [wfN_eq] at h
  simp at h
  exact ⟨h.1.1.1.1, h.1.1.1.2, h.1.1.2, h.1.2, h.2⟩

/-- Main specification of _insert_helper on well formed subtrees with one
value per key token and sufficient fuel: the call succeeds; well formedness
and the fields of the entered node are preserved; the returned delta is the
exact change of both the evictable sum and the total size, and is non
negative; afterwards the key is fully stored; and every address in
insertStamped carries a fresh timestamp. -/
theorem insertHelper_spec : ∀ (fuel : Nat) (node : TreeNode) (key value : List Tok)
    (clock : Nat) (b : Bool), wfAt b node = true → key.length = value.length →
    key.length + 2 ≤ fuel →
    ∃ t' r d ck, insertHelper fuel node key value clock = some (t', r, d, ck) ∧
      wfAt b t' = true ∧ t'.key = node.key ∧ t'.value = node.value ∧
      t'.lock_ref = node.lock_ref ∧
      evictSumN t' = evictSumN node + d ∧ pinnedSumN t' = pinnedSumN node ∧
      (totalSize t' : Int) = totalSize node + d ∧ 0 ≤ d ∧
      fullMatch t' key = true ∧
      (∀ q ∈ insertStamped fuel node key clock,
        ∃ m, resolve t' q = some m ∧ clock ≤ m.last_access_time) := by
  intro fuel
  induction fuel with
  | zero =>
    intro node key value clock b hwf hlen hfuel
    omega
  | succ fuel ih =>
    intro node key value clock b hwf hlen hfuel
    cases key with
    | nil =>
      refine ⟨node.withTime clock, 0, 0, clock + 1, iH_nil fuel node value clock,
        by simpa [wfAt_withTime] using hwf, by simp, by simp, by simp,
        by simp, by simp, by simp, le_refl 0, fM_nil _, ?_⟩
      intro q hq
      simp [insertStamped] at hq
      subst hq
      exact ⟨node.withTime clock, rfl, by simp⟩
    | cons tok rest =>
      have hlen' : rest.length + 1 = value.length := by simpa using hlen
      cases hl : lookupChild node.children tok with
      | none =>
        refine ⟨_, _, _, _, iH_miss fuel hl, ?_, by simp, by simp, by simp,
          ?_, ?_, ?_, by exact_mod_cast Nat.zero_le value.length, ?_, ?_⟩
        · refine wfAt_withChildren (by simpa [wfAt_withTime] using hwf) ?_ ?_
          · rw [setChild_of_lookup_none hl, List.map_append, List.nodup_append]
            refine ⟨(wfAt_children hwf).1, by simp, ?_⟩
            intro a ha hmem
            simp at hmem
            subst hmem
            exact (lookupChild_eq_none.mp hl) ha
          · rw [setChild_of_lookup_none hl, wfL_append]
            have h2 : wfL [(tok, TreeNode.mk (tok :: rest) value 0 (clock + 1) [])]
                = true := by
              simp
              simpa using hlen
            simp [(wfAt_children hwf).2, h2]
        · rw [evictSumN_eq, evictSumN_eq node]
          simp
          rw [setChild_of_lookup_none hl, evictSumL_append]
          simp
          ring
        · rw [pinnedSumN_eq, pinnedSumN_eq node]
          simp
          rw [setChild_of_lookup_none hl, pinnedSumL_append]
          simp
        · rw [totalSize_eq, totalSize_eq node]
          simp
          rw [setChild_of_lookup_none hl, totalSizeL_append]
          simp
          push_cast
          ring
        · rw [fM_hit (show lookupChild ((node.withTime clock).withChildren
              (setChild node.children tok
                (TreeNode.mk (tok :: rest) value 0 (clock + 1) []))).children tok
              = some (TreeNode.mk (tok :: rest) value 0 (clock + 1) [])
              from lookupChild_setChild_self _ _ _)]
          · rw [if_pos]
            rw [TreeNode.key_mk, keyMatch_of_pref List.prefix_rfl]
          · rw [TreeNode.key_mk, keyMatch_of_pref List.prefix_rfl]
        · intro q hq
          simp [insertStamped, hl] at hq
          rcases hq with hq | hq
          · subst hq
            exact ⟨_, rfl, by simp⟩
          · subst hq
            simp only [resolve, TreeNode.withChildren_children, lookupChild_setChild_self]
            exact ⟨_, rfl, by simp⟩
      | some child =>
        obtain ⟨hcoh, hwfchild⟩ := wfL_lookup (wfAt_children hwf).2 hl
        have hnodup := (wfAt_children hwf).1
        have hwfl := (wfAt_children hwf).2
        have hchild := wfN_parts hwfchild
        by_cases hp : keyMatch child.key (tok :: rest) = child.key.length
        · by_cases hk : keyMatch child.key (tok :: rest) = (tok :: rest).length
          · refine ⟨_, _, _, _, iH_hit_exact fuel hl hp hk,
              by simpa [wfAt_withTime] using hwf, by simp, by simp, by simp,
              by simp, by simp, by simp, le_refl 0, ?_, ?_⟩
            · rw [fM_hit (show lookupChild (node.withTime clock).children tok = some child
                from hl) hp, if_pos hk]
            · intro q hq
              simp only [insertStamped, hl, if_pos hp, if_pos hk, List.mem_cons,
                List.not_mem_nil, or_false] at hq
              subst hq
              exact ⟨_, rfl, by simp⟩
          · have hplen1 : 0 < keyMatch child.key (tok :: rest) := by
              have := hchild.1
              rw [hp]
              cases hck : child.key with
              | nil => exact absurd hck this
              | cons a as => simp
            have hrecargs1 : ((tok :: rest).drop (keyMatch child.key (tok :: rest))).length
                = ((value.drop (keyMatch child.key (tok :: rest)))).length := by
              simp
              omega
            have hrecfuel : ((tok :: rest).drop (keyMatch child.key (tok :: rest))).length + 2
                ≤ fuel := by
              simp
              have := keyMatch_le_right child.key (tok :: rest)
              simp at hfuel
              omega
            obtain ⟨c', r, d, ck, hrec, ih1, ih2, ih3, ih4, ih5, ih6, ih7, ih8, ih9, ih10⟩ :=
              ih child ((tok :: rest).drop (keyMatch child.key (tok :: rest)))
                (value.drop (keyMatch child.key (tok :: rest))) (clock + 1) false
                hwfchild hrecargs1 hrecfuel
            refine ⟨(node.withTime clock).withChildren (setChild node.children tok c'),
              keyMatch child.key (tok :: rest) + r, d, ck,
              ?_, ?_, ?_, ?_, ?_, ?_, ?_, ?_, ih8, ?_, ?_⟩
            · rw [iH_hit_descend fuel hl hp hk, hrec]
            · exact wfAt_withChildren (by simpa [wfAt_withTime] using hwf)
                (by rw [map_fst_setChild_of_some hl]; exact hnodup)
                (wfL_setChild hl hwfl (by rw [ih2]; exact hcoh) ih1)
            · simp
            · simp
            · simp
            · rw [evictSumN_eq, evictSumN_eq node]
              simp
              rw [evictSumL_setChild hl, ih5]
              ring
            · rw [pinnedSumN_eq, pinnedSumN_eq node]
              simp
              rw [pinnedSumL_setChild hl, ih6]
              ring
            · rw [totalSize_eq, totalSize_eq node]
              simp
              have := totalSizeL_setChild hl c'
              omega
            · rw [fM_hit (show lookupChild ((node.withTime clock).withChildren
                  (setChild node.children tok c')).children tok = some c'
                  from lookupChild_setChild_self _ _ _)]
              · rw [ih2, if_neg hk]
                exact ih9
              · rw [ih2]
                exact hp
            · intro q hq
              simp only [insertStamped, hl, if_pos hp, if_neg hk, List.mem_cons,
                List.mem_map] at hq
              rcases hq with hq | ⟨q', hq', hq⟩
              · subst hq
                exact ⟨_, rfl, by simp⟩
              · subst hq
                obtain ⟨m, hm, htm⟩ := ih10 q' hq'
                refine ⟨m, ?_, by omega⟩
                simp only [resolve, TreeNode.withChildren_children, lookupChild_setChild_self]
                exact hm
        · have hple : keyMatch child.key (tok :: rest) ≤ child.key.length :=
            keyMatch_le_left _ _
          have hplt : keyMatch child.key (tok :: rest) < child.key.length := by omega
          have hp0 : 0 < keyMatch child.key (tok :: rest) :=
            keyMatch_head_pos hcoh (by simp)
          have htok : (child.key.take (keyMatch child.key (tok :: rest))).headD 0 = tok := by
            rw [headD_take hp0, headD_of_head? hcoh]
          have hwfnew : wfN (splitNode child.key child
              (keyMatch child.key (tok :: rest)) (clock + 1)) = true :=
            splitNode_wfN _ _ hwfchild hp0 hplt
          have hrecargs1 : ((tok :: rest).drop (keyMatch child.key (tok :: rest))).length
              = ((value.drop (keyMatch child.key (tok :: rest)))).length := by
            simp
            have := keyMatch_le_right child.key (tok :: rest)
            simp at this
            omega
          have hrecfuel : ((tok :: rest).drop (keyMatch child.key (tok :: rest))).length + 2
              ≤ fuel := by
            simp
            have := keyMatch_le_right child.key (tok :: rest)
            simp at hfuel
            omega
          obtain ⟨nn', r, d, ck, hrec, ih1, ih2, ih3, ih4, ih5, ih6, ih7, ih8, ih9, ih10⟩ :=
            ih (splitNode child.key child (keyMatch child.key (tok :: rest)) (clock + 1))
              ((tok :: rest).drop (keyMatch child.key (tok :: rest)))
              (value.drop (keyMatch child.key (tok :: rest))) (clock + 1 + 1) false
              hwfnew hrecargs1 hrecfuel
          have hheadnn : nn'.key.head? = some tok := by
            rw [ih2, splitNode_key, head?_take hp0]
            exact hcoh
          refine ⟨(node.withTime clock).withChildren
              (setChild node.children
                ((child.key.take (keyMatch child.key (tok :: rest))).headD 0) nn'),
              keyMatch child.key (tok :: rest) + r, d, ck,
              ?_, ?_, ?_, ?_, ?_, ?_, ?_, ?_, ih8, ?_, ?_⟩
          · rw [iH_split fuel hl hp, hrec]
          · rw [htok]
            exact wfAt_withChildren (by simpa [wfAt_withTime] using hwf)
              (by rw [map_fst_setChild_of_some hl]; exact hnodup)
              (wfL_setChild hl hwfl hheadnn ih1)
          · simp
          · simp
          · simp
          · rw [htok, evictSumN_eq, evictSumN_eq node]
            simp
            rw [evictSumL_setChild hl, ih5, splitNode_evictSumN]
            ring
          · rw [htok, pinnedSumN_eq, pinnedSumN_eq node]
            simp
            rw [pinnedSumL_setChild hl, ih6, splitNode_pinnedSumN]
            ring
          · rw [htok, totalSize_eq, totalSize_eq node]
            simp
            have h1 := totalSizeL_setChild hl nn'
            have h2 := splitNode_totalSize child.key child
              (keyMatch child.key (tok :: rest)) (clock + 1)
            omega
          · rw [htok, fM_hit (show lookupChild ((node.withTime clock).withChildren
                (setChild node.children tok nn')).children tok = some nn'
                from lookupChild_setChild_self _ _ _)]
            · rw [ih2, splitNode_key, keyMatch_take_keyMatch]
              split
              · rfl
              · exact ih9
            · rw [ih2, splitNode_key, keyMatch_take_keyMatch, List.length_take]
              omega
          · intro q hq
            simp only [insertStamped, hl, if_neg hp, List.mem_cons, List.mem_map] at hq
            rcases hq with hq | ⟨q', hq', hq⟩
            · subst hq
              exact ⟨_, rfl, by simp⟩
            · subst hq
              obtain ⟨m, hm, htm⟩ := ih10 q' hq'
              rw [htok]
              refine ⟨m, ?_, by omega⟩
              simp only [resolve, TreeNode.withChildren_children, lookupChild_setChild_self]
              exact hm

end RadixCacheModel

namespace RadixCacheModel

/-- The two accumulators of inc_lock_ref (the update of evictable_size_ and
the returned delta) always agree, and the delta is non positive. -/
theorem incLockWalk_deltas : ∀ (p : Path) (t : TreeNode),
    (incLockWalk t p).2.1 = (incLockWalk t p).2.2 ∧ (incLockWalk t p).2.2 ≤ 0 := by
  intro p
  induction p with
  | nil =>
    intro t
    simp [incLockWalk]
  | cons tok rest ih =>
    intro t
    cases hl : lookupChild t.children tok with
    | none => simp [incLockWalk, hl]
    | some c =>
      obtain ⟨h1, h2⟩ := ih c
      simp only [incLockWalk, hl]
      split
      · constructor
        · omega
        · have : (0 : Int) ≤ (incLockWalk c rest).1.value.length := by positivity
          omega
      · exact ⟨h1, h2⟩

/-- The two accumulators of dec_lock_ref agree, and the delta is non
negative. -/
theorem decLockWalk_deltas : ∀ (p : Path) (t : TreeNode),
    (decLockWalk t p).2.1 = (decLockWalk t p).2.2 ∧ 0 ≤ (decLockWalk t p).2.2 := by
  intro p
  induction p with
  | nil =>
    intro t
    simp [decLockWalk]
  | cons tok rest ih =>
    intro t
    cases hl : lookupChild t.children tok with
    | none => simp [decLockWalk, hl]
    | some c =>
      obtain ⟨h1, h2⟩ := ih c
      simp only [decLockWalk, hl]
      split
      · constructor
        · omega
        · have : (0 : Int) ≤ (decLockWalk c rest).1.value.length := by positivity
          omega
      · exact ⟨h1, h2⟩

end RadixCacheModel

namespace RadixCacheModel

theorem wfN_withLock {t : TreeNode} {l : Int} (h : wfN t = true) (hl : 0 ≤ l) :
    wfN (t.withLock l) = true := by
  rw [wfN_eq] at h ⊢
  simp at h ⊢
  exact ⟨⟨⟨⟨h.1.1.1.1, h.1.1.1.2⟩, hl⟩, h.1.2⟩, h.2⟩

/-- inc_lock_ref on a well formed tree: well formedness is preserved, the
top level fields are untouched, and the update applied to evictable_size_
is exactly the change of the evictable sum. -/
theorem incLockWalk_spec : ∀ (p : Path) (t : TreeNode) (b : Bool), wfAt b t = true →
    wfAt b (incLockWalk t p).1 = true ∧
    (incLockWalk t p).1.key = t.key ∧
    (incLockWalk t p).1.value = t.value ∧
    (incLockWalk t p).1.lock_ref = t.lock_ref ∧
    evictSumN (incLockWalk t p).1 = evictSumN t + (incLockWalk t p).2.1 := by
  intro p
  induction p with
  | nil =>
    intro t b hwf
    simp [incLockWalk, hwf]
  | cons tok rest ih =>
    intro t b hwf
    cases hl : lookupChild t.children tok with
    | none => simp [incLockWalk, hl, hwf]
    | some c =>
      obtain ⟨hcoh, hwfc⟩ := wfL_lookup (wfAt_children hwf).2 hl
      obtain ⟨ih1, ih2, ih3, ih4, ih5⟩ := ih c false hwfc
      have hlockc : 0 ≤ c.lock_ref := (wfN_parts hwfc).2.2.1
      simp only [incLockWalk, hl]
      have hwand : wfAt b (t.withChildren (setChild t.children tok
          ((incLockWalk c rest).1.withLock ((incLockWalk c rest).1.lock_ref + 1)))) = true := by
        refine wfAt_withChildren hwf ?_ ?_
        · rw [map_fst_setChild_of_some hl]
          exact (wfAt_children hwf).1
        · refine wfL_setChild hl (wfAt_children hwf).2 ?_ ?_
          · rw [TreeNode.withLock_key, ih2]
            exact hcoh
          · exact wfN_withLock ih1 (by omega)
      refine ⟨hwand, by simp, by simp, by simp, ?_⟩
      rw [evictSumN_eq, evictSumN_eq t]
      simp only [TreeNode.withChildren_value, TreeNode.withChildren_lock_ref,
        TreeNode.withChildren_children]
      rw [evictSumL_setChild hl]
      have hc'' : evictSumN ((incLockWalk c rest).1.withLock
          ((incLockWalk c rest).1.lock_ref + 1))
          = evictSumN (incLockWalk c rest).1
            - (if (incLockWalk c rest).1.lock_ref = 0
                then ((incLockWalk c rest).1.value.length : Int) else 0) := by
        rw [evictSumN_eq, evictSumN_eq ((incLockWalk c rest).1)]
        simp only [TreeNode.withLock_value, TreeNode.withLock_lock_ref,
          TreeNode.withLock_children]
        have hnz : ¬ ((incLockWalk c rest).1.lock_ref + 1 = 0) := by
          rw [ih4]
          omega
        rw [if_neg hnz]
        by_cases hz : (incLockWalk c rest).1.lock_ref = 0
        · rw [if_pos hz]
          ring
        · rw [if_neg hz]
          ring
      rw [hc'', ih5]
      by_cases hz : (incLockWalk c rest).1.lock_ref = 0
      · simp only [if_pos hz]
        ring
      · simp only [if_neg hz]
        ring

/-- dec_lock_ref on a well formed tree under the no-underflow contract
(every node on the walked path is pinned): well formedness is preserved,
the top level fields are untouched, and the update applied to
evictable_size_ is exactly the change of the evictable sum. -/
theorem decLockWalk_spec : ∀ (p : Path) (t : TreeNode) (b : Bool), wfAt b t = true →
    (∀ q x, q ≠ [] → q <+: p → resolve t q = some x → 1 ≤ x.lock_ref) →
    wfAt b (decLockWalk t p).1 = true ∧
    (decLockWalk t p).1.key = t.key ∧
    (decLockWalk t p).1.value = t.value ∧
    (decLockWalk t p).1.lock_ref = t.lock_ref ∧
    evictSumN (decLockWalk t p).1 = evictSumN t + (decLockWalk t p).2.1 := by
  intro p
  induction p with
  | nil =>
    intro t b hwf _
    simp [decLockWalk, hwf]
  | cons tok rest ih =>
    intro t b hwf hval
    cases hl : lookupChild t.children tok with
    | none => simp [decLockWalk, hl, hwf]
    | some c =>
      obtain ⟨hcoh, hwfc⟩ := wfL_lookup (wfAt_children hwf).2 hl
      have hvalc : ∀ q x, q ≠ [] → q <+: rest → resolve c q = some x → 1 ≤ x.lock_ref := by
        intro q x hq hqp hres
        refine hval (tok :: q) x (by simp) ?_ ?_
        · rw [List.cons_prefix_cons]
          exact ⟨rfl, hqp⟩
        · simp [resolve, hl]
          exact hres
      obtain ⟨ih1, ih2, ih3, ih4, ih5⟩ := ih c false hwfc hvalc
      have hlockc : 1 ≤ c.lock_ref := by
        refine hval [tok] c (by simp) ?_ ?_
        · exact ⟨rest, rfl⟩
        · simp [resolve, hl]
      simp only [decLockWalk, hl]
      have hwand : wfAt b (t.withChildren (setChild t.children tok
          ((decLockWalk c rest).1.withLock ((decLockWalk c rest).1.lock_ref - 1)))) = true := by
        refine wfAt_withChildren hwf ?_ ?_
        · rw [map_fst_setChild_of_some hl]
          exact (wfAt_children hwf).1
        · refine wfL_setChild hl (wfAt_children hwf).2 ?_ ?_
          · rw [TreeNode.withLock_key, ih2]
            exact hcoh
          · exact wfN_withLock ih1 (by omega)
      refine ⟨hwand, by simp, by simp, by simp, ?_⟩
      rw [evictSumN_eq, evictSumN_eq t]
      simp only [TreeNode.withChildren_value, TreeNode.withChildren_lock_ref,
        TreeNode.withChildren_children]
      rw [evictSumL_setChild hl]
      have hc'' : evictSumN ((decLockWalk c rest).1.withLock
          ((decLockWalk c rest).1.lock_ref - 1))
          = evictSumN (decLockWalk c rest).1
            + (if (decLockWalk c rest).1.lock_ref = 1
                then ((decLockWalk c rest).1.value.length : Int) else 0) := by
        rw [evictSumN_eq, evictSumN_eq ((decLockWalk c rest).1)]
        simp only [TreeNode.withLock_value, TreeNode.withLock_lock_ref,
          TreeNode.withLock_children]
        have hge : 1 ≤ (decLockWalk c rest).1.lock_ref := by
          rw [ih4]
          omega
        rw [if_neg (show ¬ ((decLockWalk c rest).1.lock_ref = 0) by omega)]
        by_cases hz : (decLockWalk c rest).1.lock_ref = 1
        · rw [if_pos (show (decLockWalk c rest).1.lock_ref - 1 = 0 by omega), if_pos hz]
          ring
        · rw [if_neg (show ¬ ((decLockWalk c rest).1.lock_ref - 1 = 0) by omega),
            if_neg hz]
          ring
      rw [hc'', ih5]
      by_cases hz : (decLockWalk c rest).1.lock_ref = 1
      · simp only [if_pos hz]
        ring
      · simp only [if_neg hz]
        ring

end RadixCacheModel

namespace RadixCacheModel

theorem set_getD_self {α : Type} (l : List α) (i : Nat) (d : α) (h : i < l.length) :
    l.set i (l.getD i d) = l := by
  induction l generalizing i with
  | nil => simp at h
  | cons x rest ih =>
    cases i with
    | zero => simp only [List.getD_cons_zero, List.set]
    | succ j =>
      simp only [List.length_cons] at h
      simp only [List.getD_cons_succ, List.set]
      rw [ih j (by omega)]

theorem perm_cons_set {α : Type} (l : List α) (i : Nat) (a d : α) (h : i < l.length) :
    List.Perm ((l.getD i d) :: l.set i a) (a :: l) := by
  induction l generalizing i with
  | nil => simp at h
  | cons x rest ih =>
    cases i with
    | zero =>
      simp only [List.getD_cons_zero, List.set]
      exact List.Perm.swap a x rest
    | succ j =>
      simp only [List.length_cons] at h
      have h1 := ih j (by omega)
      simp only [List.getD_cons_succ, List.set]
      exact ((List.Perm.swap x (rest.getD j d) (rest.set j a)).trans
        (List.Perm.cons x h1)).trans (List.Perm.swap a x rest)

theorem cons_set_swap {α : Type} (l : List α) (m : Nat) (x a : α) (h : m < l.length) :
    List.Perm (x :: l.set m a) (a :: l.set m x) := by
  induction l generalizing m with
  | nil => simp at h
  | cons b rest ih =>
    cases m with
    | zero =>
      simp only [List.set]
      exact List.Perm.swap a x rest
    | succ j =>
      simp only [List.length_cons] at h
      simp only [List.set]
      exact ((List.Perm.swap b x (rest.set j a)).trans
        (List.Perm.cons b (ih j (by omega)))).trans (List.Perm.swap a b (rest.set j x))

theorem set_set_perm {α : Type} (l : List α) (i j : Nat) (a d : α)
    (hi : i < l.length) (hj : j < l.length) (hij : i ≠ j) :
    List.Perm ((l.set i (l.getD j d)).set j a) (l.set i a) := by
  induction l generalizing i j with
  | nil => simp at hi
  | cons x rest ih =>
    cases i with
    | zero =>
      cases j with
      | zero => exact absurd rfl hij
      | succ n =>
        simp only [List.length_cons] at hj
        simp only [List.getD_cons_succ, List.set]
        exact perm_cons_set rest n a d (by omega)
    | succ m =>
      cases j with
      | zero =>
        simp only [List.length_cons] at hi
        simp only [List.getD_cons_zero, List.set]
        exact (cons_set_swap rest m x a (by omega)).symm
      | succ n =>
        simp only [List.length_cons] at hi hj
        simp only [List.getD_cons_succ, List.set]
        exact List.Perm.cons x (ih m n (by omega) (by omega) (by omega))

end RadixCacheModel

namespace RadixCacheModel

theorem siftdownAux_perm {α : Type} [Inhabited α] (lt : α → α → Bool) (newitem : α)
    (startpos : Nat) : ∀ (pos : Nat) (heap : List α), pos < heap.length →
    List.Perm (siftdownAux lt newitem startpos pos heap) (heap.set pos newitem) := by
  intro pos heap
  induction pos, heap using siftdownAux.induct lt newitem startpos with
  | case1 pos heap h1 parentpos parent hlt ih =>
    intro hlen
    have hppos : (pos - 1) / 2 < pos := by
      calc (pos - 1) / 2 ≤ pos - 1 := Nat.div_le_self _ _
        _ < pos := by omega
    conv_lhs => rw [siftdownAux.eq_def]
    simp only [if_pos h1, if_pos hlt]
    refine (ih (by simp; omega)).trans ?_
    exact set_set_perm heap pos ((pos - 1) / 2) newitem default hlen (by omega) (by omega)
  | case2 pos heap h1 parentpos parent hlt =>
    intro hlen
    conv_lhs => rw [siftdownAux.eq_def]
    simp only [if_pos h1, if_neg hlt]
    exact List.Perm.refl _
  | case3 pos heap h1 =>
    intro hlen
    conv_lhs => rw [siftdownAux.eq_def]
    simp only [if_neg h1]
    exact List.Perm.refl _

end RadixCacheModel

namespace RadixCacheModel

theorem siftupAux_perm {α : Type} [Inhabited α] (lt : α → α → Bool) (newitem : α)
    (startpos : Nat) : ∀ (pos : Nat) (heap : List α), pos < heap.length →
    List.Perm (siftupAux lt newitem startpos pos heap) (heap.set pos newitem) := by
  intro pos heap
  induction pos, heap using siftupAux.induct lt newitem startpos with
  | case1 pos heap h1 childpos ih =>
    intro hlen
    have hchild : childpos < heap.length := by
      have : childpos = if (decide (2 * pos + 2 < heap.length) &&
          !lt (heap.getD (2 * pos + 1) default) (heap.getD (2 * pos + 2) default)) = true
          then 2 * pos + 2 else 2 * pos + 1 := rfl
      rw [this]
      split
      next hcc =>
        simp at hcc
        omega
      next hcc => omega
    have hcp : pos < childpos := by
      have : childpos = if (decide (2 * pos + 2 < heap.length) &&
          !lt (heap.getD (2 * pos + 1) default) (heap.getD (2 * pos + 2) default)) = true
          then 2 * pos + 2 else 2 * pos + 1 := rfl
      rw [this]
      split <;> omega
    conv_lhs => rw [siftupAux.eq_def]
    simp only [dif_pos h1]
    refine (ih (by simp; omega)).trans ?_
    exact set_set_perm heap pos childpos newitem default hlen hchild (by omega)
  | case2 pos heap h1 =>
    intro hlen
    conv_lhs => rw [siftupAux.eq_def]
    simp only [dif_neg h1]
    exact siftdownAux_perm lt newitem startpos pos heap hlen

end RadixCacheModel

namespace RadixCacheModel

theorem set_append_length {α : Type} (l : List α) (a x : α) :
    (l ++ [a]).set l.length x = l ++ [x] := by
  induction l with
  | nil => simp [List.set]
  | cons b rest ih => simp [List.set, ih]

theorem heappush_perm {α : Type} [Inhabited α] (lt : α → α → Bool) (heap : List α)
    (item : α) : List.Perm (heappush lt heap item) (item :: heap) := by
  unfold heappush
  have h1 : heap.length < (heap ++ [item]).length := by simp
  refine (siftdownAux_perm lt item 0 heap.length (heap ++ [item]) h1).trans ?_
  rw [set_append_length]
  exact (List.perm_append_singleton item heap)

theorem heappop_perm {α : Type} [Inhabited α] {lt : α → α → Bool} {heap rest : List α}
    {x : α} (h : heappop lt heap = some (x, rest)) : List.Perm (x :: rest) heap := by
  unfold heappop at h
  cases hl : heap.getLast? with
  | none => rw [hl] at h; simp at h
  | some lastelt =>
    rw [hl] at h
    have hne : heap ≠ [] := by
      intro habs
      rw [habs] at hl
      simp at hl
    have hdecomp : heap.dropLast ++ [lastelt] = heap := by
      have h2 := List.dropLast_append_getLast hne
      have h3 : heap.getLast hne = lastelt := by
        rw [List.getLast?_eq_getLast heap hne] at hl
        simpa using hl
      rw [h3] at h2
      exact h2
    by_cases hemp : heap.dropLast.isEmpty
    · simp only [if_pos hemp] at h
      injection h with h2
      injection h2 with h3 h4
      subst h3
      subst h4
      rw [← hdecomp]
      rw [List.isEmpty_iff] at hemp
      rw [hemp]
      exact List.Perm.refl _
    · simp only [if_neg hemp] at h
      injection h with h2
      injection h2 with h3 h4
      subst h3
      subst h4
      have hlen0 : 0 < heap.dropLast.length := by
        rw [List.isEmpty_iff] at hemp
        cases hd : heap.dropLast with
        | nil => exact absurd hd hemp
        | cons a as => simp
      have hperm1 := siftupAux_perm lt lastelt 0 0 (heap.dropLast.set 0 lastelt)
        (by simpa using hlen0)
      rw [List.set_set] at hperm1
      refine (List.Perm.cons _ hperm1).trans ?_
      refine (perm_cons_set heap.dropLast 0 lastelt default hlen0).trans ?_
      refine (List.perm_append_singleton lastelt heap.dropLast).symm.trans ?_
      rw [hdecomp]

theorem heapifyGo_perm {α : Type} [Inhabited α] (lt : α → α → Bool) :
    ∀ (k : Nat) (heap : List α), k ≤ heap.length →
    List.Perm (heapifyGo lt k heap) heap := by
  intro k
  induction k with
  | zero =>
    intro heap _
    exact List.Perm.refl _
  | succ k ih =>
    intro heap hk
    have hklen : k < heap.length := by omega
    have hperm1 := siftupAux_perm lt (heap.getD k default) k k heap hklen
    rw [set_getD_self heap k default hklen] at hperm1
    have hlen2 : k ≤ (siftupAux lt (heap.getD k default) k k heap).length := by
      rw [hperm1.length_eq]
      omega
    exact (ih _ hlen2).trans hperm1

theorem heapify_perm {α : Type} [Inhabited α] (lt : α → α → Bool) (heap : List α) :
    List.Perm (heapify lt heap) heap :=
  heapifyGo_perm lt (heap.length / 2) heap (Nat.div_le_self _ _)

end RadixCacheModel

namespace RadixCacheModel

theorem lookupChild_eraseChild_self {cs : List (Tok × TreeNode)} {tok : Tok}
    (hnodup : (cs.map Prod.fst).Nodup) :
    lookupChild (eraseChild cs tok) tok = none := by
  induction cs with
  | nil => simp [eraseChild, lookupChild]
  | cons e rest ih =>
    obtain ⟨t, c⟩ := e
    simp at hnodup
    by_cases ht : t = tok
    · subst ht
      simp [eraseChild]
      rw [lookupChild_eq_none]
      intro habs
      obtain ⟨y, hy, hy2⟩ := List.mem_map.mp habs
      have hy3 : (y.1, y.2) ∈ rest := by simpa using hy
      rw [hy2] at hy3
      exact hnodup.1 y.2 hy3
    · simp [eraseChild, ht, lookupChild]
      exact ih hnodup.2

theorem setChild_ne_nil (cs : List (Tok × TreeNode)) (tok : Tok) (n : TreeNode) :
    setChild cs tok n ≠ [] := by
  cases cs with
  | nil => simp [setChild]
  | cons e rest =>
    obtain ⟨t, c⟩ := e
    by_cases ht : t = tok <;> simp [setChild, ht]

@[simp] theorem resolve_nil (t : TreeNode) : resolve t [] = some t := rfl

theorem resolve_cons (t : TreeNode) (tok : Tok) (rest : Path) :
    resolve t (tok :: rest)
      = match lookupChild t.children tok with
        | some c => resolve c rest
        | none => none := rfl

theorem resolve_cons_some {t c : TreeNode} {tok : Tok} (rest : Path)
    (hl : lookupChild t.children tok = some c) :
    resolve t (tok :: rest) = resolve c rest := by
  rw [resolve_cons, hl]

theorem resolve_cons_none {t : TreeNode} {tok : Tok} (rest : Path)
    (hl : lookupChild t.children tok = none) :
    resolve t (tok :: rest) = none := by
  rw [resolve_cons, hl]

end RadixCacheModel

namespace RadixCacheModel

/-- Main specification of _delete_leaf on a well formed tree for a live
childless node: well formedness and the fields of the entered node are
preserved, the charge is -len(key), matching the change of the evictable
sum for an unpinned victim and, through len(key) = len(value), the change
of the total size; one node disappears and exactly its value segment
leaves the stored values. -/
theorem deleteLeaf_spec : ∀ (p : Path) (t : TreeNode) (b : Bool) (x : TreeNode),
    wfAt b t = true → resolve t p = some x → x.children = [] → p ≠ [] →
    wfAt b (deleteLeaf t p).1 = true ∧
    (deleteLeaf t p).1.key = t.key ∧
    (deleteLeaf t p).1.value = t.value ∧
    (deleteLeaf t p).1.lock_ref = t.lock_ref ∧
    (deleteLeaf t p).1.last_access_time = t.last_access_time ∧
    (deleteLeaf t p).2 = -(x.key.length : Int) ∧
    (x.lock_ref = 0 → evictSumN (deleteLeaf t p).1 = evictSumN t + (deleteLeaf t p).2) ∧
    (totalSize (deleteLeaf t p).1 : Int) = (totalSize t : Int) - x.value.length ∧
    ((nodeCount (deleteLeaf t p).1 : Int) = (nodeCount t : Int) - 1) ∧
    ∃ pre post, treeVals t = pre ++ (x.value ++ post) ∧
      treeVals (deleteLeaf t p).1 = pre ++ post := by
  intro p
  induction p with
  | nil =>
    intro t b x _ _ _ hne
    exact absurd rfl hne
  | cons tok rest ih =>
    intro t b x hwf hres hxc _
    cases rest with
    | nil =>
      have hl : lookupChild t.children tok = some x := by
        rw [resolve_cons] at hres
        cases hll : lookupChild t.children tok with
        | none => rw [hll] at hres; simp at hres
        | some c =>
          rw [hll] at hres
          simp at hres
          rw [hres]
      obtain ⟨hcoh, hwfx⟩ := wfL_lookup (wfAt_children hwf).2 hl
      have hxparts := wfN_parts hwfx
      simp only [deleteLeaf, hl]
      refine ⟨?_, by simp, by simp, by simp, by simp, by simp, ?_, ?_, ?_, ?_⟩
      · refine wfAt_withChildren hwf ?_ (wfL_eraseChild hl (wfAt_children hwf).2)
        exact List.Nodup.sublist (map_fst_eraseChild_sublist t.children tok)
          (wfAt_children hwf).1
      · intro hlock
        rw [evictSumN_eq, evictSumN_eq t]
        simp only [TreeNode.withChildren_value, TreeNode.withChildren_lock_ref,
          TreeNode.withChildren_children]
        rw [evictSumL_eraseChild hl]
        have hkv := hxparts.2.1
        have hx : evictSumN x = (x.key.length : Int) := by
          rw [evictSumN_eq, if_pos hlock, hxc]
          simp
          omega
        rw [hx]
        ring
      · rw [totalSize_eq, totalSize_eq t]
        simp only [TreeNode.withChildren_value, TreeNode.withChildren_children]
        have h1 := totalSizeL_eraseChild hl
        have hx : (totalSize x : Int) = (x.value.length : Int) := by
          rw [totalSize_eq, hxc]
          simp
        omega
      · rw [nodeCount_eq, nodeCount_eq t]
        simp only [TreeNode.withChildren_children]
        have h1 := nodeCountL_eraseChild hl
        have hx : (nodeCount x : Int) = 1 := by
          rw [nodeCount_eq, hxc]
          simp
        omega
      · obtain ⟨pre, post, h1, h2⟩ := treeValsL_eraseChild hl
        have hx : treeVals x = x.value := by
          rw [treeVals_eq, hxc]
          simp
        refine ⟨t.value ++ pre, post, ?_, ?_⟩
        · rw [treeVals_eq, h1, hx]
          simp
        · rw [treeVals_eq]
          simp only [TreeNode.withChildren_value, TreeNode.withChildren_children]
          rw [h2]
          simp
    | cons tok2 prest =>
      have hstep : ∃ c, lookupChild t.children tok = some c ∧
          resolve c (tok2 :: prest) = some x := by
        rw [resolve_cons] at hres
        cases hll : lookupChild t.children tok with
        | none => rw [hll] at hres; simp at hres
        | some c =>
          rw [hll] at hres
          exact ⟨c, rfl, hres⟩
      obtain ⟨c, hl, hresc⟩ := hstep
      obtain ⟨hcoh, hwfc⟩ := wfL_lookup (wfAt_children hwf).2 hl
      obtain ⟨ih1, ih2, ih3, ih4, ih5, ih6, ih7, ih8, ih9, pre, post, ihA, ihB⟩ :=
        ih c false x hwfc hresc hxc (by simp)
      simp only [deleteLeaf, hl]
      refine ⟨?_, by simp, by simp, by simp, by simp, ih6, ?_, ?_, ?_, ?_⟩
      · refine wfAt_withChildren hwf ?_ ?_
        · rw [map_fst_setChild_of_some hl]
          exact (wfAt_children hwf).1
        · exact wfL_setChild hl (wfAt_children hwf).2 (by rw [ih2]; exact hcoh) ih1
      · intro hlock
        rw [evictSumN_eq, evictSumN_eq t]
        simp only [TreeNode.withChildren_value, TreeNode.withChildren_lock_ref,
          TreeNode.withChildren_children]
        rw [evictSumL_setChild hl, ih7 hlock]
        ring
      · rw [totalSize_eq, totalSize_eq t]
        simp only [TreeNode.withChildren_value, TreeNode.withChildren_children]
        have h1 := totalSizeL_setChild hl (deleteLeaf c (tok2 :: prest)).1
        omega
      · rw [nodeCount_eq, nodeCount_eq t]
        simp only [TreeNode.withChildren_children]
        have h1 := nodeCountL_setChild hl (deleteLeaf c (tok2 :: prest)).1
        omega
      · obtain ⟨P, Q, hP, hQ⟩ := treeValsL_setChild hl (deleteLeaf c (tok2 :: prest)).1
        refine ⟨t.value ++ P ++ pre, post ++ Q, ?_, ?_⟩
        · rw [treeVals_eq, hP, ihA]
          simp
        · rw [treeVals_eq]
          simp only [TreeNode.withChildren_value, TreeNode.withChildren_children]
          rw [hQ, ihB]
          simp

end RadixCacheModel

namespace RadixCacheModel

/-- Every node that resolves after a _delete_leaf already resolved before,
with identical fields; children may only have disappeared, and only the
parent of the deleted leaf can have become childless. -/
theorem deleteLeaf_backMap : ∀ (p : Path) (t : TreeNode) (b : Bool) (x : TreeNode),
    wfAt b t = true → resolve t p = some x → p ≠ [] →
    ∀ q m, resolve (deleteLeaf t p).1 q = some m →
    ∃ n, resolve t q = some n ∧ m.key = n.key ∧ m.value = n.value ∧
      m.lock_ref = n.lock_ref ∧ m.last_access_time = n.last_access_time ∧
      (m.children = [] → n.children = [] ∨ q = p.dropLast) := by
  intro p
  induction p with
  | nil =>
    intro t b x _ _ hne
    exact absurd rfl hne
  | cons tok rest ih =>
    intro t b x hwf hres _ q m hm
    cases rest with
    | nil =>
      have hl : lookupChild t.children tok = some x := by
        rw [resolve_cons] at hres
        cases hll : lookupChild t.children tok with
        | none => rw [hll] at hres; simp at hres
        | some c =>
          rw [hll] at hres
          simp at hres
          rw [hres]
      simp only [deleteLeaf, hl] at hm
      cases q with
      | nil =>
        simp at hm
        refine ⟨t, rfl, by rw [← hm]; simp, by rw [← hm]; simp, by rw [← hm]; simp,
          by rw [← hm]; simp, ?_⟩
        intro _
        right
        rfl
      | cons tokq qrest =>
        by_cases htq : tokq = tok
        · subst htq
          rw [resolve_cons] at hm
          simp only [TreeNode.withChildren_children] at hm
          rw [lookupChild_eraseChild_self (wfAt_children hwf).1] at hm
          simp at hm
        · rw [resolve_cons] at hm
          simp only [TreeNode.withChildren_children] at hm
          rw [lookupChild_eraseChild_other (wfAt_children hwf).1 htq] at hm
          cases hlq : lookupChild t.children tokq with
          | none => rw [hlq] at hm; simp at hm
          | some cq =>
            rw [hlq] at hm
            refine ⟨m, ?_, rfl, rfl, rfl, rfl, fun h => Or.inl h⟩
            rw [resolve_cons_some _ hlq]
            exact hm
    | cons tok2 prest =>
      have hstep : ∃ c, lookupChild t.children tok = some c ∧
          resolve c (tok2 :: prest) = some x := by
        rw [resolve_cons] at hres
        cases hll : lookupChild t.children tok with
        | none => rw [hll] at hres; simp at hres
        | some c =>
          rw [hll] at hres
          exact ⟨c, rfl, hres⟩
      obtain ⟨c, hl, hresc⟩ := hstep
      obtain ⟨hcoh, hwfc⟩ := wfL_lookup (wfAt_children hwf).2 hl
      simp only [deleteLeaf, hl] at hm
      cases q with
      | nil =>
        simp at hm
        refine ⟨t, rfl, by rw [← hm]; simp, by rw [← hm]; simp, by rw [← hm]; simp,
          by rw [← hm]; simp, ?_⟩
        intro habs
        rw [← hm] at habs
        simp at habs
        exact absurd habs (setChild_ne_nil _ _ _)
      | cons tokq qrest =>
        by_cases htq : tokq = tok
        · subst htq
          rw [resolve_cons] at hm
          simp only [TreeNode.withChildren_children] at hm
          rw [lookupChild_setChild_self] at hm
          obtain ⟨n, hn1, hn2, hn3, hn4, hn5, hn6⟩ :=
            ih c false x hwfc hresc (by simp) qrest m hm
          refine ⟨n, by rw [resolve_cons_some _ hl]; exact hn1, hn2, hn3, hn4, hn5, ?_⟩
          intro hmc
          rcases hn6 hmc with h | h
          · exact Or.inl h
          · right
            rw [h]
            rfl
        · rw [resolve_cons] at hm
          simp only [TreeNode.withChildren_children] at hm
          rw [lookupChild_setChild_other htq] at hm
          cases hlq : lookupChild t.children tokq with
          | none => rw [hlq] at hm; simp at hm
          | some cq =>
            rw [hlq] at hm
            refine ⟨m, ?_, rfl, rfl, rfl, rfl, fun h => Or.inl h⟩
            rw [resolve_cons_some _ hlq]
            exact hm

end RadixCacheModel

namespace RadixCacheModel

/-- Every live node other than the deleted childless leaf survives a
_delete_leaf with identical fields. -/
theorem deleteLeaf_forward : ∀ (p : Path) (t : TreeNode) (b : Bool) (x : TreeNode),
    wfAt b t = true → resolve t p = some x → x.children = [] → p ≠ [] →
    ∀ q n, resolve t q = some n → q ≠ p →
    ∃ m, resolve (deleteLeaf t p).1 q = some m ∧ m.key = n.key ∧ m.value = n.value ∧
      m.lock_ref = n.lock_ref ∧ m.last_access_time = n.last_access_time ∧
      (n.children = [] → m.children = []) := by
  intro p
  induction p with
  | nil =>
    intro t b x _ _ _ hne
    exact absurd rfl hne
  | cons tok rest ih =>
    intro t b x hwf hres hxc _ q n hn hqp
    cases rest with
    | nil =>
      have hl : lookupChild t.children tok = some x := by
        rw [resolve_cons] at hres
        cases hll : lookupChild t.children tok with
        | none => rw [hll] at hres; simp at hres
        | some c =>
          rw [hll] at hres
          simp at hres
          rw [hres]
      simp only [deleteLeaf, hl]
      cases q with
      | nil =>
        simp at hn
        refine ⟨_, rfl, by rw [← hn]; simp, by rw [← hn]; simp, by rw [← hn]; simp,
          by rw [← hn]; simp, ?_⟩
        rw [← hn]
        intro hnc
        rw [hnc] at hl
        simp [lookupChild] at hl
      | cons tokq qrest =>
        by_cases htq : tokq = tok
        · subst htq
          cases qrest with
          | nil => exact absurd rfl hqp
          | cons a as =>
            rw [resolve_cons_some _ hl, resolve_cons] at hn
            rw [hxc] at hn
            simp [lookupChild] at hn
        · rw [resolve_cons] at hn
          cases hlq : lookupChild t.children tokq with
          | none => rw [hlq] at hn; simp at hn
          | some cq =>
            rw [hlq] at hn
            refine ⟨n, ?_, rfl, rfl, rfl, rfl, fun h => h⟩
            rw [resolve_cons]
            simp only [TreeNode.withChildren_children]
            rw [lookupChild_eraseChild_other (wfAt_children hwf).1 htq, hlq]
            exact hn
    | cons tok2 prest =>
      have hstep : ∃ c, lookupChild t.children tok = some c ∧
          resolve c (tok2 :: prest) = some x := by
        rw [resolve_cons] at hres
        cases hll : lookupChild t.children tok with
        | none => rw [hll] at hres; simp at hres
        | some c =>
          rw [hll] at hres
          exact ⟨c, rfl, hres⟩
      obtain ⟨c, hl, hresc⟩ := hstep
      obtain ⟨hcoh, hwfc⟩ := wfL_lookup (wfAt_children hwf).2 hl
      simp only [deleteLeaf, hl]
      cases q with
      | nil =>
        simp at hn
        refine ⟨_, rfl, by rw [← hn]; simp, by rw [← hn]; simp, by rw [← hn]; simp,
          by rw [← hn]; simp, ?_⟩
        rw [← hn]
        intro hnc
        rw [hnc] at hl
        simp [lookupChild] at hl
      | cons tokq qrest =>
        by_cases htq : tokq = tok
        · subst htq
          rw [resolve_cons_some _ hl] at hn
          obtain ⟨m, hm1, hm2, hm3, hm4, hm5, hm6⟩ :=
            ih c false x hwfc hresc hxc (by simp) qrest n hn
              (fun habs => hqp (by rw [habs]))
          refine ⟨m, ?_, hm2, hm3, hm4, hm5, hm6⟩
          rw [resolve_cons]
          simp only [TreeNode.withChildren_children]
          rw [lookupChild_setChild_self]
          exact hm1
        · rw [resolve_cons] at hn
          cases hlq : lookupChild t.children tokq with
          | none => rw [hlq] at hn; simp at hn
          | some cq =>
            rw [hlq] at hn
            refine ⟨n, ?_, rfl, rfl, rfl, rfl, fun h => h⟩
            rw [resolve_cons]
            simp only [TreeNode.withChildren_children]
            rw [lookupChild_setChild_other htq, hlq]
            exact hn

/-- The deleted path no longer resolves. -/
theorem deleteLeaf_gone : ∀ (p : Path) (t : TreeNode) (b : Bool) (x : TreeNode),
    wfAt b t = true → resolve t p = some x → p ≠ [] →
    resolve (deleteLeaf t p).1 p = none := by
  intro p
  induction p with
  | nil =>
    intro t b x _ _ hne
    exact absurd rfl hne
  | cons tok rest ih =>
    intro t b x hwf hres _
    cases rest with
    | nil =>
      have hl : lookupChild t.children tok = some x := by
        rw [resolve_cons] at hres
        cases hll : lookupChild t.children tok with
        | none => rw [hll] at hres; simp at hres
        | some c =>
          rw [hll] at hres
          simp at hres
          rw [hres]
      simp only [deleteLeaf, hl]
      rw [resolve_cons]
      simp only [TreeNode.withChildren_children]
      rw [lookupChild_eraseChild_self (wfAt_children hwf).1]
    | cons tok2 prest =>
      have hstep : ∃ c, lookupChild t.children tok = some c ∧
          resolve c (tok2 :: prest) = some x := by
        rw [resolve_cons] at hres
        cases hll : lookupChild t.children tok with
        | none => rw [hll] at hres; simp at hres
        | some c =>
          rw [hll] at hres
          exact ⟨c, rfl, hres⟩
      obtain ⟨c, hl, hresc⟩ := hstep
      obtain ⟨hcoh, hwfc⟩ := wfL_lookup (wfAt_children hwf).2 hl
      simp only [deleteLeaf, hl]
      rw [resolve_cons]
      simp only [TreeNode.withChildren_children]
      rw [lookupChild_setChild_self]
      exact ih c false x hwfc hresc (by simp)

end RadixCacheModel

namespace RadixCacheModel

theorem nodeCountL_reverse (cs : List (Tok × TreeNode)) :
    nodeCountL cs.reverse = nodeCountL cs := by
  rw [nodeCountL_eq_sum, nodeCountL_eq_sum, List.map_reverse, List.sum_reverse]

mutual

/-- Structural characterisation of the output of _collect_leaves: the paths
of the childless nodes, last dict entry first (the DFS pops the last pushed
child first). -/
def leafPathsN (pre : Path) (t : TreeNode) : List Path :=
  if t.children.isEmpty then [pre] else leafPathsL pre t.children.reverse
termination_by 2 * nodeCount t
decreasing_by
  rw [nodeCountL_reverse]
  have := nodeCount_pos t
  rw [nodeCount_eq t]
  omega

def leafPathsL (pre : Path) : List (Tok × TreeNode) → List Path
  | [] => []
  | (tok, c) :: rest => leafPathsN (pre ++ [tok]) c ++ leafPathsL pre rest
termination_by cs => 2 * nodeCountL cs + 1
decreasing_by
  · have := nodeCount_pos c
    simp [nodeCountL_cons]
    omega
  · have := nodeCount_pos c
    simp [nodeCountL_cons]
    omega

end

/-- leafPaths over a stack of pending subtrees. -/
def leafPathsS : List (Path × TreeNode) → List Path
  | [] => []
  | (p, t) :: rest => leafPathsN p t ++ leafPathsS rest

theorem leafPathsS_append (a b : List (Path × TreeNode)) :
    leafPathsS (a ++ b) = leafPathsS a ++ leafPathsS b := by
  induction a with
  | nil => simp [leafPathsS]
  | cons e rest ih =>
    obtain ⟨p, t⟩ := e
    simp [leafPathsS, ih]

theorem leafPathsS_map (pre : Path) (cs : List (Tok × TreeNode)) :
    leafPathsS (cs.map (fun e => (pre ++ [e.1], e.2))) = leafPathsL pre cs := by
  induction cs with
  | nil => simp [leafPathsS, leafPathsL]
  | cons e rest ih =>
    obtain ⟨tok, c⟩ := e
    simp [leafPathsS, leafPathsL, ih]

theorem collectGo_eq : ∀ (n : Nat) (s : List (Path × TreeNode)) (acc : List Path),
    stackSize s ≤ n → collectGo s acc = acc ++ leafPathsS s := by
  intro n
  induction n with
  | zero =>
    intro s acc hs
    cases s with
    | nil => simp [collectGo, leafPathsS]
    | cons e rest =>
      obtain ⟨p, t⟩ := e
      have := nodeCount_pos t
      simp [stackSize] at hs
      omega
  | succ n ihn =>
    intro s acc hs
    cases s with
    | nil => simp [collectGo, leafPathsS]
    | cons e stack =>
      obtain ⟨p, t⟩ := e
      have hstep : collectGo ((p, t) :: stack) acc
          = if t.children.isEmpty then collectGo stack (acc ++ [p])
            else collectGo ((t.children.map (fun e => (p ++ [e.1], e.2))).reverse ++ stack) acc := by
        rw [collectGo.eq_def]
      rw [hstep]
      by_cases hemp : t.children.isEmpty
      · rw [if_pos hemp]
        have hsz : stackSize stack ≤ n := by
          have := nodeCount_pos t
          simp at hs
          omega
        rw [ihn stack (acc ++ [p]) hsz]
        simp [leafPathsS, leafPathsN, hemp]
      · rw [if_neg hemp]
        have hsz : stackSize ((t.children.map (fun e => (p ++ [e.1], e.2))).reverse ++ stack)
            ≤ n := by
          rw [stackSize_append, stackSize_reverse]
          have h1 : stackSize (t.children.map (fun e => (p ++ [e.1], e.2)))
              = nodeCountL t.children := by
            rw [stackSize, nodeCountL_eq_sum]
            rw [List.map_map]
            rfl
          have h2 : nodeCount t = 1 + nodeCountL t.children := nodeCount_eq t
          simp [h1] at hs ⊢
          simp [stackSize_cons, h2] at hs
          omega
        rw [ihn _ acc hsz]
        rw [leafPathsS_append]
        have h3 : leafPathsS ((t.children.map (fun e => (p ++ [e.1], e.2))).reverse)
            = leafPathsN p t := by
          rw [← List.map_reverse, leafPathsS_map]
          rw [leafPathsN]
          rw [if_neg hemp]
        rw [h3]
        simp [leafPathsS]

/-- _collect_leaves computes exactly the leafPaths of the root. -/
theorem collectLeaves_eq (root : TreeNode) :
    collectLeaves root = leafPathsN [] root := by
  rw [collectLeaves, collectGo_eq (stackSize [([], root)]) _ _ le_rfl]
  simp [leafPathsS]

end RadixCacheModel

namespace RadixCacheModel

theorem nodeCountL_nonneg (cs : List (Tok × TreeNode)) : 0 ≤ nodeCountL cs := by
  induction cs with
  | nil => simp [nodeCountL_nil]
  | cons e rest ih =>
    have := nodeCount_pos e.2
    rw [nodeCountL_cons]
    omega

theorem lookupChild_of_mem_nodup {cs : List (Tok × TreeNode)} {tok : Tok} {c : TreeNode}
    (hnodup : (cs.map Prod.fst).Nodup) (hm : (tok, c) ∈ cs) :
    lookupChild cs tok = some c := by
  induction cs with
  | nil => simp at hm
  | cons e rest ih =>
    obtain ⟨t, x⟩ := e
    simp only [List.map_cons, List.nodup_cons] at hnodup
    rcases List.mem_cons.mp hm with h1 | h2
    · rw [Prod.mk.injEq] at h1
      obtain ⟨h1a, h1b⟩ := h1
      subst h1a
      subst h1b
      simp [lookupChild]
    · have ht : t ≠ tok := by
        intro he
        subst he
        exact hnodup.1 (List.mem_map.mpr ⟨(t, c), h2, rfl⟩)
      simp [lookupChild, ht]
      exact ih hnodup.2 h2

theorem nodeCount_mem_le {cs : List (Tok × TreeNode)} {tok : Tok} {c : TreeNode}
    (hm : (tok, c) ∈ cs) : nodeCount c ≤ nodeCountL cs := by
  induction cs with
  | nil => simp at hm
  | cons e rest ih =>
    obtain ⟨t, x⟩ := e
    rcases List.mem_cons.mp hm with h1 | h2
    · rw [Prod.mk.injEq] at h1
      obtain ⟨h1a, h1b⟩ := h1
      subst h1b
      have h3 := nodeCountL_nonneg rest
      have h4 : nodeCountL ((t, c) :: rest) = nodeCount c + nodeCountL rest := by
        simp [nodeCountL_cons]
      omega
    · have h3 := nodeCount_pos x
      have h5 := ih h2
      have h4 : nodeCountL ((t, x) :: rest) = nodeCount x + nodeCountL rest := by
        simp [nodeCountL_cons]
      omega

theorem mem_leafPathsL {pre z : Path} : ∀ {l : List (Tok × TreeNode)},
    z ∈ leafPathsL pre l → ∃ tok c, (tok, c) ∈ l ∧ z ∈ leafPathsN (pre ++ [tok]) c := by
  intro l
  induction l with
  | nil =>
    intro h
    rw [leafPathsL] at h
    simp at h
  | cons e rest ih =>
    obtain ⟨tok, c⟩ := e
    intro h
    rw [leafPathsL] at h
    rcases List.mem_append.mp h with h1 | h2
    · exact ⟨tok, c, List.mem_cons_self _ _, h1⟩
    · obtain ⟨tok2, c2, hm2, hz2⟩ := ih h2
      exact ⟨tok2, c2, List.mem_cons_of_mem _ hm2, hz2⟩

theorem leafPathsL_mem_of {pre z : Path} {tok : Tok} {c : TreeNode} :
    ∀ {l : List (Tok × TreeNode)}, (tok, c) ∈ l → z ∈ leafPathsN (pre ++ [tok]) c →
      z ∈ leafPathsL pre l := by
  intro l
  induction l with
  | nil => simp
  | cons e rest ih =>
    obtain ⟨t, x⟩ := e
    intro hm hz
    rw [leafPathsL]
    rcases List.mem_cons.mp hm with h1 | h2
    · rw [Prod.mk.injEq] at h1
      obtain ⟨h1a, h1b⟩ := h1
      subst h1a
      subst h1b
      exact List.mem_append.mpr (Or.inl hz)
    · exact List.mem_append.mpr (Or.inr (ih h2 hz))

/-- Completeness of _collect_leaves: the address of every childless node of
the tree is in the collected list. -/
theorem mem_leafPathsN_of_resolve : ∀ (q : Path) (t : TreeNode) (pre : Path)
    (n : TreeNode), resolve t q = some n → n.children = [] →
    (pre ++ q) ∈ leafPathsN pre t := by
  intro q
  induction q with
  | nil =>
    intro t pre n hres hleaf
    rw [resolve_nil] at hres
    injection hres with hres
    subst hres
    rw [leafPathsN]
    rw [if_pos (by simp [hleaf])]
    simp
  | cons tok rest ih =>
    intro t pre n hres hleaf
    rw [resolve_cons] at hres
    cases hl : lookupChild t.children tok with
    | none => rw [hl] at hres; simp at hres
    | some c =>
      rw [hl] at hres
      simp only at hres
      have hm : (tok, c) ∈ t.children := lookupChild_mem hl
      have hne : ¬t.children.isEmpty := by
        cases hcs : t.children with
        | nil => rw [hcs] at hm; simp at hm
        | cons a b => simp [hcs]
      rw [leafPathsN, if_neg hne]
      have hmr : (tok, c) ∈ t.children.reverse := List.mem_reverse.mpr hm
      have hin := ih c (pre ++ [tok]) n hres hleaf
      have : pre ++ tok :: rest = (pre ++ [tok]) ++ rest := by simp
      rw [this]
      exact leafPathsL_mem_of hmr hin

/-- Soundness of _collect_leaves on a well formed tree: every collected
address resolves to a childless node. -/
theorem resolve_of_mem_leafPathsN : ∀ (k : Nat) (t : TreeNode) (b : Bool)
    (pre z : Path), nodeCount t ≤ k → wfAt b t = true → z ∈ leafPathsN pre t →
    ∃ q n, z = pre ++ q ∧ resolve t q = some n ∧ n.children = [] := by
  intro k
  induction k with
  | zero =>
    intro t b pre z hk
    have := nodeCount_pos t
    omega
  | succ k ihk =>
    intro t b pre z hk hwf hz
    by_cases hemp : t.children.isEmpty
    · rw [leafPathsN, if_pos hemp] at hz
      simp at hz
      subst hz
      refine ⟨[], t, by simp, resolve_nil t, ?_⟩
      cases hcs : t.children with
      | nil => rfl
      | cons a b => rw [hcs] at hemp; simp at hemp
    · rw [leafPathsN, if_neg hemp] at hz
      obtain ⟨tok, c, hmr, hzc⟩ := mem_leafPathsL hz
      have hm : (tok, c) ∈ t.children := List.mem_reverse.mp hmr
      obtain ⟨hnodup, hwfl⟩ := wfAt_children hwf
      have hwfc : wfN c = true := (wfL_forall hwfl (tok, c) hm).2
      have hkc : nodeCount c ≤ k := by
        have h1 := nodeCount_mem_le hm
        have h2 := nodeCount_eq t
        have h3 := nodeCountL_nonneg t.children
        omega
      obtain ⟨q, n, hzq, hres, hleaf⟩ :=
        ihk c false (pre ++ [tok]) z hkc (by simp [wfAt, hwfc]) hzc
      refine ⟨tok :: q, n, ?_, ?_, hleaf⟩
      · rw [hzq]; simp
      · rw [resolve_cons_some q (lookupChild_of_mem_nodup hnodup hm)]
        exact hres

end RadixCacheModel

namespace RadixCacheModel

theorem resolve_append : ∀ (a b : Path) (t : TreeNode),
    resolve t (a ++ b) = (resolve t a).bind (fun n => resolve n b) := by
  intro a
  induction a with
  | nil =>
    intro b t
    simp
  | cons tok rest ih =>
    intro b t
    rw [List.cons_append, resolve_cons, resolve_cons]
    cases hl : lookupChild t.children tok with
    | none => simp
    | some c => simpa using ih b c

theorem resolve_childless_cons {n : TreeNode} (hc : n.children = []) (tok : Tok)
    (r : Path) : resolve n (tok :: r) = none := by
  rw [resolve_cons, hc]
  simp [lookupChild]

theorem totalSize_pos_of_wfN {c : TreeNode} (h : wfN c = true) : 1 ≤ totalSize c := by
  obtain ⟨hk, hkv, _, _, _⟩ := wfN_parts h
  cases c with
  | mk k v l tm cs =>
    simp [totalSize]
    simp at hk hkv
    cases k with
    | nil => exact absurd rfl hk
    | cons a as =>
      simp at hkv
      omega

theorem totalSize_zero_drained {b : Bool} {t : TreeNode} (hwf : wfAt b t = true)
    (h : totalSize t = 0) : t.children = [] := by
  cases hcs : t.children with
  | nil => rfl
  | cons e rest =>
    obtain ⟨tok, c⟩ := e
    have hwfl := (wfAt_children hwf).2
    rw [hcs] at hwfl
    have hwfc : wfN c = true := (wfL_forall hwfl (tok, c) (List.mem_cons_self _ _)).2
    have h1 := totalSize_pos_of_wfN hwfc
    have h2 : totalSizeL t.children = totalSizeL ((tok, c) :: rest) := by rw [hcs]
    have h3 : totalSize t = t.value.length + totalSizeL t.children := by
      cases t
      simp [totalSize] at h2 ⊢
    rw [totalSizeL] at h2
    omega

theorem exists_leaf : ∀ (k : Nat) (t : TreeNode), nodeCount t ≤ k → t.children ≠ [] →
    ∃ q n, q ≠ [] ∧ resolve t q = some n ∧ n.children = [] := by
  intro k
  induction k with
  | zero =>
    intro t hk
    have := nodeCount_pos t
    omega
  | succ k ihk =>
    intro t hk hne
    cases hcs : t.children with
    | nil => exact absurd hcs hne
    | cons e rest =>
      obtain ⟨tok, c⟩ := e
      have hl : lookupChild t.children tok = some c := by
        rw [hcs]
        simp [lookupChild]
      have hkc : nodeCount c ≤ k := by
        have h1 : nodeCount c ≤ nodeCountL t.children :=
          nodeCount_mem_le (by rw [hcs]; exact List.mem_cons_self _ _)
        have h2 := nodeCount_eq t
        have h3 := nodeCountL_nonneg t.children
        omega
      by_cases hcc : c.children = []
      · exact ⟨[tok], c, by simp, by rw [resolve_cons_some _ hl]; simp, hcc⟩
      · obtain ⟨q, n, hq, hres, hnc⟩ := ihk c hkc hcc
        exact ⟨tok :: q, n, by simp, by rw [resolve_cons_some _ hl]; exact hres, hnc⟩

theorem heappop_eq_none {α : Type} [Inhabited α] {lt : α → α → Bool} {heap : List α}
    (h : heappop lt heap = none) : heap = [] := by
  unfold heappop at h
  cases hl : heap.getLast? with
  | none => exact List.getLast?_eq_none.mp hl
  | some lastelt =>
    rw [hl] at h
    by_cases he : heap.dropLast.isEmpty <;> simp [he] at h

theorem heappop_mem {α : Type} [Inhabited α] {lt : α → α → Bool} {heap rest : List α}
    {x : α} (h : heappop lt heap = some (x, rest)) : x ∈ heap :=
  (heappop_perm h).mem_iff.mp (List.mem_cons_self _ _)

theorem heappop_mem_rest {α : Type} [Inhabited α] {lt : α → α → Bool}
    {heap rest : List α} {x e : α} (h : heappop lt heap = some (x, rest))
    (he : e ∈ rest) : e ∈ heap :=
  (heappop_perm h).mem_iff.mp (List.mem_cons_of_mem _ he)

theorem heappop_mem_of_ne {α : Type} [Inhabited α] {lt : α → α → Bool}
    {heap rest : List α} {x e : α} (h : heappop lt heap = some (x, rest))
    (he : e ∈ heap) (hne : e ≠ x) : e ∈ rest := by
  have h2 := (heappop_perm h).mem_iff.mpr he
  rcases List.mem_cons.mp h2 with h3 | h3
  · exact absurd h3 hne
  · exact h3

theorem heappop_length {α : Type} [Inhabited α] {lt : α → α → Bool}
    {heap rest : List α} {x : α} (h : heappop lt heap = some (x, rest)) :
    heap.length = rest.length + 1 := by
  have := (heappop_perm h).length_eq
  simpa using this.symm

theorem heappush_length {α : Type} [Inhabited α] (lt : α → α → Bool) (heap : List α)
    (item : α) : (heappush lt heap item).length = heap.length + 1 := by
  have := (heappush_perm lt heap item).length_eq
  simpa using this

theorem heappush_mem {α : Type} [Inhabited α] {lt : α → α → Bool} {heap : List α}
    {item e : α} (he : e ∈ heappush lt heap item) : e = item ∨ e ∈ heap := by
  have := (heappush_perm lt heap item).mem_iff.mp he
  simpa using this

end RadixCacheModel

namespace RadixCacheModel

theorem evictLoop_zero (numTokens : Nat) (t : TreeNode) (ev : Int)
    (heap : List HeapElem) (ne : Nat) (freed : List (Path × List Tok)) :
    evictLoop numTokens 0 t ev heap ne freed = (t, ev, ne, freed) := rfl

theorem evictLoop_succ_stop {numTokens ne : Nat} {heap : List HeapElem}
    (fuel : Nat) (t : TreeNode) (ev : Int) (freed : List (Path × List Tok))
    (h : ¬(ne < numTokens ∧ heap ≠ [])) :
    evictLoop numTokens (fuel + 1) t ev heap ne freed = (t, ev, ne, freed) := by
  rw [evictLoop, if_neg h]

theorem evictLoop_succ_popnone {numTokens ne : Nat} {heap : List HeapElem}
    (fuel : Nat) (t : TreeNode) (ev : Int) (freed : List (Path × List Tok))
    (hcond : ne < numTokens ∧ heap ≠ []) (hpop : heappop nodeLt heap = none) :
    evictLoop numTokens (fuel + 1) t ev heap ne freed = (t, ev, ne, freed) := by
  rw [evictLoop, if_pos hcond]
  simp only [hpop]

theorem evictLoop_succ_root {numTokens ne : Nat} {heap heap2 : List HeapElem}
    {x : HeapElem} (fuel : Nat) (t : TreeNode) (ev : Int)
    (freed : List (Path × List Tok)) (hcond : ne < numTokens ∧ heap ≠ [])
    (hpop : heappop nodeLt heap = some (x, heap2)) (hx : x.2 = []) :
    evictLoop numTokens (fuel + 1) t ev heap ne freed = (t, ev, ne, freed) := by
  rw [evictLoop, if_pos hcond]
  simp only [hpop, hx, if_pos]

theorem evictLoop_succ_dead {numTokens ne : Nat} {heap heap2 : List HeapElem}
    {x : HeapElem} {t : TreeNode} (fuel : Nat) (ev : Int)
    (freed : List (Path × List Tok)) (hcond : ne < numTokens ∧ heap ≠ [])
    (hpop : heappop nodeLt heap = some (x, heap2)) (hx : ¬x.2 = [])
    (hres : resolve t x.2 = none) :
    evictLoop numTokens (fuel + 1) t ev heap ne freed
      = evictLoop numTokens fuel t ev heap2 ne freed := by
  rw [evictLoop, if_pos hcond]
  simp only [hpop, if_neg hx, hres]

theorem evictLoop_succ_pinned {numTokens ne : Nat} {heap heap2 : List HeapElem}
    {x : HeapElem} {t n : TreeNode} (fuel : Nat) (ev : Int)
    (freed : List (Path × List Tok)) (hcond : ne < numTokens ∧ heap ≠ [])
    (hpop : heappop nodeLt heap = some (x, heap2)) (hx : ¬x.2 = [])
    (hres : resolve t x.2 = some n) (hlock : 0 < n.lock_ref) :
    evictLoop numTokens (fuel + 1) t ev heap ne freed
      = evictLoop numTokens fuel t ev heap2 ne freed := by
  rw [evictLoop, if_pos hcond]
  simp only [hpop, if_neg hx, hres, if_pos hlock]

theorem evictLoop_succ_del {numTokens ne : Nat} {heap heap2 : List HeapElem}
    {x : HeapElem} {t n : TreeNode} (fuel : Nat) (ev : Int)
    (freed : List (Path × List Tok)) (hcond : ne < numTokens ∧ heap ≠ [])
    (hpop : heappop nodeLt heap = some (x, heap2)) (hx : ¬x.2 = [])
    (hres : resolve t x.2 = some n) (hlock : ¬0 < n.lock_ref) :
    evictLoop numTokens (fuel + 1) t ev heap ne freed
      = evictLoop numTokens fuel (deleteLeaf t x.2).1 (ev + (deleteLeaf t x.2).2)
          (match resolve (deleteLeaf t x.2).1 x.2.dropLast with
            | some par =>
              if par.children.isEmpty then
                heappush nodeLt heap2 (par.last_access_time, x.2.dropLast)
              else heap2
            | none => heap2)
          (ne + n.value.length) (freed ++ [(x.2, n.value)]) := by
  rw [evictLoop, if_pos hcond]
  simp only [hpop, if_neg hx, hres, if_neg hlock]

/-- The relation between a loop entry state (tree, counter, freed token count,
freed log) and the loop result that every iteration of the eviction loop
preserves: well formedness, the root fields, the accounting identity of
evictable_size_, the description of the newly freed entries (each came from a
live unpinned non root node and the freed values together with the surviving
values permute the original values, with the token count advancing by exactly
the freed amount), and survival of every node lying on a pinned path. -/
def evictInv (b : Bool) (s out : TreeNode × Int × Nat × List (Path × List Tok)) :
    Prop :=
  wfAt b out.1 = true ∧
  out.1.key = s.1.key ∧ out.1.value = s.1.value ∧ out.1.lock_ref = s.1.lock_ref ∧
  (s.2.1 = evictSumN s.1 → out.2.1 = evictSumN out.1) ∧
  (∃ extra, out.2.2.2 = s.2.2.2 ++ extra ∧
    (∀ pv ∈ extra, pv.1 ≠ [] ∧
      ∃ n, resolve s.1 pv.1 = some n ∧ n.lock_ref = 0 ∧ n.value = pv.2) ∧
    List.Perm (treeVals s.1) ((extra.map Prod.snd).flatten ++ treeVals out.1) ∧
    (out.2.2.1 : Int) + (totalSize out.1 : Int) = (s.2.2.1 : Int) + totalSize s.1) ∧
  (∀ q r m, resolve s.1 (q ++ r) = some m → 0 < m.lock_ref →
    ∃ n n2, resolve s.1 q = some n ∧ resolve out.1 q = some n2 ∧
      n2.key = n.key ∧ n2.value = n.value ∧ n2.lock_ref = n.lock_ref)

theorem evictInv_refl {b : Bool} {s : TreeNode × Int × Nat × List (Path × List Tok)}
    (hwf : wfAt b s.1 = true) : evictInv b s s := by
  refine ⟨hwf, rfl, rfl, rfl, fun h => h, ⟨[], by simp, by simp, by simp, by simp⟩,
    ?_⟩
  intro q r m hm _
  rw [resolve_append] at hm
  cases hq : resolve s.1 q with
  | none => rw [hq] at hm; simp at hm
  | some n => exact ⟨n, n, rfl, rfl, rfl, rfl, rfl⟩

end RadixCacheModel

namespace RadixCacheModel

theorem evictInv_delete {b : Bool} {t : TreeNode} {p : Path} {x : TreeNode}
    {ev : Int} {ne : Nat} {freed : List (Path × List Tok)}
    {out : TreeNode × Int × Nat × List (Path × List Tok)}
    (hwf : wfAt b t = true) (hres : resolve t p = some x) (hxc : x.children = [])
    (hxl : x.lock_ref = 0) (hp : p ≠ [])
    (hinv : evictInv b ((deleteLeaf t p).1, ev + (deleteLeaf t p).2,
        ne + x.value.length, freed ++ [(p, x.value)]) out) :
    evictInv b (t, ev, ne, freed) out := by
  obtain ⟨hdwf, hdkey, hdval, hdlock, hdtime, hddelta, hdsum, hdtot, hdcount,
    pre, post, hdpre, hdpost⟩ := deleteLeaf_spec p t b x hwf hres hxc hp
  unfold evictInv at hinv ⊢
  dsimp only at hinv ⊢
  obtain ⟨hiwf, hikey, hival, hilock, hicnt, ⟨extra, hifr, hiprop, hiperm, hine⟩,
    hipin⟩ := hinv
  refine ⟨hiwf, hikey.trans hdkey, hival.trans hdval, hilock.trans hdlock, ?_,
    ⟨(p, x.value) :: extra, ?_, ?_, ?_, ?_⟩, ?_⟩
  · intro hev
    apply hicnt
    rw [hdsum hxl, hddelta]
    rw [hev]
  · rw [hifr]
    simp
  · intro pv hpv
    rcases List.mem_cons.mp hpv with h1 | h2
    · subst h1
      exact ⟨hp, x, hres, hxl, rfl⟩
    · obtain ⟨hne1, n', hres', hlock', hval'⟩ := hiprop pv h2
      obtain ⟨n, hresn, hk, hv, hl, htm, _⟩ :=
        deleteLeaf_backMap p t b x hwf hres hp pv.1 n' hres'
      exact ⟨hne1, n, hresn, by rw [← hl]; exact hlock', by rw [← hv]; exact hval'⟩
  · have h1 : List.Perm (treeVals t) (x.value ++ treeVals (deleteLeaf t p).1) := by
      rw [hdpre, hdpost]
      have h2 := (@List.perm_append_comm _ pre x.value).append_right post
      simpa [List.append_assoc] using h2
    refine h1.trans ?_
    simp only [List.map_cons, List.flatten_cons, List.append_assoc]
    exact hiperm.append_left x.value
  · rw [hine]
    omega
  · intro q r m hm hml
    have hqr_ne : q ++ r ≠ p := by
      intro habs
      rw [habs, hres] at hm
      injection hm with hm
      rw [hm] at hxl
      omega
    have hq_ne : q ≠ p := by
      intro habs
      subst habs
      rw [resolve_append, hres] at hm
      simp only [Option.some_bind, Option.bind_some] at hm
      cases r with
      | nil =>
        rw [resolve_nil] at hm
        injection hm with hm
        rw [hm] at hxl
        omega
      | cons a as => rw [resolve_childless_cons hxc] at hm; exact (Option.noConfusion hm)
    have hqsome : ∃ n, resolve t q = some n := by
      rw [resolve_append] at hm
      cases hq : resolve t q with
      | none => rw [hq] at hm; simp at hm
      | some n => exact ⟨n, rfl⟩
    obtain ⟨n, hqn⟩ := hqsome
    obtain ⟨m2, hm2res, hm2k, hm2v, hm2l, hm2t, _⟩ :=
      deleteLeaf_forward p t b x hwf hres hxc hp (q ++ r) m hm hqr_ne
    obtain ⟨n1, hn1res, hn1k, hn1v, hn1l, hn1t, _⟩ :=
      deleteLeaf_forward p t b x hwf hres hxc hp q n hqn hq_ne
    have hm2lock : 0 < m2.lock_ref := by rw [hm2l]; exact hml
    obtain ⟨n1b, n2, hn1b, hn2, hk2, hv2, hl2⟩ := hipin q r m2 hm2res hm2lock
    have heqn : n1b = n1 := by
      rw [hn1res] at hn1b
      injection hn1b with h
      exact h.symm
    subst heqn
    exact ⟨n, n2, hqn, hn2, by rw [hk2, hn1k], by rw [hv2, hn1v], by rw [hl2, hn1l]⟩

end RadixCacheModel

namespace RadixCacheModel

theorem resolve_wfN : ∀ (q : Path) (t : TreeNode) (b : Bool) (n : TreeNode),
    wfAt b t = true → resolve t q = some n → q ≠ [] → wfN n = true := by
  intro q
  induction q with
  | nil =>
    intro t b n _ _ hq
    exact absurd rfl hq
  | cons tok rest ih =>
    intro t b n hwf hres _
    cases hl : lookupChild t.children tok with
    | none => rw [resolve_cons_none rest hl] at hres; exact (Option.noConfusion hres)
    | some c =>
      rw [resolve_cons_some rest hl] at hres
      have hwfc : wfN c = true := (wfL_lookup (wfAt_children hwf).2 hl).2
      cases rest with
      | nil =>
        rw [resolve_nil] at hres
        injection hres with hres
        rw [← hres]
        exact hwfc
      | cons a as =>
        exact ih c false n (by simp [wfAt, hwfc]) hres (by simp)

theorem resolve_delete_none {b : Bool} {t : TreeNode} {p : Path} {x : TreeNode}
    (hwf : wfAt b t = true) (hres : resolve t p = some x) (hp : p ≠ [])
    {q : Path} (hq : resolve t q = none) : resolve (deleteLeaf t p).1 q = none := by
  cases hq2 : resolve (deleteLeaf t p).1 q with
  | none => rfl
  | some m =>
    obtain ⟨n, hn, _⟩ := deleteLeaf_backMap p t b x hwf hres hp q m hq2
    rw [hq] at hn
    exact (Option.noConfusion hn)

theorem evictLoop_master : ∀ (fuel numTokens : Nat) (t : TreeNode) (ev : Int)
    (heap : List HeapElem) (ne : Nat) (freed : List (Path × List Tok)) (b : Bool),
    wfAt b t = true →
    (∀ e ∈ heap, resolve t e.2 = none ∨
      ∃ n, resolve t e.2 = some n ∧ n.children = []) →
    evictInv b (t, ev, ne, freed) (evictLoop numTokens fuel t ev heap ne freed) := by
  intro fuel
  induction fuel with
  | zero =>
    intro numTokens t ev heap ne freed b hwf _
    rw [evictLoop_zero]
    exact evictInv_refl hwf
  | succ fuel ih =>
    intro numTokens t ev heap ne freed b hwf hheap
    by_cases hcond : ne < numTokens ∧ heap ≠ []
    case neg =>
      rw [evictLoop_succ_stop fuel t ev freed hcond]
      exact evictInv_refl hwf
    case pos =>
      cases hpop : heappop nodeLt heap with
      | none =>
        rw [evictLoop_succ_popnone fuel t ev freed hcond hpop]
        exact evictInv_refl hwf
      | some pr =>
        obtain ⟨x, heap2⟩ := pr
        by_cases hx : x.2 = []
        · rw [evictLoop_succ_root fuel t ev freed hcond hpop hx]
          exact evictInv_refl hwf
        · cases hres : resolve t x.2 with
          | none =>
            rw [evictLoop_succ_dead fuel ev freed hcond hpop hx hres]
            exact ih numTokens t ev heap2 ne freed b hwf
              (fun e he => hheap e (heappop_mem_rest hpop he))
          | some n =>
            by_cases hlock : 0 < n.lock_ref
            · rw [evictLoop_succ_pinned fuel ev freed hcond hpop hx hres hlock]
              exact ih numTokens t ev heap2 ne freed b hwf
                (fun e he => hheap e (heappop_mem_rest hpop he))
            · have hnc : n.children = [] := by
                rcases hheap x (heappop_mem hpop) with h1 | ⟨n2, hn2, hn2c⟩
                · rw [h1] at hres; exact (Option.noConfusion hres)
                · rw [hres] at hn2
                  injection hn2 with hn2
                  rw [hn2]
                  exact hn2c
              have hnl : n.lock_ref = 0 := by
                have := (wfN_parts (resolve_wfN x.2 t b n hwf hres hx)).2.2.1
                omega
              rw [evictLoop_succ_del fuel ev freed hcond hpop hx hres hlock]
              have hdel := deleteLeaf_spec x.2 t b n hwf hres hnc hx
              have hhok : ∀ (heap3 : List HeapElem),
                  (∀ e ∈ heap3, e ∈ heap2) →
                  ∀ e ∈ heap3, resolve (deleteLeaf t x.2).1 e.2 = none ∨
                    ∃ m, resolve (deleteLeaf t x.2).1 e.2 = some m ∧ m.children = [] := by
                intro heap3 hsub e he
                rcases hheap e (heappop_mem_rest hpop (hsub e he)) with h1 |
                  ⟨n1, hn1, hn1c⟩
                · exact Or.inl (resolve_delete_none hwf hres hx h1)
                · by_cases hexq : e.2 = x.2
                  · rw [hexq]
                    exact Or.inl (deleteLeaf_gone x.2 t b n hwf hres hx)
                  · obtain ⟨m, hm, _, _, _, _, hmc⟩ :=
                      deleteLeaf_forward x.2 t b n hwf hres hnc hx e.2 n1 hn1 hexq
                    exact Or.inr ⟨m, hm, hmc hn1c⟩
              cases hpar : resolve (deleteLeaf t x.2).1 x.2.dropLast with
              | none =>
                simp only [hpar]
                exact evictInv_delete hwf hres hnc hnl hx
                  (ih numTokens (deleteLeaf t x.2).1 (ev + (deleteLeaf t x.2).2)
                    heap2 (ne + n.value.length) (freed ++ [(x.2, n.value)]) b
                    hdel.1 (hhok heap2 (fun e he => he)))
              | some par =>
                simp only [hpar]
                by_cases hpe : par.children.isEmpty
                · rw [if_pos hpe]
                  refine evictInv_delete hwf hres hnc hnl hx
                    (ih numTokens (deleteLeaf t x.2).1 (ev + (deleteLeaf t x.2).2)
                      _ (ne + n.value.length) (freed ++ [(x.2, n.value)]) b
                      hdel.1 ?_)
                  intro e he
                  rcases heappush_mem he with h1 | h2
                  · refine Or.inr ⟨par, ?_, ?_⟩
                    · rw [h1]
                      exact hpar
                    · exact List.isEmpty_iff.mp hpe
                  · exact hhok heap2 (fun e2 he2 => he2) e h2
                · rw [if_neg hpe]
                  exact evictInv_delete hwf hres hnc hnl hx
                    (ih numTokens (deleteLeaf t x.2).1 (ev + (deleteLeaf t x.2).2)
                      heap2 (ne + n.value.length) (freed ++ [(x.2, n.value)]) b
                      hdel.1 (hhok heap2 (fun e he => he)))

end RadixCacheModel

namespace RadixCacheModel

theorem evictLoop_drain : ∀ (fuel numTokens : Nat) (t : TreeNode) (ev : Int)
    (heap : List HeapElem) (ne : Nat) (freed : List (Path × List Tok)) (b : Bool),
    wfAt b t = true →
    (∀ e ∈ heap, resolve t e.2 = none ∨
      ∃ n, resolve t e.2 = some n ∧ n.children = []) →
    (∀ q n, q ≠ [] → resolve t q = some n → n.lock_ref = 0) →
    (∀ q n, resolve t q = some n → n.children = [] → ∃ e ∈ heap, e.2 = q) →
    (∀ e ∈ heap, e.2 = [] → t.children = []) →
    heap.length + nodeCount t < fuel →
    ne + totalSize t ≤ numTokens →
    (evictLoop numTokens fuel t ev heap ne freed).1.children = [] := by
  intro fuel
  induction fuel with
  | zero =>
    intro numTokens t ev heap ne freed b _ _ _ _ _ hfuel _
    have := nodeCount_pos t
    omega
  | succ fuel ih =>
    intro numTokens t ev heap ne freed b hwf hheap hA hB hC hfuel hne
    by_cases hcond : ne < numTokens ∧ heap ≠ []
    case neg =>
      rw [evictLoop_succ_stop fuel t ev freed hcond]
      by_cases hlt : ne < numTokens
      · have hheapnil : heap = [] := by
          by_cases hh : heap = []
          · exact hh
          · exact absurd ⟨hlt, hh⟩ hcond
        by_cases hch : t.children = []
        · exact hch
        · obtain ⟨q, n, hq, hres, hnc⟩ := exists_leaf (nodeCount t) t le_rfl hch
          obtain ⟨e, he, _⟩ := hB q n hres hnc
          rw [hheapnil] at he
          simp at he
      · have h0 : totalSize t = 0 := by omega
        exact totalSize_zero_drained hwf h0
    case pos =>
      cases hpop : heappop nodeLt heap with
      | none =>
        exact absurd (heappop_eq_none hpop) hcond.2
      | some pr =>
        obtain ⟨x, heap2⟩ := pr
        by_cases hx : x.2 = []
        · rw [evictLoop_succ_root fuel t ev freed hcond hpop hx]
          exact hC x (heappop_mem hpop) hx
        · cases hres : resolve t x.2 with
          | none =>
            rw [evictLoop_succ_dead fuel ev freed hcond hpop hx hres]
            refine ih numTokens t ev heap2 ne freed b hwf
              (fun e he => hheap e (heappop_mem_rest hpop he)) hA ?_
              (fun e he => hC e (heappop_mem_rest hpop he)) ?_ hne
            · intro q n hq hnc
              obtain ⟨e, he, heq⟩ := hB q n hq hnc
              have hex : e ≠ x := by
                intro habs
                rw [habs] at heq
                rw [← heq] at hq
                rw [hres] at hq
                exact (Option.noConfusion hq)
              exact ⟨e, heappop_mem_of_ne hpop he hex, heq⟩
            · have := heappop_length hpop
              omega
          | some n =>
            by_cases hlock : 0 < n.lock_ref
            · have := hA x.2 n hx hres
              omega
            · have hnc : n.children = [] := by
                rcases hheap x (heappop_mem hpop) with h1 | ⟨n2, hn2, hn2c⟩
                · rw [h1] at hres; exact (Option.noConfusion hres)
                · rw [hres] at hn2
                  injection hn2 with hn2
                  rw [hn2]
                  exact hn2c
              rw [evictLoop_succ_del fuel ev freed hcond hpop hx hres hlock]
              obtain ⟨hdwf, hdkey, hdval, hdlock, hdtime, hddelta, hdsum, hdtot,
                hdcount, pre2, post2, hdpre, hdpost⟩ :=
                deleteLeaf_spec x.2 t b n hwf hres hnc hx
              have hA2 : ∀ q m, q ≠ [] → resolve (deleteLeaf t x.2).1 q = some m →
                  m.lock_ref = 0 := by
                intro q m hq hqm
                obtain ⟨n1, hn1, _, _, hl1, _, _⟩ :=
                  deleteLeaf_backMap x.2 t b n hwf hres hx q m hqm
                rw [hl1]
                exact hA q n1 hq hn1
              have hchild : ∀ q m, resolve (deleteLeaf t x.2).1 q = some m →
                  m.children = [] → q ≠ x.2.dropLast →
                  ∃ e ∈ heap2, e.2 = q := by
                intro q m hqm hmc hqd
                obtain ⟨n1, hn1, _, _, _, _, hcimp⟩ :=
                  deleteLeaf_backMap x.2 t b n hwf hres hx q m hqm
                rcases hcimp hmc with hn1c | habs
                · obtain ⟨e, he, heq⟩ := hB q n1 hn1 hn1c
                  have hqx : q ≠ x.2 := by
                    intro habs2
                    rw [habs2] at hqm
                    rw [deleteLeaf_gone x.2 t b n hwf hres hx] at hqm
                    exact (Option.noConfusion hqm)
                  have hex : e ≠ x := by
                    intro habs2
                    rw [habs2] at heq
                    exact hqx heq.symm
                  exact ⟨e, heappop_mem_of_ne hpop he hex, heq⟩
                · exact absurd habs hqd
              have hCheap2 : ∀ e ∈ heap2, e.2 = [] →
                  (deleteLeaf t x.2).1.children = [] := by
                intro e he hnil
                have hroot : t.children = [] := hC e (heappop_mem_rest hpop he) hnil
                cases hx2 : x.2 with
                | nil => exact absurd hx2 hx
                | cons a as =>
                  rw [hx2] at hres
                  rw [resolve_cons, hroot] at hres
                  simp [lookupChild] at hres
              cases hpar : resolve (deleteLeaf t x.2).1 x.2.dropLast with
              | none =>
                simp only [hpar]
                refine ih numTokens (deleteLeaf t x.2).1 (ev + (deleteLeaf t x.2).2)
                  heap2 (ne + n.value.length) (freed ++ [(x.2, n.value)]) b hdwf
                  ?_ hA2 ?_ hCheap2 ?_ ?_
                · intro e he
                  rcases hheap e (heappop_mem_rest hpop he) with h1 | ⟨n1, hn1, hn1c⟩
                  · exact Or.inl (resolve_delete_none hwf hres hx h1)
                  · by_cases hexq : e.2 = x.2
                    · rw [hexq]
                      exact Or.inl (deleteLeaf_gone x.2 t b n hwf hres hx)
                    · obtain ⟨m, hm, _, _, _, _, hmc⟩ :=
                        deleteLeaf_forward x.2 t b n hwf hres hnc hx e.2 n1 hn1 hexq
                      exact Or.inr ⟨m, hm, hmc hn1c⟩
                · intro q m hqm hmc
                  by_cases hqd : q = x.2.dropLast
                  · rw [hqd] at hqm
                    rw [hpar] at hqm
                    exact (Option.noConfusion hqm)
                  · exact hchild q m hqm hmc hqd
                · have := heappop_length hpop
                  omega
                · have h1 : (totalSize (deleteLeaf t x.2).1 : Int)
                      = (totalSize t : Int) - n.value.length := hdtot
                  omega
              | some par =>
                simp only [hpar]
                by_cases hpe : par.children.isEmpty
                · rw [if_pos hpe]
                  refine ih numTokens (deleteLeaf t x.2).1 (ev + (deleteLeaf t x.2).2)
                    _ (ne + n.value.length) (freed ++ [(x.2, n.value)]) b hdwf
                    ?_ hA2 ?_ ?_ ?_ ?_
                  · intro e he
                    rcases heappush_mem he with h1 | h2
                    · refine Or.inr ⟨par, ?_, List.isEmpty_iff.mp hpe⟩
                      rw [h1]
                      exact hpar
                    · rcases hheap e (heappop_mem_rest hpop h2) with h1 | ⟨n1, hn1, hn1c⟩
                      · exact Or.inl (resolve_delete_none hwf hres hx h1)
                      · by_cases hexq : e.2 = x.2
                        · rw [hexq]
                          exact Or.inl (deleteLeaf_gone x.2 t b n hwf hres hx)
                        · obtain ⟨m, hm, _, _, _, _, hmc⟩ :=
                            deleteLeaf_forward x.2 t b n hwf hres hnc hx e.2 n1 hn1 hexq
                          exact Or.inr ⟨m, hm, hmc hn1c⟩
                  · intro q m hqm hmc
                    by_cases hqd : q = x.2.dropLast
                    · refine ⟨(par.last_access_time, x.2.dropLast), ?_, hqd.symm⟩
                      exact (heappush_perm nodeLt heap2 _).mem_iff.mpr
                        (List.mem_cons_self _ _)
                    · obtain ⟨e, he, heq⟩ := hchild q m hqm hmc hqd
                      exact ⟨e, (heappush_perm nodeLt heap2 _).mem_iff.mpr
                        (List.mem_cons_of_mem _ he), heq⟩
                  · intro e he hnil
                    rcases heappush_mem he with h1 | h2
                    · rw [h1] at hnil
                      simp only at hnil
                      rw [hnil] at hpar
                      rw [resolve_nil] at hpar
                      injection hpar with hpar
                      rw [hpar]
                      exact List.isEmpty_iff.mp hpe
                    · exact hCheap2 e h2 hnil
                  · have h1 := heappop_length hpop
                    have h2 := heappush_length nodeLt heap2
                      (par.last_access_time, x.2.dropLast)
                    omega
                  · have h1 : (totalSize (deleteLeaf t x.2).1 : Int)
                        = (totalSize t : Int) - n.value.length := hdtot
                    omega
                · rw [if_neg hpe]
                  refine ih numTokens (deleteLeaf t x.2).1 (ev + (deleteLeaf t x.2).2)
                    heap2 (ne + n.value.length) (freed ++ [(x.2, n.value)]) b hdwf
                    ?_ hA2 ?_ hCheap2 ?_ ?_
                  · intro e he
                    rcases hheap e (heappop_mem_rest hpop he) with h1 | ⟨n1, hn1, hn1c⟩
                    · exact Or.inl (resolve_delete_none hwf hres hx h1)
                    · by_cases hexq : e.2 = x.2
                      · rw [hexq]
                        exact Or.inl (deleteLeaf_gone x.2 t b n hwf hres hx)
                      · obtain ⟨m, hm, _, _, _, _, hmc⟩ :=
                          deleteLeaf_forward x.2 t b n hwf hres hnc hx e.2 n1 hn1 hexq
                        exact Or.inr ⟨m, hm, hmc hn1c⟩
                  · intro q m hqm hmc
                    by_cases hqd : q = x.2.dropLast
                    · have hparm : par = m := by
                        rw [hqd] at hqm
                        rw [hpar] at hqm
                        injection hqm
                      rw [hparm] at hpe
                      rw [hmc] at hpe
                      simp at hpe
                    · exact hchild q m hqm hmc hqd
                  · have := heappop_length hpop
                    omega
                  · have h1 : (totalSize (deleteLeaf t x.2).1 : Int)
                        = (totalSize t : Int) - n.value.length := hdtot
                    omega

end RadixCacheModel

namespace RadixCacheModel

theorem evict1Loop_zero (numTokens : Nat) (w : Option (List Path)) (t : TreeNode)
    (ev : Int) (heap : List HeapElem) (ne : Nat) (freed : List (Path × List Tok)) :
    evict1Loop numTokens w 0 t ev heap ne freed = .ok (t, ev, ne, freed) := rfl

theorem evict1Loop_succ_stop {numTokens ne : Nat} {heap : List HeapElem}
    (w : Option (List Path)) (fuel : Nat) (t : TreeNode) (ev : Int)
    (freed : List (Path × List Tok)) (h : ¬(ne < numTokens ∧ heap ≠ [])) :
    evict1Loop numTokens w (fuel + 1) t ev heap ne freed = .ok (t, ev, ne, freed) := by
  rw [evict1Loop, if_neg h]

theorem evict1Loop_succ_popnone {numTokens ne : Nat} {heap : List HeapElem}
    (w : Option (List Path)) (fuel : Nat) (t : TreeNode) (ev : Int)
    (freed : List (Path × List Tok)) (hcond : ne < numTokens ∧ heap ≠ [])
    (hpop : heappop nodeLt heap = none) :
    evict1Loop numTokens w (fuel + 1) t ev heap ne freed = .ok (t, ev, ne, freed) := by
  rw [evict1Loop, if_pos hcond]
  simp only [hpop]

theorem evict1Loop_succ_root {numTokens ne : Nat} {heap heap2 : List HeapElem}
    {x : HeapElem} (w : Option (List Path)) (fuel : Nat) (t : TreeNode) (ev : Int)
    (freed : List (Path × List Tok)) (hcond : ne < numTokens ∧ heap ≠ [])
    (hpop : heappop nodeLt heap = some (x, heap2)) (hx : x.2 = []) :
    evict1Loop numTokens w (fuel + 1) t ev heap ne freed = .ok (t, ev, ne, freed) := by
  rw [evict1Loop, if_pos hcond]
  simp only [hpop, hx, if_pos]

theorem evict1Loop_succ_dead {numTokens ne : Nat} {heap heap2 : List HeapElem}
    {x : HeapElem} {t : TreeNode} (w : Option (List Path)) (fuel : Nat) (ev : Int)
    (freed : List (Path × List Tok)) (hcond : ne < numTokens ∧ heap ≠ [])
    (hpop : heappop nodeLt heap = some (x, heap2)) (hx : ¬x.2 = [])
    (hres : resolve t x.2 = none) :
    evict1Loop numTokens w (fuel + 1) t ev heap ne freed
      = evict1Loop numTokens w fuel t ev heap2 ne freed := by
  rw [evict1Loop, if_pos hcond]
  simp only [hpop, if_neg hx, hres]

theorem evict1Loop_succ_pinned {numTokens ne : Nat} {heap heap2 : List HeapElem}
    {x : HeapElem} {t n : TreeNode} (w : Option (List Path)) (fuel : Nat) (ev : Int)
    (freed : List (Path × List Tok)) (hcond : ne < numTokens ∧ heap ≠ [])
    (hpop : heappop nodeLt heap = some (x, heap2)) (hx : ¬x.2 = [])
    (hres : resolve t x.2 = some n) (hlock : 0 < n.lock_ref) :
    evict1Loop numTokens w (fuel + 1) t ev heap ne freed
      = evict1Loop numTokens w fuel t ev heap2 ne freed := by
  rw [evict1Loop, if_pos hcond]
  simp only [hpop, if_neg hx, hres, if_pos hlock]

theorem evict1Loop_succ_typeerror {numTokens ne : Nat} {heap heap2 : List HeapElem}
    {x : HeapElem} {t n : TreeNode} (fuel : Nat) (ev : Int)
    (freed : List (Path × List Tok)) (hcond : ne < numTokens ∧ heap ≠ [])
    (hpop : heappop nodeLt heap = some (x, heap2)) (hx : ¬x.2 = [])
    (hres : resolve t x.2 = some n) (hlock : ¬0 < n.lock_ref) :
    evict1Loop numTokens none (fuel + 1) t ev heap ne freed
      = .error "TypeError: argument of type NoneType is not iterable" := by
  rw [evict1Loop, if_pos hcond]
  simp only [hpop, if_neg hx, hres, if_neg hlock]

theorem evict1Loop_succ_reserved {numTokens ne : Nat} {heap heap2 : List HeapElem}
    {x : HeapElem} {t n : TreeNode} {ws : List Path} (fuel : Nat) (ev : Int)
    (freed : List (Path × List Tok)) (hcond : ne < numTokens ∧ heap ≠ [])
    (hpop : heappop nodeLt heap = some (x, heap2)) (hx : ¬x.2 = [])
    (hres : resolve t x.2 = some n) (hlock : ¬0 < n.lock_ref) (hws : x.2 ∈ ws) :
    evict1Loop numTokens (some ws) (fuel + 1) t ev heap ne freed
      = evict1Loop numTokens (some ws) fuel t ev heap2 ne freed := by
  rw [evict1Loop, if_pos hcond]
  simp only [hpop, if_neg hx, hres, if_neg hlock, if_pos hws]

theorem evict1Loop_succ_del {numTokens ne : Nat} {heap heap2 : List HeapElem}
    {x : HeapElem} {t n : TreeNode} {ws : List Path} (fuel : Nat) (ev : Int)
    (freed : List (Path × List Tok)) (hcond : ne < numTokens ∧ heap ≠ [])
    (hpop : heappop nodeLt heap = some (x, heap2)) (hx : ¬x.2 = [])
    (hres : resolve t x.2 = some n) (hlock : ¬0 < n.lock_ref) (hws : x.2 ∉ ws) :
    evict1Loop numTokens (some ws) (fuel + 1) t ev heap ne freed
      = evict1Loop numTokens (some ws) fuel (deleteLeaf t x.2).1
          (ev + (deleteLeaf t x.2).2)
          (match resolve (deleteLeaf t x.2).1 x.2.dropLast with
            | some par =>
              if par.children.isEmpty then
                heappush nodeLt heap2 (par.last_access_time, x.2.dropLast)
              else heap2
            | none => heap2)
          (ne + n.value.length) (freed ++ [(x.2, n.value)]) := by
  rw [evict1Loop, if_pos hcond]
  simp only [hpop, if_neg hx, hres, if_neg hlock, if_neg hws]

end RadixCacheModel

namespace RadixCacheModel

theorem evict1Loop_master : ∀ (fuel numTokens : Nat) (w : Option (List Path))
    (t : TreeNode) (ev : Int) (heap : List HeapElem) (ne : Nat)
    (freed : List (Path × List Tok)) (b : Bool),
    wfAt b t = true →
    (∀ e ∈ heap, resolve t e.2 = none ∨
      ∃ n, resolve t e.2 = some n ∧ n.children = []) →
    ∀ res, evict1Loop numTokens w fuel t ev heap ne freed = .ok res →
    evictInv b (t, ev, ne, freed) res := by
  intro fuel
  induction fuel with
  | zero =>
    intro numTokens w t ev heap ne freed b hwf _ res hok
    rw [evict1Loop_zero] at hok
    injection hok with hok
    rw [← hok]
    exact evictInv_refl hwf
  | succ fuel ih =>
    intro numTokens w t ev heap ne freed b hwf hheap res hok
    by_cases hcond : ne < numTokens ∧ heap ≠ []
    case neg =>
      rw [evict1Loop_succ_stop w fuel t ev freed hcond] at hok
      injection hok with hok
      rw [← hok]
      exact evictInv_refl hwf
    case pos =>
      cases hpop : heappop nodeLt heap with
      | none =>
        rw [evict1Loop_succ_popnone w fuel t ev freed hcond hpop] at hok
        injection hok with hok
        rw [← hok]
        exact evictInv_refl hwf
      | some pr =>
        obtain ⟨x, heap2⟩ := pr
        by_cases hx : x.2 = []
        · rw [evict1Loop_succ_root w fuel t ev freed hcond hpop hx] at hok
          injection hok with hok
          rw [← hok]
          exact evictInv_refl hwf
        · cases hres : resolve t x.2 with
          | none =>
            rw [evict1Loop_succ_dead w fuel ev freed hcond hpop hx hres] at hok
            exact ih numTokens w t ev heap2 ne freed b hwf
              (fun e he => hheap e (heappop_mem_rest hpop he)) res hok
          | some n =>
            by_cases hlock : 0 < n.lock_ref
            · rw [evict1Loop_succ_pinned w fuel ev freed hcond hpop hx hres hlock] at hok
              exact ih numTokens w t ev heap2 ne freed b hwf
                (fun e he => hheap e (heappop_mem_rest hpop he)) res hok
            · cases w with
              | none =>
                rw [evict1Loop_succ_typeerror fuel ev freed hcond hpop hx hres hlock]
                  at hok
                exact (Except.noConfusion hok)
              | some ws =>
                by_cases hws : x.2 ∈ ws
                · rw [evict1Loop_succ_reserved fuel ev freed hcond hpop hx hres hlock
                    hws] at hok
                  exact ih numTokens (some ws) t ev heap2 ne freed b hwf
                    (fun e he => hheap e (heappop_mem_rest hpop he)) res hok
                · have hnc : n.children = [] := by
                    rcases hheap x (heappop_mem hpop) with h1 | ⟨n2, hn2, hn2c⟩
                    · rw [h1] at hres; exact (Option.noConfusion hres)
                    · rw [hres] at hn2
                      injection hn2 with hn2
                      rw [hn2]
                      exact hn2c
                  have hnl : n.lock_ref = 0 := by
                    have := (wfN_parts (resolve_wfN x.2 t b n hwf hres hx)).2.2.1
                    omega
                  rw [evict1Loop_succ_del fuel ev freed hcond hpop hx hres hlock hws]
                    at hok
                  have hdel := deleteLeaf_spec x.2 t b n hwf hres hnc hx
                  have hhok : ∀ e ∈ heap2, resolve (deleteLeaf t x.2).1 e.2 = none ∨
                      ∃ m, resolve (deleteLeaf t x.2).1 e.2 = some m ∧
                        m.children = [] := by
                    intro e he
                    rcases hheap e (heappop_mem_rest hpop he) with h1 | ⟨n1, hn1, hn1c⟩
                    · exact Or.inl (resolve_delete_none hwf hres hx h1)
                    · by_cases hexq : e.2 = x.2
                      · rw [hexq]
                        exact Or.inl (deleteLeaf_gone x.2 t b n hwf hres hx)
                      · obtain ⟨m, hm, _, _, _, _, hmc⟩ :=
                          deleteLeaf_forward x.2 t b n hwf hres hnc hx e.2 n1 hn1 hexq
                        exact Or.inr ⟨m, hm, hmc hn1c⟩
                  cases hpar : resolve (deleteLeaf t x.2).1 x.2.dropLast with
                  | none =>
                    simp only [hpar] at hok
                    exact evictInv_delete hwf hres hnc hnl hx
                      (ih numTokens (some ws) (deleteLeaf t x.2).1
                        (ev + (deleteLeaf t x.2).2) heap2 (ne + n.value.length)
                        (freed ++ [(x.2, n.value)]) b hdel.1 hhok res hok)
                  | some par =>
                    simp only [hpar] at hok
                    by_cases hpe : par.children.isEmpty
                    · rw [if_pos hpe] at hok
                      refine evictInv_delete hwf hres hnc hnl hx
                        (ih numTokens (some ws) (deleteLeaf t x.2).1
                          (ev + (deleteLeaf t x.2).2) _ (ne + n.value.length)
                          (freed ++ [(x.2, n.value)]) b hdel.1 ?_ res hok)
                      intro e he
                      rcases heappush_mem he with h1 | h2
                      · refine Or.inr ⟨par, ?_, List.isEmpty_iff.mp hpe⟩
                        rw [h1]
                        exact hpar
                      · exact hhok e h2
                    · rw [if_neg hpe] at hok
                      exact evictInv_delete hwf hres hnc hnl hx
                        (ih numTokens (some ws) (deleteLeaf t x.2).1
                          (ev + (deleteLeaf t x.2).2) heap2 (ne + n.value.length)
                          (freed ++ [(x.2, n.value)]) b hdel.1 hhok res hok)

theorem evict1Loop_error : ∀ (fuel numTokens : Nat) (t : TreeNode) (ev : Int)
    (heap : List HeapElem) (ne : Nat) (freed : List (Path × List Tok)),
    ne < numTokens →
    (∀ e ∈ heap, e.2 ≠ []) →
    (∃ e ∈ heap, ∃ n, resolve t e.2 = some n ∧ n.lock_ref = 0) →
    heap.length < fuel →
    evict1Loop numTokens none fuel t ev heap ne freed
      = .error "TypeError: argument of type NoneType is not iterable" := by
  intro fuel
  induction fuel with
  | zero =>
    intro numTokens t ev heap ne freed _ _ _ hfuel
    omega
  | succ fuel ih =>
    intro numTokens t ev heap ne freed hlt hnil hvict hfuel
    obtain ⟨e0, he0, n0, hn0, hn0l⟩ := hvict
    have hne : heap ≠ [] := by
      intro habs
      rw [habs] at he0
      simp at he0
    cases hpop : heappop nodeLt heap with
    | none => exact absurd (heappop_eq_none hpop) hne
    | some pr =>
      obtain ⟨x, heap2⟩ := pr
      have hx : ¬x.2 = [] := hnil x (heappop_mem hpop)
      have hlen : heap.length = heap2.length + 1 := heappop_length hpop
      cases hres : resolve t x.2 with
      | none =>
        rw [evict1Loop_succ_dead none fuel ev freed ⟨hlt, hne⟩ hpop hx hres]
        refine ih numTokens t ev heap2 ne freed hlt
          (fun e he => hnil e (heappop_mem_rest hpop he)) ?_ (by omega)
        have hex : e0 ≠ x := by
          intro habs
          rw [habs] at hn0
          rw [hres] at hn0
          exact (Option.noConfusion hn0)
        exact ⟨e0, heappop_mem_of_ne hpop he0 hex, n0, hn0, hn0l⟩
      | some n =>
        by_cases hlock : 0 < n.lock_ref
        · rw [evict1Loop_succ_pinned none fuel ev freed ⟨hlt, hne⟩ hpop hx hres hlock]
          refine ih numTokens t ev heap2 ne freed hlt
            (fun e he => hnil e (heappop_mem_rest hpop he)) ?_ (by omega)
          have hex : e0 ≠ x := by
            intro habs
            rw [habs] at hn0
            rw [hres] at hn0
            injection hn0 with hn0
            rw [← hn0] at hn0l
            omega
          exact ⟨e0, heappop_mem_of_ne hpop he0 hex, n0, hn0, hn0l⟩
        · exact evict1Loop_succ_typeerror fuel ev freed ⟨hlt, hne⟩ hpop hx hres hlock

end RadixCacheModel

namespace RadixCacheModel

theorem evictSum_eq (t : TreeNode) :
    evictSum t = evictSumN t - (if t.lock_ref = 0 then (t.value.length : Int) else 0) := by
  rw [evictSum, evictSumN_eq]
  ring

theorem wfAt_true_value_nil {t : TreeNode} (h : wfAt true t = true) : t.value = [] := by
  simp [wfAt, wfRoot_eq] at h
  simpa using h.1.1.1.2

theorem entries_ok {b : Bool} {t : TreeNode} (hwf : wfAt b t = true) :
    ∀ e ∈ (collectLeaves t).map (fun p => (timeOf t p, p)),
      ∃ n, resolve t e.2 = some n ∧ n.children = [] := by
  intro e he
  obtain ⟨p, hp, hpe⟩ := List.mem_map.mp he
  rw [collectLeaves_eq] at hp
  obtain ⟨q, n, hzq, hres, hnc⟩ :=
    resolve_of_mem_leafPathsN (nodeCount t) t b [] p le_rfl hwf hp
  simp at hzq
  rw [← hpe]
  dsimp only
  rw [hzq]
  exact ⟨n, hres, hnc⟩

/-- The eviction invariant holds between a cache and the result of the
public method evict. -/
theorem evict_master (c : Cache) (numTokens : Nat)
    (hwf : wfAt true c.root_node = true) (hdis : c.disable = false) :
    evictInv true (c.root_node, c.evictable_size_, 0, [])
      ((evict c numTokens).1.root_node,
        (evict c numTokens).1.evictable_size_,
        (evictLoop numTokens
          (((collectLeaves c.root_node).map (fun p => (timeOf c.root_node p, p))).length
            + nodeCount c.root_node + 1)
          c.root_node c.evictable_size_
          (heapify nodeLt
            ((collectLeaves c.root_node).map (fun p => (timeOf c.root_node p, p))))
          0 []).2.2.1,
        (evict c numTokens).2) := by
  rw [evict, if_neg (by rw [hdis]; exact Bool.false_ne_true)]
  dsimp only
  have hmem : ∀ e ∈ heapify nodeLt
      ((collectLeaves c.root_node).map (fun p => (timeOf c.root_node p, p))),
      resolve c.root_node e.2 = none ∨
        ∃ n, resolve c.root_node e.2 = some n ∧ n.children = [] := by
    intro e he
    have he2 := (heapify_perm nodeLt _).mem_iff.mp he
    exact Or.inr (entries_ok hwf e he2)
  exact evictLoop_master _ numTokens c.root_node c.evictable_size_ _ 0 [] true
    hwf hmem

end RadixCacheModel

namespace RadixCacheModel

theorem evictSum_shift {t t' : TreeNode} (hv : t'.value = t.value)
    (hl : t'.lock_ref = t.lock_ref) {d : Int}
    (hsum : evictSumN t' = evictSumN t + d) : evictSum t' = evictSum t + d := by
  rw [evictSum_eq, evictSum_eq, hv, hl, hsum]
  ring

theorem evict1_master (c : Cache) (numTokens : Nat) (w : Option (List Path))
    (hwf : wfAt true c.root_node = true) (hdis : c.disable = false) :
    ∀ res, evict1 c numTokens w = .ok res →
    ∃ k, evictInv true (c.root_node, c.evictable_size_, 0, [])
      (res.1.root_node, res.1.evictable_size_, k, res.2) := by
  intro res hok
  rw [evict1, if_neg (by rw [hdis]; exact Bool.false_ne_true)] at hok
  dsimp only at hok
  cases hr : evict1Loop numTokens w
      (((collectLeaves c.root_node).map (fun p => (timeOf c.root_node p, p))).length
        + nodeCount c.root_node + 1)
      c.root_node c.evictable_size_
      ((collectLeaves c.root_node).map (fun p => (timeOf c.root_node p, p))) 0 [] with
  | error e =>
    rw [hr] at hok
    exact (Except.noConfusion hok)
  | ok r =>
    rw [hr] at hok
    injection hok with hok
    have hmem : ∀ e ∈ (collectLeaves c.root_node).map
        (fun p => (timeOf c.root_node p, p)),
        resolve c.root_node e.2 = none ∨
          ∃ n, resolve c.root_node e.2 = some n ∧ n.children = [] :=
      fun e he => Or.inr (entries_ok hwf e he)
    have hinv := evict1Loop_master _ numTokens w c.root_node c.evictable_size_
      _ 0 [] true hwf hmem r hr
    refine ⟨r.2.2.1, ?_⟩
    rw [← hok]
    exact hinv

/-- The C1 induction: every reachable cache state is well formed and its
evictable_size_ counter equals the evictable sum of its tree. -/
theorem reaches_inv : ∀ (c : Cache), Reaches c →
    wfAt true c.root_node = true ∧ c.evictable_size_ = evictSum c.root_node := by
  intro c h
  induction h with
  | init disable =>
    constructor
    · show wfAt true (TreeNode.mk [] [] 1 0 []) = true
      simp [wfAt, wfRoot_eq]
    · simp [freshCache, resetCache, evictSum]
  | step op hr hval ih =>
    rename_i c2
    obtain ⟨ihwf, ihev⟩ := ih
    have hroot : c2.root_node.value = [] := wfAt_true_value_nil ihwf
    have hbridge : evictSumN c2.root_node = evictSum c2.root_node := by
      rw [evictSum_eq, hroot]
      simp
    cases op with
    | opReset =>
      constructor
      · simp [applyOp, resetCache, wfAt, wfRoot_eq]
      · simp [applyOp, resetCache, evictSum]
    | opInsert k v =>
      by_cases hdis : c2.disable = true
      · have happ : applyOp c2 (.opInsert k v) = c2 := by
          simp [applyOp, insert, hdis]
        rw [happ]
        exact ⟨ihwf, ihev⟩
      · have hlen : k.length = (v.getD k).length := hval.symm
        obtain ⟨t2, r, d, ck, heq, hwf2, hk, hv2, hl, hsum, hpin, htot, hd, hfm, hst⟩ :=
          insertHelper_spec (k.length + 2) c2.root_node k (v.getD k) c2.clock true
            ihwf hlen le_rfl
        have happ : applyOp c2 (.opInsert k v)
            = { c2 with
                root_node := t2
                evictable_size_ := c2.evictable_size_ + d
                clock := ck } := by
          simp [applyOp, insert, hdis, heq]
        rw [happ]
        refine ⟨hwf2, ?_⟩
        dsimp only
        rw [ihev, evictSum_shift hv2 hl hsum]
    | opMatch k =>
      by_cases hdis : c2.disable = true
      · have happ : applyOp c2 (.opMatch k) = c2 := by
          simp [applyOp, matchPref, hdis]
        rw [happ]
        exact ⟨ihwf, ihev⟩
      · obtain ⟨hwf2, hk, hv2, hl, hsum, _⟩ :=
          prefixMatchHelper_frame c2.root_node k c2.clock true ihwf
        have happ : applyOp c2 (.opMatch k)
            = { c2 with
                root_node := (prefixMatchHelper c2.root_node k c2.clock).1
                clock := (prefixMatchHelper c2.root_node k c2.clock).2.2.2 } := by
          simp [applyOp, matchPref, hdis]
        rw [happ]
        refine ⟨hwf2, ?_⟩
        dsimp only
        have hsum0 : evictSumN (prefixMatchHelper c2.root_node k c2.clock).1
            = evictSumN c2.root_node + 0 := by rw [hsum, add_zero]
        rw [ihev, evictSum_shift hv2 hl hsum0, add_zero]
    | opInc p =>
      by_cases hdis : c2.disable = true
      · have happ : applyOp c2 (.opInc p) = c2 := by
          simp [applyOp, incLockRef, hdis]
        rw [happ]
        exact ⟨ihwf, ihev⟩
      · obtain ⟨hwf2, hk, hv2, hl, hsum⟩ := incLockWalk_spec p c2.root_node true ihwf
        have happ : applyOp c2 (.opInc p)
            = { c2 with
                root_node := (incLockWalk c2.root_node p).1
                evictable_size_ :=
                  c2.evictable_size_ + (incLockWalk c2.root_node p).2.1 } := by
          simp [applyOp, incLockRef, hdis]
        rw [happ]
        refine ⟨hwf2, ?_⟩
        dsimp only
        rw [ihev, evictSum_shift hv2 hl hsum]
    | opDec p =>
      by_cases hdis : c2.disable = true
      · have happ : applyOp c2 (.opDec p) = c2 := by
          simp [applyOp, decLockRef, hdis]
        rw [happ]
        exact ⟨ihwf, ihev⟩
      · obtain ⟨hwf2, hk, hv2, hl, hsum⟩ :=
          decLockWalk_spec p c2.root_node true ihwf hval
        have happ : applyOp c2 (.opDec p)
            = { c2 with
                root_node := (decLockWalk c2.root_node p).1
                evictable_size_ :=
                  c2.evictable_size_ + (decLockWalk c2.root_node p).2.1 } := by
          simp [applyOp, decLockRef, hdis]
        rw [happ]
        refine ⟨hwf2, ?_⟩
        dsimp only
        rw [ihev, evictSum_shift hv2 hl hsum]
    | opEvict n =>
      by_cases hdis : c2.disable = true
      · have happ : applyOp c2 (.opEvict n) = c2 := by
          simp [applyOp, evict, hdis]
        rw [happ]
        exact ⟨ihwf, ihev⟩
      · have hmaster := evict_master c2 n ihwf (by simpa using hdis)
        unfold evictInv at hmaster
        dsimp only at hmaster
        obtain ⟨hwf2, hk, hv2, hl, hcnt, _, _⟩ := hmaster
        have happ : applyOp c2 (.opEvict n) = (evict c2 n).1 := rfl
        rw [happ]
        refine ⟨hwf2, ?_⟩
        have hc2 := hcnt (by rw [ihev, hbridge])
        rw [hc2, evictSum_eq, hv2, hroot]
        simp
    | opEvict1 n w =>
      by_cases hdis : c2.disable = true
      · have happ : applyOp c2 (.opEvict1 n w) = c2 := by
          simp [applyOp, evict1, hdis, Except.toOption]
        rw [happ]
        exact ⟨ihwf, ihev⟩
      · cases hE : evict1 c2 n w with
        | error e =>
          have happ : applyOp c2 (.opEvict1 n w) = c2 := by
            simp [applyOp, hE, Except.toOption]
          rw [happ]
          exact ⟨ihwf, ihev⟩
        | ok res =>
          obtain ⟨k2, hinv⟩ := evict1_master c2 n w ihwf (by simpa using hdis) res hE
          unfold evictInv at hinv
          dsimp only at hinv
          obtain ⟨hwf2, hk, hv2, hl, hcnt, _, _⟩ := hinv
          have happ : applyOp c2 (.opEvict1 n w) = res.1 := by
            simp [applyOp, hE, Except.toOption]
          rw [happ]
          refine ⟨hwf2, ?_⟩
          have hc2 := hcnt (by rw [ihev, hbridge])
          rw [hc2, evictSum_eq, hv2, hroot]
          simp
end RadixCacheModel

namespace RadixCacheModel

theorem insertHelper_fullMatch : ∀ (fuel : Nat) (node : TreeNode) (key value : List Tok)
    (clock : Nat) (b : Bool), wfAt b node = true → fullMatch node key = true →
    key.length + 2 ≤ fuel →
    ∃ t2 ck, insertHelper fuel node key value clock = some (t2, key.length, 0, ck) := by
  intro fuel
  induction fuel with
  | zero =>
    intro node key value clock b _ _ hfuel
    omega
  | succ fuel ih =>
    intro node key value clock b hwf hfm hfuel
    cases key with
    | nil =>
      exact ⟨node.withTime clock, clock + 1, iH_nil fuel node value clock⟩
    | cons k0 krest =>
      cases hl : lookupChild node.children k0 with
      | none =>
        rw [fM_miss hl] at hfm
        exact (Bool.noConfusion hfm)
      | some child =>
        obtain ⟨hcoh, hwfc⟩ := wfL_lookup (wfAt_children hwf).2 hl
        by_cases hp : keyMatch child.key (k0 :: krest) = child.key.length
        · by_cases hk : keyMatch child.key (k0 :: krest) = (k0 :: krest).length
          · refine ⟨node.withTime clock, clock + 1, ?_⟩
            rw [iH_hit_exact fuel hl hp hk, hk]
          · rw [fM_hit hl hp, if_neg hk] at hfm
            have hpos : 0 < keyMatch child.key (k0 :: krest) :=
              keyMatch_head_pos hcoh (by simp)
            have hle : keyMatch child.key (k0 :: krest) ≤ (k0 :: krest).length :=
              keyMatch_le_right _ _
            have hdroplen : ((k0 :: krest).drop
                (keyMatch child.key (k0 :: krest))).length + 2 ≤ fuel := by
              rw [List.length_drop]
              simp at hfuel ⊢
              omega
            obtain ⟨c2, ck, hrec⟩ := ih child
              ((k0 :: krest).drop (keyMatch child.key (k0 :: krest)))
              (value.drop (keyMatch child.key (k0 :: krest))) (clock + 1) false
              (by simp [wfAt, hwfc]) hfm hdroplen
            refine ⟨(node.withTime clock).withChildren
              (setChild node.children k0 c2), ck, ?_⟩
            rw [iH_hit_descend fuel hl hp hk]
            simp only [hrec]
            have hlen2 : keyMatch child.key (k0 :: krest)
                + ((k0 :: krest).drop (keyMatch child.key (k0 :: krest))).length
                = (k0 :: krest).length := by
              rw [List.length_drop]
              omega
            rw [hlen2]
        · rw [fM_midedge hl hp] at hfm
          have hk : keyMatch child.key (k0 :: krest) = (k0 :: krest).length := by
            simpa using hfm
          have hdropnil : (k0 :: krest).drop (keyMatch child.key (k0 :: krest)) = [] := by
            rw [hk]
            simp
          cases fuel with
          | zero => simp at hfuel
          | succ fuel2 =>
            refine ⟨(node.withTime clock).withChildren
              (setChild node.children
                ((child.key.take (keyMatch child.key (k0 :: krest))).headD 0)
                ((splitNode child.key child (keyMatch child.key (k0 :: krest))
                  (clock + 1)).withTime (clock + 1 + 1))), clock + 1 + 1 + 1, ?_⟩
            rw [iH_split (fuel2 + 1) hl hp, hdropnil]
            simp only [iH_nil fuel2 _ (value.drop (keyMatch child.key (k0 :: krest)))
              (clock + 1 + 1)]
            rw [hk]
            simp

end RadixCacheModel

namespace RadixCacheModel

mutual

/-- Every node of the subtree, the subtree root included, has lock_ref 0.
Decidable restatement of the no-pins hypothesis of the drain property. -/
def allUnpinnedN : TreeNode → Bool
  | .mk _ _ l _ cs => (l = 0) && allUnpinnedL cs

def allUnpinnedL : List (Tok × TreeNode) → Bool
  | [] => true
  | (_, c) :: rest => allUnpinnedN c && allUnpinnedL rest

end

@[simp] theorem allUnpinnedN_mk (k v : List Tok) (l : Int) (tm : Nat)
    (cs : List (Tok × TreeNode)) :
    allUnpinnedN (TreeNode.mk k v l tm cs) = ((l = 0) && allUnpinnedL cs) := by
  rw [allUnpinnedN]

theorem allUnpinnedN_eq (t : TreeNode) :
    allUnpinnedN t = ((t.lock_ref = 0) && allUnpinnedL t.children) := by
  cases t
  simp

theorem allUnpinnedL_lookup : ∀ {cs : List (Tok × TreeNode)} {tok : Tok}
    {c : TreeNode}, allUnpinnedL cs = true → lookupChild cs tok = some c →
    allUnpinnedN c = true := by
  intro cs
  induction cs with
  | nil =>
    intro tok c _ hl
    simp [lookupChild] at hl
  | cons e rest ih =>
    obtain ⟨t0, x⟩ := e
    intro tok c hall hl
    rw [allUnpinnedL] at hall
    simp at hall
    rw [lookupChild] at hl
    by_cases ht : t0 = tok
    · rw [if_pos ht] at hl
      injection hl with hl
      rw [← hl]
      exact hall.1
    · rw [if_neg ht] at hl
      exact ih hall.2 hl

theorem allUnpinned_resolve : ∀ (q : Path) (t : TreeNode),
    allUnpinnedL t.children = true → ∀ n, q ≠ [] → resolve t q = some n →
    n.lock_ref = 0 := by
  intro q
  induction q with
  | nil =>
    intro t _ n hq
    exact absurd rfl hq
  | cons tok rest ih =>
    intro t hall n _ hres
    cases hl : lookupChild t.children tok with
    | none =>
      rw [resolve_cons_none rest hl] at hres
      exact (Option.noConfusion hres)
    | some c =>
      rw [resolve_cons_some rest hl] at hres
      have hc := allUnpinnedL_lookup hall hl
      rw [allUnpinnedN_eq] at hc
      simp at hc
      cases rest with
      | nil =>
        rw [resolve_nil] at hres
        injection hres with hres
        rw [← hres]
        exact hc.1
      | cons a as =>
        exact ih c hc.2 n (by simp) hres

end RadixCacheModel

namespace RadixCacheModel

theorem pinnedSum_eq (t : TreeNode) :
    pinnedSum t = pinnedSumN t - (if 0 < t.lock_ref then (t.value.length : Int) else 0) := by
  rw [pinnedSum, pinnedSumN_eq]
  ring

theorem evict_drain (c : Cache) (numTokens : Nat)
    (hwf : wfAt true c.root_node = true) (hdis : c.disable = false)
    (hnopin : ∀ q n, q ≠ [] → resolve c.root_node q = some n → n.lock_ref = 0)
    (hbig : totalSize c.root_node ≤ numTokens) :
    (evict c numTokens).1.root_node.children = [] := by
  rw [evict, if_neg (by rw [hdis]; exact Bool.false_ne_true)]
  dsimp only
  refine evictLoop_drain _ numTokens c.root_node c.evictable_size_ _ 0 [] true
    hwf ?_ hnopin ?_ ?_ ?_ (by simpa using hbig)
  · intro e he
    have he2 := (heapify_perm nodeLt _).mem_iff.mp he
    exact Or.inr (entries_ok hwf e he2)
  · intro q n hq hnc
    have hmem : q ∈ collectLeaves c.root_node := by
      rw [collectLeaves_eq]
      have := mem_leafPathsN_of_resolve q c.root_node [] n hq hnc
      simpa using this
    refine ⟨(timeOf c.root_node q, q), ?_, rfl⟩
    exact (heapify_perm nodeLt _).mem_iff.mpr
      (List.mem_map.mpr ⟨q, hmem, rfl⟩)
  · intro e he hnil
    have he2 := (heapify_perm nodeLt _).mem_iff.mp he
    obtain ⟨p, hp, hpe⟩ := List.mem_map.mp he2
    rw [collectLeaves_eq] at hp
    subst hpe
    have hnil2 : p = [] := hnil
    rw [hnil2] at hp
    obtain ⟨q, m, hzq, hres, hmc⟩ :=
      resolve_of_mem_leafPathsN (nodeCount c.root_node) c.root_node true [] []
        le_rfl hwf hp
    simp at hzq
    subst hzq
    rw [resolve_nil] at hres
    injection hres with hres
    rw [hres]
    exact hmc
  · have := (heapify_perm nodeLt
      ((collectLeaves c.root_node).map (fun p => (timeOf c.root_node p, p)))).length_eq
    omega

/-- A sample enabled cache, the state reached from a fresh cache by the call
insert([5]): one leaf with key [5], value [5], timestamp 2, no pin. -/
def sampleCache : Cache :=
  { root_node := TreeNode.mk [] [] 1 1 [(5, TreeNode.mk [5] [5] 0 2 [])]
    evictable_size_ := 1
    clock := 3
    disable := false }

end RadixCacheModel

namespace RadixCacheModel

/-- C1: for every sequence of the public operations insert, match_prefix,
inc_lock_ref, dec_lock_ref, evict, evict1 and reset starting from a fresh
tree (every cache reachable through Reaches), the counter evictable_size_
equals the sum of len(n.value) over every non root node n with
lock_ref == 0 (the definition evictSum, written from the spec sentence). -/
theorem radix_C1_counter_invariant (c : Cache) (h : Reaches c) :
    evictableSize c = evictSum c.root_node :=
  (reaches_inv c h).2

theorem radix_C1_witness :
    evictableSize (applyOp (freshCache false) (Op.opInsert [1, 2] (some [7, 8])))
      = evictSum (applyOp (freshCache false)
          (Op.opInsert [1, 2] (some [7, 8]))).root_node := by
  have hv : validArg (freshCache false) (Op.opInsert [1, 2] (some [7, 8])) := by
    show ((some [7, 8] : Option (List Tok)).getD [1, 2]).length
      = ([1, 2] : List Tok).length
    decide
  exact radix_C1_counter_invariant _ (Reaches.step _ (Reaches.init false) hv)

/-- C9: on an enabled cache, inc_lock_ref and dec_lock_ref each return
exactly the signed change they applied to evictable_size_; the returned
delta is non positive for inc_lock_ref and non negative for dec_lock_ref. -/
theorem radix_C9_lock_deltas (c : Cache) (p : Path) (hdis : c.disable = false) :
    ((incLockRef c p).1.evictable_size_
        = c.evictable_size_ + (incLockRef c p).2 ∧ (incLockRef c p).2 ≤ 0) ∧
    ((decLockRef c p).1.evictable_size_
        = c.evictable_size_ + (decLockRef c p).2 ∧ 0 ≤ (decLockRef c p).2) := by
  have hne : ¬c.disable = true := by rw [hdis]; exact Bool.false_ne_true
  obtain ⟨hi1, hi2⟩ := incLockWalk_deltas p c.root_node
  obtain ⟨hd1, hd2⟩ := decLockWalk_deltas p c.root_node
  constructor
  · rw [incLockRef, if_neg hne]
    dsimp only
    exact ⟨by rw [hi1], hi2⟩
  · rw [decLockRef, if_neg hne]
    dsimp only
    exact ⟨by rw [hd1], hd2⟩

theorem radix_C9_witness :
    ((incLockRef sampleCache [5]).1.evictable_size_
        = sampleCache.evictable_size_ + (incLockRef sampleCache [5]).2 ∧
      (incLockRef sampleCache [5]).2 ≤ 0) ∧
    ((decLockRef sampleCache [5]).1.evictable_size_
        = sampleCache.evictable_size_ + (decLockRef sampleCache [5]).2 ∧
      0 ≤ (decLockRef sampleCache [5]).2) :=
  radix_C9_lock_deltas sampleCache [5] rfl

/-- C7: match_prefix is pure up to timestamps on well formed trees: it
leaves the counter evictable_size_, the total size, the evictable sum, the
pinned sum and the stored values unchanged, also when it splits a node mid
edge (the split copies lock_ref to the new upper node and redistributes key
and value without altering any aggregate). -/
theorem radix_C7_match_pure (c : Cache) (key : List Tok)
    (hwf : wfAt true c.root_node = true) :
    (matchPref c key).2.2.evictable_size_ = c.evictable_size_ ∧
    cacheTotalSize (matchPref c key).2.2 = cacheTotalSize c ∧
    evictSum (matchPref c key).2.2.root_node = evictSum c.root_node ∧
    pinnedSum (matchPref c key).2.2.root_node = pinnedSum c.root_node ∧
    treeVals (matchPref c key).2.2.root_node = treeVals c.root_node := by
  by_cases hdis : c.disable = true
  · rw [matchPref, if_pos hdis]
    exact ⟨rfl, rfl, rfl, rfl, rfl⟩
  · rw [matchPref, if_neg hdis]
    dsimp only
    obtain ⟨hwf2, hk, hv2, hl, hsum, hpin, htot, hvals, _⟩ :=
      prefixMatchHelper_frame c.root_node key c.clock true hwf
    refine ⟨rfl, ?_, ?_, ?_, hvals⟩
    · rw [cacheTotalSize, cacheTotalSize]
      exact htot
    · rw [evictSum_eq, evictSum_eq, hv2, hl, hsum]
    · rw [pinnedSum_eq, pinnedSum_eq, hv2, hl, hpin]

theorem radix_C7_witness :
    wfAt true sampleCache.root_node = true ∧
    ((matchPref sampleCache [5]).2.2.evictable_size_ = sampleCache.evictable_size_ ∧
      cacheTotalSize (matchPref sampleCache [5]).2.2 = cacheTotalSize sampleCache ∧
      evictSum (matchPref sampleCache [5]).2.2.root_node
        = evictSum sampleCache.root_node ∧
      pinnedSum (matchPref sampleCache [5]).2.2.root_node
        = pinnedSum sampleCache.root_node ∧
      treeVals (matchPref sampleCache [5]).2.2.root_node
        = treeVals sampleCache.root_node) :=
  ⟨by decide, radix_C7_match_pure sampleCache [5] (by decide)⟩

/-- C4: on a well formed tree, evict never frees the value of a pinned
node: every freed entry came from a node with lock_ref 0 (holding exactly
the freed value), and every node lying on a path to a pinned node survives
the pass with its value and pin count intact. -/
theorem radix_C4_evict_no_pinned_freed (c : Cache) (numTokens : Nat)
    (hwf : wfAt true c.root_node = true) :
    (∀ pv ∈ (evict c numTokens).2,
      ∃ n, resolve c.root_node pv.1 = some n ∧ n.lock_ref = 0 ∧ n.value = pv.2) ∧
    (∀ q r m, resolve c.root_node (q ++ r) = some m → 0 < m.lock_ref →
      ∃ n2, resolve (evict c numTokens).1.root_node q = some n2 ∧
        ∃ n, resolve c.root_node q = some n ∧ n2.value = n.value ∧
          n2.lock_ref = n.lock_ref) := by
  by_cases hdis : c.disable = true
  · constructor
    · intro pv hpv
      rw [evict, if_pos hdis] at hpv
      simp at hpv
    · intro q r m hm hml
      rw [evict, if_pos hdis]
      rw [resolve_append] at hm
      cases hq : resolve c.root_node q with
      | none => rw [hq] at hm; simp at hm
      | some n => exact ⟨n, rfl, n, rfl, rfl, rfl⟩
  · have hmaster := evict_master c numTokens hwf (by simpa using hdis)
    unfold evictInv at hmaster
    dsimp only at hmaster
    obtain ⟨hwf2, hk, hv2, hl, hcnt, ⟨extra, hfr, hprop, hperm, hne⟩, hpin⟩ := hmaster
    constructor
    · intro pv hpv
      have hpv2 : pv ∈ extra := by
        rw [List.nil_append] at hfr
        rw [← hfr]
        exact hpv
      obtain ⟨_, n, hresn, hlock, hval⟩ := hprop pv hpv2
      exact ⟨n, hresn, hlock, hval⟩
    · intro q r m hm hml
      obtain ⟨n, n2, hn, hn2, _, hval2, hlock2⟩ := hpin q r m hm hml
      exact ⟨n2, hn2, n, hn, hval2, hlock2⟩

theorem radix_C4_witness :
    wfAt true sampleCache.root_node = true ∧
    ((∀ pv ∈ (evict sampleCache 1).2,
        ∃ n, resolve sampleCache.root_node pv.1 = some n ∧ n.lock_ref = 0 ∧
          n.value = pv.2) ∧
      (∀ q r m, resolve sampleCache.root_node (q ++ r) = some m → 0 < m.lock_ref →
        ∃ n2, resolve (evict sampleCache 1).1.root_node q = some n2 ∧
          ∃ n, resolve sampleCache.root_node q = some n ∧ n2.value = n.value ∧
            n2.lock_ref = n.lock_ref)) :=
  ⟨by decide, radix_C4_evict_no_pinned_freed sampleCache 1 (by decide)⟩

end RadixCacheModel

namespace RadixCacheModel

/-- C5: on a well formed enabled cache whose tree carries no pin anywhere
below the root and whose counter is consistent, evicting at least
total_size() tokens removes every non root node, leaves evictable_size()
at 0, and hands the callback exactly the stored values: the freed values
concatenated are a permutation of the values stored before the call. -/
theorem radix_C5_evict_unpinned_drains (c : Cache) (numTokens : Nat)
    (hwf : wfAt true c.root_node = true) (hdis : c.disable = false)
    (hnopin : allUnpinnedL c.root_node.children = true)
    (hev : c.evictable_size_ = evictSum c.root_node)
    (hbig : totalSize c.root_node ≤ numTokens) :
    (evict c numTokens).1.root_node.children = [] ∧
    evictableSize (evict c numTokens).1 = 0 ∧
    List.Perm (treeVals c.root_node) (((evict c numTokens).2.map Prod.snd).flatten) := by
  have hA : ∀ q n, q ≠ [] → resolve c.root_node q = some n → n.lock_ref = 0 :=
    fun q n hq hres => allUnpinned_resolve q c.root_node hnopin n hq hres
  have hd := evict_drain c numTokens hwf hdis hA hbig
  have hroot : c.root_node.value = [] := wfAt_true_value_nil hwf
  have hbridge : evictSumN c.root_node = evictSum c.root_node := by
    rw [evictSum_eq, hroot]
    simp
  have hmaster := evict_master c numTokens hwf hdis
  unfold evictInv at hmaster
  dsimp only at hmaster
  obtain ⟨hwf2, hk, hv2, hl, hcnt, ⟨extra, hfr, hprop, hperm, hne⟩, hpin⟩ := hmaster
  have hvalsnil : treeVals (evict c numTokens).1.root_node = [] := by
    rw [treeVals_eq, hd, hv2, hroot]
    simp
  refine ⟨hd, ?_, ?_⟩
  · have hc2 := hcnt (by rw [hev, hbridge])
    rw [evictableSize, hc2, evictSumN_eq, hd, hv2, hroot]
    simp
  · rw [List.nil_append] at hfr
    rw [hfr]
    rw [hvalsnil] at hperm
    simpa using hperm

theorem radix_C5_witness :
    wfAt true sampleCache.root_node = true ∧ sampleCache.disable = false ∧
    allUnpinnedL sampleCache.root_node.children = true ∧
    sampleCache.evictable_size_ = evictSum sampleCache.root_node ∧
    totalSize sampleCache.root_node ≤ 1 ∧
    ((evict sampleCache 1).1.root_node.children = [] ∧
      evictableSize (evict sampleCache 1).1 = 0 ∧
      List.Perm (treeVals sampleCache.root_node)
        (((evict sampleCache 1).2.map Prod.snd).flatten)) :=
  ⟨by decide, rfl, by decide, by decide, by decide,
    radix_C5_evict_unpinned_drains sampleCache 1 (by decide) rfl (by decide)
      (by decide) (by decide)⟩

/-- C6: once insert has fully stored a key on a well formed enabled cache,
a second insert of the same key with any equally long value returns the
full key length and leaves total_size() unchanged: the stored values of the
already present prefix are not replaced. -/
theorem radix_C6_insert_idempotent (c : Cache) (k v v2 : List Tok)
    (hdis : c.disable = false) (hwf : wfAt true c.root_node = true)
    (hv : v.length = k.length) (hv2 : v2.length = k.length) :
    ∃ c1 r1, insert c k (some v) = some (c1, r1) ∧
      ∃ c2, insert c1 k (some v2) = some (c2, k.length) ∧
        cacheTotalSize c2 = cacheTotalSize c1 := by
  have hne : ¬c.disable = true := by rw [hdis]; exact Bool.false_ne_true
  obtain ⟨t1, r, d, ck, heq1, hwf1, _, _, _, _, _, _, _, hfm1, _⟩ :=
    insertHelper_spec (k.length + 2) c.root_node k ((some v).getD k) c.clock true
      hwf (by simpa using hv.symm) le_rfl
  refine ⟨{ c with
      root_node := t1
      evictable_size_ := c.evictable_size_ + d
      clock := ck }, r, ?_, ?_⟩
  · rw [insert, if_neg hne]
    dsimp only
    rw [heq1]
  · obtain ⟨t2, r2, d2, ck2, heq2, hwf2, _, _, _, _, _, htot2, _, _, _⟩ :=
      insertHelper_spec (k.length + 2) t1 k ((some v2).getD k) ck true
        hwf1 (by simpa using hv2.symm) le_rfl
    obtain ⟨t2b, ck2b, heq2b⟩ :=
      insertHelper_fullMatch (k.length + 2) t1 k ((some v2).getD k) ck true
        hwf1 hfm1 le_rfl
    rw [heq2] at heq2b
    simp only [Option.some.injEq, Prod.mk.injEq] at heq2b
    obtain ⟨h1, h2a, h2c, h2d⟩ := heq2b
    refine ⟨{ ({ c with
        root_node := t1
        evictable_size_ := c.evictable_size_ + d
        clock := ck } : Cache) with
      root_node := t2
      evictable_size_ := c.evictable_size_ + d + d2
      clock := ck2 }, ?_, ?_⟩
    · rw [insert, if_neg hne]
      dsimp only
      rw [heq2]
      rw [h2a]
    · rw [cacheTotalSize, cacheTotalSize]
      dsimp only
      have : (totalSize t2 : Int) = totalSize t1 := by
        rw [htot2, h2c]
        ring
      exact_mod_cast this

theorem radix_C6_witness :
    ∃ c1 r1, insert sampleCache [7, 8] (some [3, 4]) = some (c1, r1) ∧
      ∃ c2, insert c1 [7, 8] (some [5, 6]) = some (c2, ([7, 8] : List Tok).length) ∧
        cacheTotalSize c2 = cacheTotalSize c1 :=
  radix_C6_insert_idempotent sampleCache [7, 8] [3, 4] [5, 6] rfl (by decide)
    (by decide) (by decide)

/-- C10: on a well formed enabled cache holding a live unpinned non root
leaf, evict1 called with the reserved argument omitted (wait_tensor None)
raises TypeError at the membership test x not in wait_tensor before any
mutation; the reserved set is a required argument of this variant. -/
theorem radix_C10_evict1_none_raises (c : Cache) (numTokens : Nat)
    (hdis : c.disable = false) (hwf : wfAt true c.root_node = true)
    (hnum : 1 ≤ numTokens) (q : Path) (n : TreeNode) (hq : q ≠ [])
    (hres : resolve c.root_node q = some n) (hnc : n.children = [])
    (hnl : n.lock_ref = 0) :
    evict1 c numTokens none
      = .error "TypeError: argument of type NoneType is not iterable" := by
  rw [evict1, if_neg (by rw [hdis]; exact Bool.false_ne_true)]
  dsimp only
  rw [evict1Loop_error _ numTokens c.root_node c.evictable_size_ _ 0 [] hnum ?_ ?_ ?_]
  · rfl
  · intro e he hnil
    obtain ⟨p, hp, hpe⟩ := List.mem_map.mp he
    rw [collectLeaves_eq] at hp
    subst hpe
    have hnil2 : p = [] := hnil
    rw [hnil2] at hp
    obtain ⟨q2, m, hzq, hres2, hmc⟩ :=
      resolve_of_mem_leafPathsN (nodeCount c.root_node) c.root_node true [] []
        le_rfl hwf hp
    simp at hzq
    subst hzq
    rw [resolve_nil] at hres2
    injection hres2 with hres2
    cases hq2 : q with
    | nil => exact hq hq2
    | cons tok rest =>
      rw [hq2] at hres
      rw [← hres2] at hmc
      rw [resolve_childless_cons hmc] at hres
      exact (Option.noConfusion hres)
  · refine ⟨(timeOf c.root_node q, q), ?_, n, hres, hnl⟩
    refine List.mem_map.mpr ⟨q, ?_, rfl⟩
    rw [collectLeaves_eq]
    have := mem_leafPathsN_of_resolve q c.root_node [] n hres hnc
    simpa using this
  · omega

theorem radix_C10_witness :
    evict1 sampleCache 1 none
      = .error "TypeError: argument of type NoneType is not iterable" :=
  radix_C10_evict1_none_raises sampleCache 1 rfl (by decide) (by decide) [5]
    (TreeNode.mk [5] [5] 0 2 []) (by decide) rfl rfl rfl

end RadixCacheModel

namespace RadixCacheModel

/-- C8 (corrected): on a well formed enabled cache, match_prefix stamps
every node on the matched path, the deepest fully matched node included,
with the time of the call; insert stamps exactly the nodes collected in
insertStamped, which mirrors the recursion of _insert_helper and omits the
deepest node of an exact full hit because that branch of the source
returns before touching the child. -/
theorem radix_C8_traversal_stamps (c : Cache) (key : List Tok)
    (hwf : wfAt true c.root_node = true) (hdis : c.disable = false) :
    (∀ q, q <+: (matchPref c key).2.1 →
      ∃ m, resolve (matchPref c key).2.2.root_node q = some m ∧
        c.clock ≤ m.last_access_time) ∧
    (∀ value, value.length = key.length →
      ∃ c1 r, insert c key (some value) = some (c1, r) ∧
        ∀ q ∈ insertStamped (key.length + 2) c.root_node key c.clock,
          ∃ m, resolve c1.root_node q = some m ∧ c.clock ≤ m.last_access_time) := by
  have hne : ¬c.disable = true := by rw [hdis]; exact Bool.false_ne_true
  constructor
  · rw [matchPref, if_neg hne]
    dsimp only
    exact (prefixMatchHelper_frame c.root_node key c.clock true hwf).2.2.2.2.2.2.2.2
  · intro value hvlen
    obtain ⟨t1, r, d, ck, heq1, _, _, _, _, _, _, _, _, _, hstamp⟩ :=
      insertHelper_spec (key.length + 2) c.root_node key ((some value).getD key)
        c.clock true hwf (by simpa using hvlen.symm) le_rfl
    refine ⟨{ c with
        root_node := t1
        evictable_size_ := c.evictable_size_ + d
        clock := ck }, r, ?_, ?_⟩
    · rw [insert, if_neg hne]
      dsimp only
      rw [heq1]
    · intro q hqmem
      exact hstamp q hqmem

theorem radix_C8_stamps_witness :
    wfAt true sampleCache.root_node = true ∧
    ((∀ q, q <+: (matchPref sampleCache [5]).2.1 →
        ∃ m, resolve (matchPref sampleCache [5]).2.2.root_node q = some m ∧
          sampleCache.clock ≤ m.last_access_time) ∧
      (∀ value, value.length = ([5] : List Tok).length →
        ∃ c1 r, insert sampleCache [5] (some value) = some (c1, r) ∧
          ∀ q ∈ insertStamped (([5] : List Tok).length + 2) sampleCache.root_node
              [5] sampleCache.clock,
            ∃ m, resolve c1.root_node q = some m ∧
              sampleCache.clock ≤ m.last_access_time)) :=
  ⟨by decide, radix_C8_traversal_stamps sampleCache [5] (by decide) rfl⟩

/-- C8 counterexample to the original sentence: on the sample cache, whose
single leaf at [5] carries timestamp 2 and whose clock is 3, re-inserting
the fully present key [5] takes the exact full hit branch of
_insert_helper: the call succeeds, the traversal reaches the leaf (its
cumulative label [5] is fully matched), yet the leaf keeps timestamp 2,
strictly older than the time 3 of the call. -/
theorem radix_C8_exact_hit_not_stamped :
    insert sampleCache [5] none
      = some ({ root_node := TreeNode.mk [] [] 1 3 [(5, TreeNode.mk [5] [5] 0 2 [])]
                evictable_size_ := 1
                clock := 4
                disable := false }, 1) ∧
    sampleCache.clock = 3 ∧
    resolve (TreeNode.mk [] [] 1 3 [(5, TreeNode.mk [5] [5] 0 2 [])]) [5]
      = some (TreeNode.mk [5] [5] 0 2 []) ∧
    (TreeNode.mk [5] [5] 0 2 []).last_access_time < sampleCache.clock :=
  ⟨rfl, rfl, rfl, by decide⟩

/-- The cache after the two inserts of the C2 scenario, as the model
computes it. -/
def C2second : Cache :=
  { root_node := TreeNode.mk [] [] 1 3
      [(1, TreeNode.mk [1, 2] [10, 11] 0 5
        [(3, TreeNode.mk [3, 4] [12, 13] 0 2 []),
         (5, TreeNode.mk [5] [22] 0 6 [])])]
    evictable_size_ := 5
    clock := 7
    disable := false }

/-- C2: from a fresh enabled cache, insert([1,2,3,4], [10,11,12,13])
returns 0; the following insert([1,2,5], [20,21,22]) returns 2 and splits
the stored node, leaving root -> node(key [1,2], value [10,11]) with the
two children node(key [3,4], value [12,13]) and node(key [5], value [22]);
total_size() is then 5 and match_prefix([1,2,3]) returns the three values
[10,11,12]. -/
theorem radix_C2_insert_split_match :
    insert (freshCache false) [1, 2, 3, 4] (some [10, 11, 12, 13])
      = some ({ root_node := TreeNode.mk [] [] 1 1
                  [(1, TreeNode.mk [1, 2, 3, 4] [10, 11, 12, 13] 0 2 [])]
                evictable_size_ := 4
                clock := 3
                disable := false }, 0) ∧
    insert { root_node := TreeNode.mk [] [] 1 1
                [(1, TreeNode.mk [1, 2, 3, 4] [10, 11, 12, 13] 0 2 [])]
             evictable_size_ := 4
             clock := 3
             disable := false } [1, 2, 5] (some [20, 21, 22])
      = some (C2second, 2) ∧
    C2second.root_node = TreeNode.mk [] [] 1 3
      [(1, TreeNode.mk [1, 2] [10, 11] 0 5
        [(3, TreeNode.mk [3, 4] [12, 13] 0 2 []),
         (5, TreeNode.mk [5] [22] 0 6 [])])] ∧
    cacheTotalSize C2second = 5 ∧
    (matchPref C2second [1, 2, 3]).1 = [10, 11, 12] ∧
    (matchPref C2second [1, 2, 3]).1.length = 3 := by
  refine ⟨rfl, rfl, rfl, by decide, ?_, ?_⟩
  · simp [C2second, matchPref, prefixMatchHelper, keyMatch, lookupChild, splitNode]
  · simp [C2second, matchPref, prefixMatchHelper, keyMatch, lookupChild, splitNode]

end RadixCacheModel

namespace RadixCacheModel

/-- The cache of the C3 scenario: two unpinned leaves, key [1] with value
[100] and timestamp 2, key [2] with value [200] and timestamp 4, reached
from a fresh cache by insert([1],[100]) then insert([2],[200]). -/
def C3cache : Cache :=
  { root_node := TreeNode.mk [] [] 1 3
      [(1, TreeNode.mk [1] [100] 0 2 []), (2, TreeNode.mk [2] [200] 0 4 [])]
    evictable_size_ := 2
    clock := 5
    disable := false }

/-- C3 divergence witness: evict1 on the C3 scenario with an empty reserved
set frees the leaf at [2] with timestamp 4 although the unpinned
un-reserved leaf at [1] with the strictly smaller timestamp 2 is in the
candidate list; the plain evict on the same state frees the oldest leaf [1]
first.  evict1 skips the heapify call on the collected leaves (the call is
commented out in the source), so its pops follow the DFS order of
_collect_leaves instead of the oldest first heap order the spec
prescribes. -/
theorem radix_C3_evict1_not_oldest_first :
    (evict1 C3cache 1 (some [])).map (fun r => r.2) = .ok [([2], [200])] ∧
    (evict C3cache 1).2 = [([1], [100])] ∧
    timeOf C3cache.root_node [1] < timeOf C3cache.root_node [2] ∧
    resolve C3cache.root_node [1] = some (TreeNode.mk [1] [100] 0 2 []) ∧
    (TreeNode.mk [1] [100] 0 2 []).lock_ref = 0 ∧
    ([1] : Path) ∉ ([] : List Path) := by
  refine ⟨?_, ?_, by decide, rfl, rfl, by decide⟩
  · simp [C3cache, evict1, collectLeaves, collectGo, timeOf, evict1Loop, heappop,
      heappush, siftupAux, siftdownAux, nodeLt, deleteLeaf, lookupChild, eraseChild,
      resolve, Except.map]
  · simp [C3cache, evict, collectLeaves, collectGo, timeOf, evictLoop, heapify,
      heapifyGo, heappop, heappush, siftupAux, siftdownAux, nodeLt, deleteLeaf,
      lookupChild, eraseChild, resolve]

end RadixCacheModel
